import Mathlib

/-!
# DS18B20 / Dallas 1-Wire master: a shallow embedding

The definitions below follow `src/owi_crc.c`, `src/owi.c` and `src/DS18B20.c`.

* Bytes (`uint8_t`) are natural numbers; every operation of the source that is
  used here maps values below 256 to values below 256, and the lemmas say so.
* A ROM buffer (`uint8_t rom[8]`) is a `List Nat` of length 8.
* The three bit slots of the source (`write_bit1`, `write_bit0`, `read_bit`)
  are the primitive operations of a `Bus`; everything above them
  (`owi_send_byte`, `owi_recv_byte`, the ROM commands, the search) is code
  over an arbitrary bus, threading the bus state explicitly.
* Bounded `for`/`while` loops are structural recursions on the number of
  iterations that remain.
* The reset slot of `owi_detect_presence` and the release of `owi_init` are
  the two further primitive operations of a `Line`; the driver of
  `src/DS18B20.c` is code over an arbitrary line. Its unbounded wait loop takes
  a bound on the iterations and yields `none` when the bound is reached.
* The bit slots, the reset slot and the release are in turn code over the
  operations of the microcontroller, `Hw` (`cli`, `sei`, drive low, release,
  sample, delay); `hwLine` is the line they make.
* The older driver `src/drivers/owi/owi.c` is embedded under the names
  `drivers.`; the loops of its search have no bound in the source and take a
  bound on the loop tests.
-/

namespace OWI

/-! ## `src/owi_crc.c` -/

/-- Macro `#define CRC8_POLY 0x18`. -/
def CRC8_POLY : Nat := 0x18

/-- Macro `#define BYTE_TO_BITS 8`. -/
def BYTE_TO_BITS : Nat := 8

/-- Macro `#define ROM_LEN_BYTES 8`. -/
def ROM_LEN_BYTES : Nat := 8

/-- Macro `#define ROM_SEARCH_FAILED 0xFF`. -/
def ROM_SEARCH_FAILED : Nat := 0xFF

/-- Macro `#define READ_ROM_CMD 0x33`. -/
def READ_ROM_CMD : Nat := 0x33

/-- Macro `#define MATCH_ROM_CMD 0x55`. -/
def MATCH_ROM_CMD : Nat := 0x55

/-- Macro `#define SEARCH_ROM_CMD 0xF0`. -/
def SEARCH_ROM_CMD : Nat := 0xF0

/-- Macro `_BV(n)` of avr-libc: `1 << n`. -/
def _BV (n : Nat) : Nat := 1 <<< n

/-- One iteration of the loop of `crc8`: the new `(data, seed)`. -/
def crc8_round (data seed : Nat) : Nat × Nat :=
  let seed1 :=
    if (data ^^^ seed) &&& 0x01 ≠ 0 then
      (((seed ^^^ CRC8_POLY) >>> 1) ||| _BV 7)
    else
      seed >>> 1
  (data >>> 1, seed1)

/-- The loop `for (idx = 0; idx < BYTE_TO_BITS; idx++)` of `crc8`, by the
number of iterations that remain. -/
def crc8_loop : Nat → Nat → Nat → Nat
  | 0, _, seed => seed
  | n + 1, data, seed =>
    crc8_loop n (crc8_round data seed).1 (crc8_round data seed).2

/-- Function `uint8_t crc8(uint8_t data, uint8_t seed)`. -/
def crc8 (data seed : Nat) : Nat := crc8_loop BYTE_TO_BITS data seed

/-- The CRC of a buffer: `crc = crc8(buf[idx], crc)` for each byte in turn,
the way `scratchpad_crc` chains the calls. -/
def crc8_fold (seed : Nat) (buf : List Nat) : Nat :=
  buf.foldl (fun crc d => crc8 d crc) seed

/-- One round of the reflected CRC-8/MAXIM update as the specification words
it: the register becomes `(s >> 1) XOR 0x8C` when bit 0 of `s XOR d` is 1 and
`s >> 1` otherwise, then `d` is shifted right by one. -/
def maxim_round (d s : Nat) : Nat × Nat :=
  (d >>> 1, if (s ^^^ d) % 2 = 1 then (s >>> 1) ^^^ 0x8C else s >>> 1)

/-- Rounds of `maxim_round`. -/
def maxim_rounds : Nat → Nat → Nat → Nat
  | 0, _, s => s
  | n + 1, d, s => maxim_rounds n (maxim_round d s).1 (maxim_round d s).2

/-- The Dallas/Maxim CRC-8 of one byte as the specification words it: eight
rounds consuming the bits of `d` least-significant first. -/
def crc8_maxim (d s : Nat) : Nat := maxim_rounds 8 d s

/-! ## `src/owi.c`: bit slots, bytes, ROM commands -/

/-- The three bit slots of `src/owi.c` over a bus with state `σ`; each takes
the pin number. -/
structure Bus (σ : Type) where
  /-- Slot `write_bit1(pin)`. -/
  write_bit1 : Nat → σ → σ
  /-- Slot `write_bit0(pin)`. -/
  write_bit0 : Nat → σ → σ
  /-- Slot `read_bit(pin)`: the sampled bit and the new state. -/
  read_bit : Nat → σ → Bool × σ

variable {σ : Type}

/-- Expression `(v & _BV(i)) ? write_bit1(pin) : write_bit0(pin)`. -/
def write_bit (B : Bus σ) (v i pin : Nat) (s : σ) : σ :=
  if v &&& _BV i ≠ 0 then B.write_bit1 pin s else B.write_bit0 pin s

/-- The loop of `owi_send_byte`, by the number of iterations that remain. -/
def owi_send_byte_loop (B : Bus σ) (pin : Nat) : Nat → Nat → σ → σ
  | 0, _, s => s
  | n + 1, data, s =>
    owi_send_byte_loop B pin n (data >>> 1)
      (if data &&& 0x01 ≠ 0 then B.write_bit1 pin s else B.write_bit0 pin s)

/-- Function `void owi_send_byte(uint8_t data, uint8_t pin)`. -/
def owi_send_byte (B : Bus σ) (data pin : Nat) (s : σ) : σ :=
  owi_send_byte_loop B pin BYTE_TO_BITS data s

/-- The loop of `owi_recv_byte`: `n` iterations remain, `idx` is the loop
counter. -/
def owi_recv_byte_loop (B : Bus σ) (pin : Nat) : Nat → Nat → Nat → σ → Nat × σ
  | 0, _, data, s => (data, s)
  | n + 1, idx, data, s =>
    owi_recv_byte_loop B pin n (idx + 1)
      (if (B.read_bit pin s).1 then data ||| _BV idx else data)
      (B.read_bit pin s).2

/-- Function `uint8_t owi_recv_byte(uint8_t pin)`. -/
def owi_recv_byte (B : Bus σ) (pin : Nat) (s : σ) : Nat × σ :=
  owi_recv_byte_loop B pin BYTE_TO_BITS 0 0 s

/-- The loop `for (idx = ROM_LEN_BYTES - 1; idx >= 0; idx--)` of
`owi_read_rom`; the argument is `idx + 1`. -/
def owi_read_rom_loop (B : Bus σ) (pin : Nat) : Nat → List Nat → σ → List Nat × σ
  | 0, rom, s => (rom, s)
  | idx + 1, rom, s =>
    owi_read_rom_loop B pin idx (rom.set idx (owi_recv_byte B pin s).1)
      (owi_recv_byte B pin s).2

/-- Function `void owi_read_rom(uint8_t *rom, uint8_t pin)`: the buffer and the bus
after the call. -/
def owi_read_rom (B : Bus σ) (rom : List Nat) (pin : Nat) (s : σ) : List Nat × σ :=
  owi_read_rom_loop B pin ROM_LEN_BYTES rom (owi_send_byte B READ_ROM_CMD pin s)

/-- The loop `for (idx = ROM_LEN_BYTES - 1; idx >= 0; idx--)` of
`owi_match_rom`; the argument is `idx + 1`. -/
def owi_match_rom_loop (B : Bus σ) (rom : List Nat) (pin : Nat) : Nat → σ → σ
  | 0, s => s
  | idx + 1, s =>
    owi_match_rom_loop B rom pin idx (owi_send_byte B (rom.getD idx 0) pin s)

/-- Function `void owi_match_rom(uint8_t *rom, uint8_t pin)`: the buffer (never
written) and the bus after the call. -/
def owi_match_rom (B : Bus σ) (rom : List Nat) (pin : Nat) (s : σ) : List Nat × σ :=
  (rom, owi_match_rom_loop B rom pin ROM_LEN_BYTES (owi_send_byte B MATCH_ROM_CMD pin s))

/-! ## `src/owi.c`: `owi_search_rom` -/

/-- Statement `rom[byte_idx] |= _BV(bit_idx)`. -/
def set_bit (rom : List Nat) (byte_idx bit_idx : Nat) : List Nat :=
  rom.set byte_idx (rom.getD byte_idx 0 ||| _BV bit_idx)

/-- Statement `rom[byte_idx] &= ~_BV(bit_idx)`; on a `uint8_t` the complement of
`_BV(bit_idx)` is `0xFF ^ _BV(bit_idx)`. -/
def clear_bit (rom : List Nat) (byte_idx bit_idx : Nat) : List Nat :=
  rom.set byte_idx (rom.getD byte_idx 0 &&& (0xFF ^^^ _BV bit_idx))

/-- The local variables of `owi_search_rom` together with the buffer and
the bus. -/
structure SearchState (σ : Type) where
  rom : List Nat
  err : Bool
  bit_idx : Nat
  byte_idx : Nat
  curr_idx : Nat
  new_deviation : Nat
  bus : σ

/-- The `if / else if / else` of the inner loop body that follows the test
for the pair `(1,1)`: the buffer and `new_deviation` after it. -/
def search_decide (rom : List Nat) (byte_idx bit_idx curr_idx last_deviation
    new_deviation : Nat) (bit1 bit2 : Bool) : List Nat × Nat :=
  if bit1 != bit2 then
    if bit1 then (set_bit rom byte_idx bit_idx, new_deviation)
    else (clear_bit rom byte_idx bit_idx, new_deviation)
  else
    if curr_idx = last_deviation then
      (set_bit rom byte_idx bit_idx, new_deviation)
    else if curr_idx > last_deviation then
      (clear_bit rom byte_idx bit_idx, curr_idx)
    else if ¬ (rom.getD byte_idx 0 &&& _BV bit_idx ≠ 0) then
      (rom, curr_idx)
    else
      (rom, new_deviation)

/-- One pass through the body of the inner `while` loop. When both reads
are 1 the body sets `err`, stores `ROM_SEARCH_FAILED` and breaks; otherwise it
settles the bit, writes it to the bus and advances `bit_idx`, `curr_idx`. -/
def search_body (B : Bus σ) (last_deviation pin : Nat) (st : SearchState σ) :
    SearchState σ :=
  let r1 := B.read_bit pin st.bus
  let r2 := B.read_bit pin r1.2
  if r1.1 && r2.1 then
    { st with err := true, new_deviation := ROM_SEARCH_FAILED, bus := r2.2 }
  else
    let d := search_decide st.rom st.byte_idx st.bit_idx st.curr_idx
      last_deviation st.new_deviation r1.1 r2.1
    { rom := d.1
      err := st.err
      bit_idx := st.bit_idx + 1
      byte_idx := st.byte_idx
      curr_idx := st.curr_idx + 1
      new_deviation := d.2
      bus := write_bit B (d.1.getD st.byte_idx 0) st.bit_idx pin r2.2 }

/-- The inner loop `while (bit_idx < BYTE_TO_BITS)`, left early by the
`break` of the failure branch; the first argument bounds the iterations. -/
def search_inner (B : Bus σ) (last_deviation pin : Nat) :
    Nat → SearchState σ → SearchState σ
  | 0, st => st
  | n + 1, st =>
    if st.bit_idx < BYTE_TO_BITS then
      if (search_body B last_deviation pin st).err then
        search_body B last_deviation pin st
      else
        search_inner B last_deviation pin n (search_body B last_deviation pin st)
    else st

/-- The outer loop `while (byte_idx < ROM_LEN_BYTES)`, left early by
`if (err) break;`; the first argument bounds the iterations. -/
def search_outer (B : Bus σ) (last_deviation pin : Nat) :
    Nat → SearchState σ → SearchState σ
  | 0, st => st
  | n + 1, st =>
    if st.byte_idx < ROM_LEN_BYTES then
      if (search_inner B last_deviation pin BYTE_TO_BITS st).err then
        search_inner B last_deviation pin BYTE_TO_BITS st
      else
        search_outer B last_deviation pin n
          { search_inner B last_deviation pin BYTE_TO_BITS st with
            bit_idx := 0
            byte_idx := (search_inner B last_deviation pin BYTE_TO_BITS st).byte_idx + 1 }
    else st

/-- The state of `owi_search_rom` when it enters the outer loop. -/
def search_init (rom : List Nat) (s : σ) : SearchState σ :=
  { rom := rom, err := false, bit_idx := 0, byte_idx := 0, curr_idx := 1,
    new_deviation := 0, bus := s }

/-- The final state of the locals of `owi_search_rom`. Both loops advance
their counter in every iteration that does not break, so 8 iterations each
are all they can make. -/
def owi_search_rom_state (B : Bus σ) (rom : List Nat) (last_deviation pin : Nat)
    (s : σ) : SearchState σ :=
  search_outer B last_deviation pin ROM_LEN_BYTES
    (search_init rom (owi_send_byte B SEARCH_ROM_CMD pin s))

/-- Function `uint8_t owi_search_rom(uint8_t *rom, uint8_t last_deviation, uint8_t pin)`:
the value returned, the buffer and the bus after the call. -/
def owi_search_rom (B : Bus σ) (rom : List Nat) (last_deviation pin : Nat)
    (s : σ) : Nat × List Nat × σ :=
  ((owi_search_rom_state B rom last_deviation pin s).new_deviation,
   (owi_search_rom_state B rom last_deviation pin s).rom,
   (owi_search_rom_state B rom last_deviation pin s).bus)

/-! ## Simulated buses -/

/-- A bit slot seen on the bus: a read slot with the bit sampled, or a
write slot with the bit written. -/
inductive Event where
  | rd (b : Bool)
  | wr (b : Bool)
  deriving DecidableEq, Repr

/-- A scripted bus: the bits still to be sampled and the slots performed so
far, oldest first. -/
structure Script where
  pending : List Bool
  log : List Event
  deriving DecidableEq, Repr

/-- The scripted bus: a read slot samples the next scripted bit (an idle,
pulled-up line reads 1 once the script is used up); every slot is logged. -/
def scriptBus : Bus Script where
  write_bit1 := fun _ s => { s with log := s.log ++ [Event.wr true] }
  write_bit0 := fun _ s => { s with log := s.log ++ [Event.wr false] }
  read_bit := fun _ s =>
    (s.pending.headD true,
     { pending := s.pending.tail, log := s.log ++ [Event.rd (s.pending.headD true)] })

/-- The bits written by the write slots of a log, in order. -/
def written : List Event → List Bool
  | [] => []
  | Event.wr b :: es => b :: written es
  | Event.rd _ :: es => written es

/-- The eight bits of a byte, least-significant first. -/
def byte_bits (d : Nat) : List Bool :=
  (List.range 8).map (fun i => d.testBit i)

/-- The byte assembled from bits received least-significant first. -/
def bits_byte : List Bool → Nat
  | [] => 0
  | b :: bs => (if b then 1 else 0) + 2 * bits_byte bs

/-- Bit `i` (0-based, `i < 64`) of the 64-bit ROM held in an 8-byte buffer:
bit `i % 8` of byte `i / 8`. -/
def rom_bit (rom : List Nat) (i : Nat) : Bool :=
  (rom.getD (i / 8) 0).testBit (i % 8)

/-- An 8-byte buffer: eight values below 256. -/
def is_rom (rom : List Nat) : Prop :=
  rom.length = 8 ∧ ∀ x ∈ rom, x < 256

instance (rom : List Nat) : Decidable (is_rom rom) :=
  inferInstanceAs (Decidable (rom.length = 8 ∧ ∀ x ∈ rom, x < 256))

/-- The devices of a wired-AND bus during a Search ROM pass: the devices
still selected, the bit position they are at, and the slot within the
position (0: next read is the bit, 1: next read is its complement, 2: the
master writes its choice). -/
structure Wired where
  sel : List (List Nat)
  pos : Nat
  phase : Nat
  deriving DecidableEq, Repr

/-- A written bit in slot 2 deselects every device whose bit differs and
moves on to the next position; a write in another slot (the command byte) is
not a direction bit and changes nothing. -/
def wired_write (b : Bool) (w : Wired) : Wired :=
  if w.phase = 2 then
    { sel := w.sel.filter (fun r => rom_bit r w.pos == b), pos := w.pos + 1, phase := 0 }
  else w

/-- The wired-AND bus: the first read of a pair returns the AND of the bits
of the selected devices, the second the AND of their complements. -/
def wiredBus : Bus Wired where
  write_bit1 := fun _ w => wired_write true w
  write_bit0 := fun _ w => wired_write false w
  read_bit := fun _ w =>
    if w.phase = 0 then (w.sel.all (fun r => rom_bit r w.pos), { w with phase := 1 })
    else if w.phase = 1 then (w.sel.all (fun r => !rom_bit r w.pos), { w with phase := 2 })
    else (true, w)

/-- The bus at the start of a call: every device selected. -/
def wired_start (D : List (List Nat)) : Wired := { sel := D, pos := 0, phase := 0 }

/-- The caller of `owi_search_rom` on the bus with devices `D`: call with
`last_deviation`, then again with the value returned and the buffer left, and
stop after the first call that returns 0. The list holds the value returned
and the buffer left by each call; the first argument bounds the calls. -/
def search_all (D : List (List Nat)) (pin : Nat) :
    Nat → List Nat → Nat → List (Nat × List Nat)
  | 0, _, _ => []
  | n + 1, rom, last_deviation =>
    let r := owi_search_rom wiredBus rom last_deviation pin (wired_start D)
    (r.1, r.2.1) :: (if r.1 = 0 then [] else search_all D pin n r.2.1 r.1)

/-- The buffer with bit `j` of byte `i` flipped. -/
def flip_bit (buf : List Nat) (i j : Nat) : List Nat :=
  buf.set i (buf.getD i 0 ^^^ (1 <<< j))

/-- The bits sampled by `n` successive read slots of the scripted bus whose
pending script is `p`. -/
def sampled : Nat → List Bool → List Bool
  | 0, _ => []
  | n + 1, p => p.headD true :: sampled n p.tail

/-! ## Definitions used to state and prove the properties -/

/-- The 64 bits of a buffer in the order `owi_match_rom` puts them on the
wire: `rom[7]` first, `rom[0]` last, each byte least-significant bit first. -/
def wire_bits (r : List Nat) : List Bool :=
  byte_bits (r.getD 7 0) ++ byte_bits (r.getD 6 0) ++ byte_bits (r.getD 5 0) ++
  byte_bits (r.getD 4 0) ++ byte_bits (r.getD 3 0) ++ byte_bits (r.getD 2 0) ++
  byte_bits (r.getD 1 0) ++ byte_bits (r.getD 0 0)

/-- The byte assembled from the `k`-th group of eight sampled bits. -/
def wire_byte (p : List Bool) (k : Nat) : Nat := bits_byte (sampled 8 (p.drop (8 * k)))

/-- The locals of `owi_search_rom` at the top of the inner loop with
`byte_idx = b`, `bit_idx = k` and no failure so far. -/
def search_at (b k : Nat) (rom : List Nat) (nd : Nat) (s : σ) : SearchState σ :=
  { rom := rom, err := false, bit_idx := k, byte_idx := b, curr_idx := 8 * b + k + 1,
    new_deviation := nd, bus := s }

/-- The search as one loop over bit positions: `n` positions from the
0-based position `i` on, stopping at the first failure. -/
def search_steps (B : Bus σ) (last_deviation pin : Nat) :
    Nat → Nat → List Nat → Nat → σ → SearchState σ
  | 0, i, rom, nd, s => search_at (i / 8) (i % 8) rom nd s
  | n + 1, i, rom, nd, s =>
    if (search_body B last_deviation pin (search_at (i / 8) (i % 8) rom nd s)).err then
      search_body B last_deviation pin (search_at (i / 8) (i % 8) rom nd s)
    else
      search_steps B last_deviation pin n (i + 1)
        (search_body B last_deviation pin (search_at (i / 8) (i % 8) rom nd s)).rom
        (search_body B last_deviation pin (search_at (i / 8) (i % 8) rom nd s)).new_deviation
        (search_body B last_deviation pin (search_at (i / 8) (i % 8) rom nd s)).bus

/-- What leaves the inner loop: the failure state, or the state with
`bit_idx = 8`. -/
def inner_exit (b : Nat) (r : SearchState σ) : SearchState σ :=
  if r.err then r else { r with bit_idx := 8, byte_idx := b }

/-- The bit the search settles at 0-based position `i`, given the bit `cur`
the buffer holds there and the pair read. -/
def choose_bit (L i : Nat) (cur bit1 bit2 : Bool) : Bool :=
  if bit1 != bit2 then bit1
  else if i + 1 = L then true
  else if i + 1 > L then false
  else cur

/-- The value of `new_deviation` after 0-based position `i`. -/
def choose_dev (L i : Nat) (cur : Bool) (nd : Nat) (bit1 bit2 : Bool) : Nat :=
  if bit1 != bit2 then nd
  else if i + 1 = L then nd
  else if i + 1 > L then i + 1
  else if cur then nd
  else i + 1

/-- The slots of `m` successive positions of a search pass from the 0-based
position `i`, on the scripted bus with pending script `q`: two read slots and
the write of the bit that the buffer `r` holds at the position. -/
def search_log (r : List Nat) : Nat → Nat → List Bool → List Event
  | 0, _, _ => []
  | m + 1, i, q =>
    Event.rd (q.headD true) :: Event.rd (q.tail.headD true) :: Event.wr (rom_bit r i) ::
      search_log r m (i + 1) q.tail.tail

/-- Both read slots of the `j`-th pair of the script sample 1. -/
def pair_11 (q : List Bool) (j : Nat) : Prop :=
  q.getD (2 * j) true = true ∧ q.getD (2 * j + 1) true = true

instance (q : List Bool) (j : Nat) : Decidable (pair_11 q j) :=
  inferInstanceAs (Decidable (q.getD (2 * j) true = true ∧ q.getD (2 * j + 1) true = true))

/-- Two buffers hold the same bits at the positions before `i`. -/
def agree (a b : List Nat) (i : Nat) : Prop := ∀ j < i, rom_bit a j = rom_bit b j

/-- At position `j` the buffer `c` holds 0 and some device that agrees with
`c` before `j` holds 1: a discrepancy whose 1-branch is still to be explored. -/
def zero_disc (D : List (List Nat)) (c : List Nat) (j : Nat) : Prop :=
  rom_bit c j = false ∧ ∃ d ∈ D, agree d c j ∧ rom_bit d j = true

/-- The bit the search settles at a discrepancy at 0-based position `j`,
for the buffer `b` passed in. -/
def choice (L : Nat) (b : List Nat) (j : Nat) : Bool :=
  if j + 1 = L then true else if j + 1 > L then false else rom_bit b j

/-- The state of a pass over the wired-AND bus with devices `D` when it
reaches position `i`, started with buffer `b` and `last_deviation = L`. -/
structure PassInv (D : List (List Nat)) (b : List Nat) (L i : Nat) (r : List Nat) (nd : Nat)
    (w : Wired) : Prop where
  rom : is_rom r
  pos : w.pos = i
  phase : w.phase = 0
  ne : w.sel ≠ []
  sel : ∀ d, d ∈ w.sel ↔ d ∈ D ∧ agree d r i
  rest : ∀ j, i ≤ j → rom_bit r j = rom_bit b j
  chosen : ∀ j < i, ∀ d ∈ D, agree d r j → rom_bit d j ≠ rom_bit r j → rom_bit r j = choice L b j
  nd_le : nd ≤ i
  nd_disc : nd ≠ 0 → zero_disc D r (nd - 1)
  nd_max : ∀ j < i, zero_disc D r j → j + 1 ≤ nd

/-- The order in which the search visits ROMs: `a` comes before `b` when at
the first position where they differ `a` holds 0 and `b` holds 1. -/
def lex_lt (a b : List Nat) : Prop :=
  ∃ q, q < 64 ∧ agree a b q ∧ rom_bit a q = false ∧ rom_bit b q = true

instance (a b : List Nat) (i : Nat) : Decidable (agree a b i) :=
  inferInstanceAs (Decidable (∀ j < i, rom_bit a j = rom_bit b j))

instance (a b : List Nat) : Decidable (lex_lt a b) :=
  inferInstanceAs (Decidable (∃ q, q < 64 ∧ agree a b q ∧ rom_bit a q = false ∧ rom_bit b q = true))

/-- The buffer `c` is a device of `D` and `nd` is the last position (1-based)
where `c` has a discrepancy with its 1-branch unexplored, 0 if there is none:
what a call of the search leaves for the next call. -/
def Good (D : List (List Nat)) (c : List Nat) (nd : Nat) : Prop :=
  c ∈ D ∧ nd ≤ 64 ∧ (nd ≠ 0 → zero_disc D c (nd - 1)) ∧
    ∀ j < 64, zero_disc D c j → j + 1 ≤ nd

/-- The bits of a list of bytes in transmission order: first byte first,
each byte least-significant bit first. -/
def bytes_bits : List Nat → List Bool
  | [] => []
  | d :: t => byte_bits d ++ bytes_bits t

/-- The 64 bits a device presents: its seven identity bytes (family code
first, then the six serial bytes) followed by the CRC8 of those seven. -/
def device_stream (id : List Nat) : List Bool :=
  bytes_bits (id ++ [crc8_fold 0 id])

/-! ## `src/owi.c`: reset, presence, busy -/

/-- The operations of `src/owi.c` on the line that are not bit slots, next to
the three bit slots of `Bus`: the reset slot of `owi_detect_presence` (drive
low, wait, release, wait, sample, wait), which yields the level sampled, and
the release of the line done by `owi_init`. Each takes the pin number. -/
structure Line (σ : Type) extends Bus σ where
  /-- The reset slot of `owi_detect_presence(pin)`: the level sampled
  (`read_bus_value(pin)`) and the new state. -/
  reset_slot : Nat → σ → Bool × σ
  /-- The body of `owi_init(pin)`: release the line and wait. -/
  init_slot : Nat → σ → σ

/-- Function `void owi_init(uint8_t pin)`. -/
def owi_init (L : Line σ) (pin : Nat) (s : σ) : σ := L.init_slot pin s

/-- Function `bool owi_is_busy(uint8_t pin)`: `!(read_bit(pin))`. -/
def owi_is_busy (L : Line σ) (pin : Nat) (s : σ) : Bool × σ :=
  (!(L.read_bit pin s).1, (L.read_bit pin s).2)

/-- Function `bool owi_detect_presence(uint8_t pin)`:
`present = !(read_bus_value(pin))`, the line is low when a device answers. -/
def owi_detect_presence (L : Line σ) (pin : Nat) (s : σ) : Bool × σ :=
  (!(L.reset_slot pin s).1, (L.reset_slot pin s).2)

/-! ## `src/DS18B20.c` -/

/-- Macro `#define READ_SCRATCHPAD_CMD 0xBE`. -/
def READ_SCRATCHPAD_CMD : Nat := 0xBE

/-- Macro `#define CONVERT_TEMP_CMD 0x44`. -/
def CONVERT_TEMP_CMD : Nat := 0x44

/-- Macro `#define SCRATCHPAD_LEN_BYTES 9`. -/
def SCRATCHPAD_LEN_BYTES : Nat := 9

/-- Macro `#define EXPECTED_CRC_IDX 8`. -/
def EXPECTED_CRC_IDX : Nat := 8

/-- Macro `#define TEMP_HI_IDX 1`. -/
def TEMP_HI_IDX : Nat := 1

/-- Macro `#define TEMP_LO_IDX 0`. -/
def TEMP_LO_IDX : Nat := 0

/-- Macro `#define PRECISION 0.0625F`: the float 0.0625 is exactly `1 / 16`. -/
def PRECISION : ℚ := 1 / 16

/-- Record `ds18b20_dev_t` of `src/DS18B20.h`. The field `temp` is a `float`
in the source; the only values the driver stores are 0 and
`(float)raw_temp * 0.0625F` with `raw_temp` a `uint16_t`: a 16-bit integer is
exact in a float and so is its product with `2 ^ (-4)`, so the stored value
is the rational number `raw_temp / 16`, which is what `temp` holds here. -/
structure ds18b20_dev_t where
  pin : Nat
  rom : List Nat
  temp : ℚ
  deriving DecidableEq, Repr

/-- The loop `for (idx = 0; idx < EXPECTED_CRC_IDX; idx++)` of
`scratchpad_crc`: `n` iterations remain, `idx` is the loop counter. -/
def scratchpad_crc_loop (scratchpad : List Nat) : Nat → Nat → Nat → Nat
  | 0, _, crc => crc
  | n + 1, idx, crc =>
    scratchpad_crc_loop scratchpad n (idx + 1) (crc8 (scratchpad.getD idx 0) crc)

/-- Function `static bool scratchpad_crc(uint8_t *scratchpad)`: true (error)
when the CRC computed over bytes 0..7 differs from byte 8. -/
def scratchpad_crc (scratchpad : List Nat) : Bool :=
  if scratchpad_crc_loop scratchpad EXPECTED_CRC_IDX 0 0 ≠
      scratchpad.getD EXPECTED_CRC_IDX 0 then true else false

/-- The loop `for (idx = 0; idx < SCRATCHPAD_LEN_BYTES; idx++)` of
`read_scratchpad`: `n` iterations remain, `idx` is the loop counter. -/
def read_scratchpad_loop (L : Line σ) (pin : Nat) :
    Nat → Nat → List Nat → σ → List Nat × σ
  | 0, _, scratchpad, s => (scratchpad, s)
  | n + 1, idx, scratchpad, s =>
    read_scratchpad_loop L pin n (idx + 1)
      (scratchpad.set idx (owi_recv_byte L.toBus pin s).1)
      (owi_recv_byte L.toBus pin s).2

/-- Function `static bool read_scratchpad(ds18b20_dev_t *dev, uint8_t *scratchpad)`:
the error flag, the scratchpad buffer and the bus after the call. The value
of `owi_detect_presence` is not used. -/
def read_scratchpad (L : Line σ) (dev : ds18b20_dev_t) (scratchpad : List Nat) (s : σ) :
    Bool × List Nat × σ :=
  let s1 := (owi_detect_presence L dev.pin s).2
  let s2 := (owi_match_rom L.toBus dev.rom dev.pin s1).2
  let s3 := owi_send_byte L.toBus READ_SCRATCHPAD_CMD dev.pin s2
  let r := read_scratchpad_loop L dev.pin SCRATCHPAD_LEN_BYTES 0 scratchpad s3
  (scratchpad_crc r.1, r.1, r.2)

/-- Function `bool ds18b20_init(ds18b20_dev_t *dev, uint8_t pin)`; `none` is
the null pointer. The error flag, the record and the bus after the call. -/
def ds18b20_init (L : Line σ) (dev : Option ds18b20_dev_t) (pin : Nat) (s : σ) :
    Bool × Option ds18b20_dev_t × σ :=
  match dev with
  | none => (true, none, s)
  | some d => (false, some { d with temp := 0, pin := pin }, owi_init L pin s)

/-- Function `bool ds18b20_get_rom(ds18b20_dev_t *dev)`: the error flag, the
record and the bus after the call. -/
def ds18b20_get_rom (L : Line σ) (dev : ds18b20_dev_t) (s : σ) :
    Bool × ds18b20_dev_t × σ :=
  let p := owi_detect_presence L dev.pin s
  if !p.1 then (true, dev, p.2)
  else
    (false, { dev with rom := (owi_read_rom L.toBus dev.rom dev.pin p.2).1 },
      (owi_read_rom L.toBus dev.rom dev.pin p.2).2)

/-- The loop `while (owi_is_busy(dev->pin));` of `ds18b20_read_temp`. The
source puts no bound on it; the first argument bounds the iterations of the
model, and `none` is a loop that has not ended within the bound. -/
def wait_conversion (L : Line σ) (pin : Nat) : Nat → σ → Option σ
  | 0, _ => none
  | n + 1, s =>
    if (owi_is_busy L pin s).1 then wait_conversion L pin n (owi_is_busy L pin s).2
    else some (owi_is_busy L pin s).2

/-- The value of `raw_temp = (scratchpad[TEMP_HI_IDX] << 8) | scratchpad[TEMP_LO_IDX]`,
a `uint16_t`. -/
def raw_temp (scratchpad : List Nat) : Nat :=
  ((scratchpad.getD TEMP_HI_IDX 0 <<< 8) ||| scratchpad.getD TEMP_LO_IDX 0) % 65536

/-- The part of `ds18b20_read_temp` that follows the wait loop: read the
scratchpad and, when its CRC is right, end the transaction with a reset and
store the temperature. `scratchpad` is the content of the local array, which
the source leaves uninitialised. -/
def read_temp_finish (L : Line σ) (dev : ds18b20_dev_t) (scratchpad : List Nat) (s : σ) :
    Bool × ds18b20_dev_t × σ :=
  let r := read_scratchpad L dev scratchpad s
  if !r.1 then
    (r.1, { dev with temp := (raw_temp r.2.1 : ℚ) * PRECISION },
      (owi_detect_presence L dev.pin r.2.2).2)
  else (r.1, dev, r.2.2)

/-- Function `bool ds18b20_read_temp(ds18b20_dev_t *dev)`: the error flag, the
record and the bus after the call, or `none` when the wait loop has not ended
within `fuel` iterations. The value of the first `owi_detect_presence` is not
used. -/
def ds18b20_read_temp (L : Line σ) (dev : ds18b20_dev_t) (scratchpad : List Nat)
    (fuel : Nat) (s : σ) : Option (Bool × ds18b20_dev_t × σ) :=
  let s1 := (owi_detect_presence L dev.pin s).2
  let s2 := (owi_match_rom L.toBus dev.rom dev.pin s1).2
  let s3 := owi_send_byte L.toBus CONVERT_TEMP_CMD dev.pin s2
  match wait_conversion L dev.pin fuel s3 with
  | none => none
  | some s4 => some (read_temp_finish L dev scratchpad s4)

/-! ## The scripted line -/

/-- What is seen on the line: a bit slot, a reset slot with the level
sampled, or the release done by `owi_init`. -/
inductive LineEvent where
  | slot (e : Event)
  | reset (level : Bool)
  | init
  deriving DecidableEq, Repr

/-- A scripted line: the levels still to be sampled (by read slots and reset
slots alike) and what was done so far, oldest first. -/
structure LineScript where
  pending : List Bool
  log : List LineEvent
  deriving DecidableEq, Repr

/-- The scripted line: a read slot and a reset slot each sample the next
scripted level (an idle, pulled-up line reads 1 once the script is used up);
everything is logged. -/
def scriptLine : Line LineScript where
  write_bit1 := fun _ s => { s with log := s.log ++ [LineEvent.slot (Event.wr true)] }
  write_bit0 := fun _ s => { s with log := s.log ++ [LineEvent.slot (Event.wr false)] }
  read_bit := fun _ s =>
    (s.pending.headD true,
     { pending := s.pending.tail,
       log := s.log ++ [LineEvent.slot (Event.rd (s.pending.headD true))] })
  reset_slot := fun _ s =>
    (s.pending.headD true,
     { pending := s.pending.tail, log := s.log ++ [LineEvent.reset (s.pending.headD true)] })
  init_slot := fun _ s => { s with log := s.log ++ [LineEvent.init] }

/-- The write slots of a list of bits, as line events. -/
def wr_slots (l : List Bool) : List LineEvent :=
  l.map (fun b => LineEvent.slot (Event.wr b))

/-- The read slots of a list of sampled bits, as line events. -/
def rd_slots (l : List Bool) : List LineEvent :=
  l.map (fun b => LineEvent.slot (Event.rd b))

/-- Write slots for the bits of a list, in order, on any bus. -/
def write_bits (B : Bus σ) (pin : Nat) : List Bool → σ → σ
  | [], s => s
  | b :: t, s => write_bits B pin t (if b then B.write_bit1 pin s else B.write_bit0 pin s)

/-- Successive read slots on any bus, `n` of them: the bits sampled, in
order, and the bus after them. -/
def read_slots (B : Bus σ) (pin : Nat) : Nat → σ → List Bool × σ
  | 0, s => ([], s)
  | n + 1, s =>
    ((B.read_bit pin s).1 :: (read_slots B pin n (B.read_bit pin s).2).1,
      (read_slots B pin n (B.read_bit pin s).2).2)

/-- The sum over `i < 8` of `b_i * 2 ^ i` for the bits `b_i` of a list. -/
def bits_sum (l : List Bool) : Nat :=
  ((List.range 8).map (fun i => (if l.getD i false then 1 else 0) * 2 ^ i)).sum

/-- A script for one call of `ds18b20_read_temp`: the level sampled by the
first reset slot, `N` busy samples and the ready sample of the wait loop, the
level sampled by the second reset slot, the 72 bits of the scratchpad bytes
`sp` (first byte first, least-significant bit first), and what follows. -/
def temp_script (r0 : Bool) (N : Nat) (r1 : Bool) (sp : List Nat) (rest : List Bool) :
    List Bool :=
  r0 :: (List.replicate N false ++ true :: r1 :: (bytes_bits sp ++ rest))

/-- What `ds18b20_read_temp` does on the line up to the end of the
scratchpad read, for the record `dev` and the script `temp_script r0 N r1 sp`:
reset, Match ROM, Convert-Temperature, the `N + 1` read slots of the wait
loop, reset, Match ROM, Read-Scratchpad, the 72 read slots. -/
def temp_log (dev : ds18b20_dev_t) (r0 : Bool) (N : Nat) (r1 : Bool) (sp : List Nat) :
    List LineEvent :=
  LineEvent.reset r0 ::
    (wr_slots (byte_bits MATCH_ROM_CMD ++ wire_bits dev.rom ++ byte_bits CONVERT_TEMP_CMD) ++
     (rd_slots (List.replicate N false ++ [true]) ++
      (LineEvent.reset r1 ::
        (wr_slots (byte_bits MATCH_ROM_CMD ++ wire_bits dev.rom ++
            byte_bits READ_SCRATCHPAD_CMD) ++
         rd_slots (bytes_bits sp)))))

/-! ## `src/owi.c`: the bit slots on the pin -/

/-- Macro `#define OWI_DELAY_US_A 6`. -/
def OWI_DELAY_US_A : Nat := 6

/-- Macro `#define OWI_DELAY_US_B 64`. -/
def OWI_DELAY_US_B : Nat := 64

/-- Macro `#define OWI_DELAY_US_C 60`. -/
def OWI_DELAY_US_C : Nat := 60

/-- Macro `#define OWI_DELAY_US_D 10`. -/
def OWI_DELAY_US_D : Nat := 10

/-- Macro `#define OWI_DELAY_US_E 9`. -/
def OWI_DELAY_US_E : Nat := 9

/-- Macro `#define OWI_DELAY_US_F 55`. -/
def OWI_DELAY_US_F : Nat := 55

/-- Macro `#define OWI_DELAY_US_H 480`. -/
def OWI_DELAY_US_H : Nat := 480

/-- Macro `#define OWI_DELAY_US_I 70`. -/
def OWI_DELAY_US_I : Nat := 70

/-- Macro `#define OWI_DELAY_US_J 410`. -/
def OWI_DELAY_US_J : Nat := 410

/-- What `src/owi.c` does to the microcontroller: `cli()`, `sei()`,
`drive_bus_low(pin)`, `release_bus(pin)`, `read_bus_value(pin)` (the level of
the pin and the new state) and `_delay_us(us)`, over a state `σ`. -/
structure Hw (σ : Type) where
  /-- Disable interrupts: `cli()`. -/
  cli : σ → σ
  /-- Enable interrupts: `sei()`. -/
  sei : σ → σ
  /-- Drive the pin low: `drive_bus_low(pin)`. -/
  drive_bus_low : Nat → σ → σ
  /-- Make the pin an input: `release_bus(pin)`. -/
  release_bus : Nat → σ → σ
  /-- Sample the pin: `read_bus_value(pin)`. -/
  read_bus_value : Nat → σ → Bool × σ
  /-- Busy delay: `_delay_us(us)`. -/
  delay_us : Nat → σ → σ

/-- Function `static inline void write_bit1(uint8_t pin)`. -/
def write_bit1 (H : Hw σ) (pin : Nat) (s : σ) : σ :=
  H.sei (H.delay_us OWI_DELAY_US_B (H.release_bus pin
    (H.delay_us OWI_DELAY_US_A (H.drive_bus_low pin (H.cli s)))))

/-- Function `static inline void write_bit0(uint8_t pin)`. -/
def write_bit0 (H : Hw σ) (pin : Nat) (s : σ) : σ :=
  H.sei (H.delay_us OWI_DELAY_US_D (H.release_bus pin
    (H.delay_us OWI_DELAY_US_C (H.drive_bus_low pin (H.cli s)))))

/-- Function `static inline bool read_bit(uint8_t pin)`. -/
def read_bit (H : Hw σ) (pin : Nat) (s : σ) : Bool × σ :=
  let r := H.read_bus_value pin (H.delay_us OWI_DELAY_US_E (H.release_bus pin
    (H.delay_us OWI_DELAY_US_A (H.drive_bus_low pin (H.cli s)))))
  (r.1, H.sei (H.delay_us OWI_DELAY_US_F r.2))

/-- The statements of `owi_detect_presence(pin)` on the pin: `cli`, drive
low, wait H, release, wait I, `read_bus_value`, wait J, `sei`. The value is
the level sampled; `owi_detect_presence` returns its negation. -/
def presence_slot (H : Hw σ) (pin : Nat) (s : σ) : Bool × σ :=
  let r := H.read_bus_value pin (H.delay_us OWI_DELAY_US_I (H.release_bus pin
    (H.delay_us OWI_DELAY_US_H (H.drive_bus_low pin (H.cli s)))))
  (r.1, H.sei (H.delay_us OWI_DELAY_US_J r.2))

/-- The statements of `owi_init(pin)`: `release_bus(pin)`, wait H. -/
def init_release (H : Hw σ) (pin : Nat) (s : σ) : σ :=
  H.delay_us OWI_DELAY_US_H (H.release_bus pin s)

/-- The line of `src/owi.c` on a microcontroller: the bit slots, the reset
slot and the release are the functions above. -/
def hwLine (H : Hw σ) : Line σ where
  write_bit1 := write_bit1 H
  write_bit0 := write_bit0 H
  read_bit := read_bit H
  reset_slot := presence_slot H
  init_slot := init_release H

/-- What happens on the microcontroller, one step at a time. -/
inductive HwEvent where
  | cli
  | sei
  | low (pin : Nat)
  | release (pin : Nat)
  | wait (us : Nat)
  | sample (pin : Nat) (level : Bool)
  deriving DecidableEq, Repr

/-- A traced microcontroller: the levels still to be sampled and the steps
taken so far, oldest first. -/
structure HwTrace where
  levels : List Bool
  events : List HwEvent
  deriving DecidableEq, Repr

/-- The traced microcontroller: `read_bus_value` samples the next level (a
pulled-up line reads 1 once the list is used up); every step is recorded. -/
def traceHw : Hw HwTrace where
  cli := fun t => { t with events := t.events ++ [HwEvent.cli] }
  sei := fun t => { t with events := t.events ++ [HwEvent.sei] }
  drive_bus_low := fun pin t => { t with events := t.events ++ [HwEvent.low pin] }
  release_bus := fun pin t => { t with events := t.events ++ [HwEvent.release pin] }
  read_bus_value := fun pin t =>
    (t.levels.headD true,
     { levels := t.levels.tail,
       events := t.events ++ [HwEvent.sample pin (t.levels.headD true)] })
  delay_us := fun us t => { t with events := t.events ++ [HwEvent.wait us] }

/-- Position `j` (0-based) of a pass over the script `q` is one that the
search records in `new_deviation`: both read slots sample 0 and the 1-based
position `j + 1` either exceeds `last_deviation`, or lies before it with the
buffer `rom` holding 0 there. -/
def marks (L : Nat) (rom : List Nat) (q : List Bool) (j : Nat) : Prop :=
  q.getD (2 * j) true = false ∧ q.getD (2 * j + 1) true = false ∧
    (L < j + 1 ∨ (j + 1 < L ∧ rom_bit rom j = false))

instance (L : Nat) (rom : List Nat) (q : List Bool) (j : Nat) : Decidable (marks L rom q j) :=
  inferInstanceAs (Decidable (q.getD (2 * j) true = false ∧ q.getD (2 * j + 1) true = false ∧
    (L < j + 1 ∨ (j + 1 < L ∧ rom_bit rom j = false))))

/-- The read slots of a log. -/
def reads : List Event → List Bool
  | [] => []
  | Event.rd b :: es => b :: reads es
  | Event.wr _ :: es => reads es

/-- Any bus with its bit slots recorded: the state is the state of the bus `B`
together with the slots performed so far, oldest first; a read slot records
the bit that `B` samples. -/
def logBus (B : Bus σ) : Bus (σ × List Event) where
  write_bit1 := fun pin s => (B.write_bit1 pin s.1, s.2 ++ [Event.wr true])
  write_bit0 := fun pin s => (B.write_bit0 pin s.1, s.2 ++ [Event.wr false])
  read_bit := fun pin s =>
    ((B.read_bit pin s.1).1,
     ((B.read_bit pin s.1).2, s.2 ++ [Event.rd (B.read_bit pin s.1).1]))

/-! ## `src/drivers/owi/owi.c`: the older driver -/

/-- The loop of `owi_send` of `src/drivers/owi/owi.c`, by the number of
iterations that remain: `lsb = data & 0x01`, the write slot, `data >>= 1`. -/
def drivers.owi_send_loop (B : Bus σ) (pin : Nat) : Nat → Nat → σ → σ
  | 0, _, s => s
  | n + 1, data, s =>
    drivers.owi_send_loop B pin n (data >>> 1)
      (if data &&& 0x01 ≠ 0 then B.write_bit1 pin s else B.write_bit0 pin s)

/-- Function `void owi_send(uint8_t data, uint8_t pin)` of
`src/drivers/owi/owi.c`. -/
def drivers.owi_send (B : Bus σ) (data pin : Nat) (s : σ) : σ :=
  drivers.owi_send_loop B pin 8 data s

/-- The local variables of `owi_search_rom` of `src/drivers/owi/owi.c`,
together with the buffer and the bus. -/
structure drivers.SearchLocals (σ : Type) where
  bit_pattern : List Nat
  bit_index : Nat
  byte_index : Nat
  current_index : Nat
  new_deviation : Nat
  bus : σ

/-- What one pass through the body of the inner loop ends with: the
`return` of a value, or the next test of the inner loop. -/
inductive drivers.Step (σ : Type) where
  | ret (value : Nat) (bit_pattern : List Nat) (bus : σ)
  | next (st : drivers.SearchLocals σ)

/-- The end of the inner loop body: the write slot for the bit at the
position, `bit_index++`, `current_index++`. -/
def drivers.write_advance (B : Bus σ) (pin : Nat) (st : drivers.SearchLocals σ) :
    drivers.SearchLocals σ :=
  { st with
    bit_index := st.bit_index + 1
    current_index := st.current_index + 1
    bus := write_bit B (st.bit_pattern.getD st.byte_index 0) st.bit_index pin st.bus }

/-- One pass through the body of the inner `while` loop of `owi_search_rom`
of `src/drivers/owi/owi.c`. When both reads are 1 it returns
`ROM_SEARCH_FAILED`; in the last case of the discrepancy branch
(`else continue;`) it goes back to the loop test with nothing written and no
counter advanced. -/
def drivers.search_body (B : Bus σ) (last_deviation pin : Nat) (st : drivers.SearchLocals σ) :
    drivers.Step σ :=
  let r1 := B.read_bit pin st.bus
  let r2 := B.read_bit pin r1.2
  if r1.1 && r2.1 then
    drivers.Step.ret ROM_SEARCH_FAILED st.bit_pattern r2.2
  else if r1.1 != r2.1 then
    if r1.1 then
      drivers.Step.next (drivers.write_advance B pin
        { st with bit_pattern := set_bit st.bit_pattern st.byte_index st.bit_index, bus := r2.2 })
    else
      drivers.Step.next (drivers.write_advance B pin
        { st with bit_pattern := clear_bit st.bit_pattern st.byte_index st.bit_index, bus := r2.2 })
  else
    if st.current_index = last_deviation then
      drivers.Step.next (drivers.write_advance B pin
        { st with bit_pattern := set_bit st.bit_pattern st.byte_index st.bit_index, bus := r2.2 })
    else if st.current_index > last_deviation then
      drivers.Step.next (drivers.write_advance B pin
        { st with
          bit_pattern := clear_bit st.bit_pattern st.byte_index st.bit_index
          new_deviation := st.current_index
          bus := r2.2 })
    else if ¬ (st.bit_pattern.getD st.byte_index 0 &&& _BV st.bit_index ≠ 0) then
      drivers.Step.next (drivers.write_advance B pin
        { st with new_deviation := st.current_index, bus := r2.2 })
    else
      drivers.Step.next { st with bus := r2.2 }

/-- The two nested `while` loops of `owi_search_rom` of
`src/drivers/owi/owi.c`, from a test of the inner loop condition on. With
`byte_index < 8` and `bit_index < 8` the body runs; with `bit_index = 8` the
inner loop is left, `bit_index = 0; byte_index++` follow and the outer test
leads back to the inner one; with `byte_index = 8` the function returns
`new_deviation`. The source puts no bound on the passes (`continue` advances
no counter); the first argument bounds the loop tests of the model, and `none`
is a call that has not returned within the bound. -/
def drivers.search_loop (B : Bus σ) (last_deviation pin : Nat) :
    Nat → drivers.SearchLocals σ → Option (Nat × List Nat × σ)
  | 0, _ => none
  | fuel + 1, st =>
    if st.byte_index < 8 then
      if st.bit_index < 8 then
        match drivers.search_body B last_deviation pin st with
        | drivers.Step.ret v r s => some (v, r, s)
        | drivers.Step.next st1 => drivers.search_loop B last_deviation pin fuel st1
      else
        drivers.search_loop B last_deviation pin fuel
          { st with bit_index := 0, byte_index := st.byte_index + 1 }
    else some (st.new_deviation, st.bit_pattern, st.bus)

/-- Function `uint8_t owi_search_rom(uint8_t *bit_pattern, uint8_t last_deviation, uint8_t pin)`
of `src/drivers/owi/owi.c`: the value returned, the buffer and the bus after
the call, or `none` when the call has not returned within `fuel` loop tests. -/
def drivers.owi_search_rom (B : Bus σ) (bit_pattern : List Nat) (last_deviation pin fuel : Nat)
    (s : σ) : Option (Nat × List Nat × σ) :=
  drivers.search_loop B last_deviation pin fuel
    { bit_pattern := bit_pattern, bit_index := 0, byte_index := 0, current_index := 1,
      new_deviation := 0, bus := drivers.owi_send B SEARCH_ROM_CMD pin s }

/-- A line held low: every read slot samples 0. -/
def lowBus : Bus Unit where
  write_bit1 := fun _ s => s
  write_bit0 := fun _ s => s
  read_bit := fun _ s => (false, s)

/-! ## Interrupts and timing in a trace of the microcontroller -/

/-- The global interrupt-enable flag after the steps of a trace, given the
flag before them: `cli()` clears it, `sei()` sets it, nothing else touches
it. -/
def irq_after : Bool → List HwEvent → Bool
  | en, [] => en
  | _, HwEvent.cli :: es => irq_after false es
  | _, HwEvent.sei :: es => irq_after true es
  | en, HwEvent.low _ :: es => irq_after en es
  | en, HwEvent.release _ :: es => irq_after en es
  | en, HwEvent.wait _ :: es => irq_after en es
  | en, HwEvent.sample _ _ :: es => irq_after en es

/-- No drive-low and no sample step of the trace happens while interrupts
are enabled, the flag being `en` before the first step. -/
def masked : Bool → List HwEvent → Bool
  | _, [] => true
  | _, HwEvent.cli :: es => masked false es
  | _, HwEvent.sei :: es => masked true es
  | en, HwEvent.low _ :: es => !en && masked en es
  | en, HwEvent.sample _ _ :: es => !en && masked en es
  | en, HwEvent.release _ :: es => masked en es
  | en, HwEvent.wait _ :: es => masked en es

/-- A step that is `cli()` or `sei()`. -/
def is_irq : HwEvent → Bool
  | HwEvent.cli => true
  | HwEvent.sei => true
  | _ => false

/-- The microseconds of delay programmed in a trace: the sum of its waits. -/
def delay_total : List HwEvent → Nat
  | [] => 0
  | HwEvent.wait us :: es => us + delay_total es
  | _ :: es => delay_total es

/-- Any microcontroller together with its global interrupt-enable flag:
`cli()` clears the flag, `sei()` sets it, the other operations leave it. -/
def flagHw (H : Hw σ) : Hw (Bool × σ) where
  cli := fun s => (false, H.cli s.2)
  sei := fun s => (true, H.sei s.2)
  drive_bus_low := fun pin s => (s.1, H.drive_bus_low pin s.2)
  release_bus := fun pin s => (s.1, H.release_bus pin s.2)
  read_bus_value := fun pin s =>
    ((H.read_bus_value pin s.2).1, (s.1, (H.read_bus_value pin s.2).2))
  delay_us := fun us s => (s.1, H.delay_us us s.2)

/-! ## CRC lemmas -/

set_option maxRecDepth 100000 in
theorem code_round_eq_aux : ∀ s < 256,
    (((s ^^^ 0x18) >>> 1) ||| (1 <<< 7)) = (s >>> 1) ^^^ 0x8C := by decide

theorem crc8_round_eq (d s : Nat) (hs : s < 256) : crc8_round d s = maxim_round d s := by
  unfold crc8_round maxim_round
  have h1 : ((d ^^^ s) &&& 0x01 ≠ 0) ↔ ((s ^^^ d) % 2 = 1) := by
    rw [Nat.and_one_is_mod, Nat.xor_comm]; omega
  by_cases h : (s ^^^ d) % 2 = 1
  · simp only [h1.2 h, h, if_true, if_pos, ne_eq, not_false_eq_true, CRC8_POLY, _BV]
    rw [code_round_eq_aux s hs]
  · have h' : ¬ ((d ^^^ s) &&& 0x01 ≠ 0) := fun hh => h (h1.1 hh)
    simp only [h', h, if_false]

theorem maxim_round_lt (d s : Nat) (hs : s < 256) : (maxim_round d s).2 < 256 := by
  unfold maxim_round
  have h1 : s >>> 1 < 2 ^ 8 := by rw [Nat.shiftRight_eq_div_pow]; omega
  split
  · exact Nat.xor_lt_two_pow h1 (by decide)
  · exact h1

theorem crc8_loop_eq (n d s : Nat) (hs : s < 256) :
    crc8_loop n d s = maxim_rounds n d s ∧ crc8_loop n d s < 256 := by
  induction n generalizing d s with
  | zero => exact ⟨rfl, hs⟩
  | succ n ih =>
    simp only [crc8_loop, maxim_rounds, crc8_round_eq d s hs]
    exact ih _ _ (maxim_round_lt d s hs)

theorem crc8_lt (d s : Nat) (hs : s < 256) : crc8 d s < 256 := (crc8_loop_eq 8 d s hs).2

theorem crc8_eq_maxim (d s : Nat) (hs : s < 256) : crc8 d s = crc8_maxim d s :=
  (crc8_loop_eq 8 d s hs).1

theorem crc8_fold_lt (buf : List Nat) (s : Nat) (hs : s < 256) : crc8_fold s buf < 256 := by
  induction buf generalizing s with
  | nil => exact hs
  | cons d t ih => exact ih _ (crc8_lt d s hs)

theorem crc8_fold_append (s : Nat) (a b : List Nat) :
    crc8_fold s (a ++ b) = crc8_fold (crc8_fold s a) b := by
  simp [crc8_fold, List.foldl_append]

set_option maxRecDepth 100000 in
theorem crc8_self : ∀ c < 256, crc8 c c = 0 := by decide

set_option maxRecDepth 100000 in
theorem crc8_fold_example :
    crc8_fold 0 [0x02, 0x1C, 0xB8, 0x01, 0x00, 0x00, 0x00] = 0xA2 ∧
    crc8_fold 0 [0x02, 0x1C, 0xB8, 0x01, 0x00, 0x00, 0x00, 0xA2] = 0 := by decide

/-- Claim C2 (CRC8 self-check): for every byte list `b`, of any length, the
`crc8` fold from seed 0 over `b` followed by the byte `c = crc8_fold 0 b` is 0.
Example: the ROM 02 1C B8 01 00 00 00 has CRC byte A2 and the fold over all
eight bytes is 0. -/
theorem crc8_self_check (b : List Nat) :
    crc8_fold 0 (b ++ [crc8_fold 0 b]) = 0 ∧
    crc8_fold 0 [0x02, 0x1C, 0xB8, 0x01, 0x00, 0x00, 0x00] = 0xA2 ∧
    crc8_fold 0 [0x02, 0x1C, 0xB8, 0x01, 0x00, 0x00, 0x00, 0xA2] = 0 := by
  refine ⟨?_, crc8_fold_example.1, crc8_fold_example.2⟩
  rw [crc8_fold_append]
  exact crc8_self _ (crc8_fold_lt b 0 (by decide))

theorem xor_mod_two_cases (a b : Nat) :
    ((a ^^^ b) % 2 = 1) ↔ ¬ ((a % 2 = 1) ↔ (b % 2 = 1)) := by
  rw [Nat.xor_mod_two_eq]; omega

theorem shiftRight_one_xor (a b : Nat) : (a ^^^ b) >>> 1 = (a >>> 1) ^^^ (b >>> 1) := by
  simp only [Nat.shiftRight_eq_div_pow, pow_one, Nat.xor_div_two]

theorem maxim_round_xor (d1 d2 s1 s2 : Nat) :
    maxim_round (d1 ^^^ d2) (s1 ^^^ s2) =
      ((maxim_round d1 s1).1 ^^^ (maxim_round d2 s2).1,
       (maxim_round d1 s1).2 ^^^ (maxim_round d2 s2).2) := by
  unfold maxim_round
  have hx : (s1 ^^^ s2) ^^^ (d1 ^^^ d2) = (s1 ^^^ d1) ^^^ (s2 ^^^ d2) := by ac_rfl
  have hp := xor_mod_two_cases (s1 ^^^ d1) (s2 ^^^ d2)
  simp only [shiftRight_one_xor, hx]
  by_cases h1 : (s1 ^^^ d1) % 2 = 1 <;> by_cases h2 : (s2 ^^^ d2) % 2 = 1
  · have h3 : ¬ ((s1 ^^^ d1 ^^^ (s2 ^^^ d2)) % 2 = 1) := by rw [hp]; tauto
    simp only [h1, h2, h3, if_true, if_false, Prod.mk.injEq, true_and]
    generalize s1 >>> 1 = a; generalize s2 >>> 1 = b
    calc a ^^^ b = a ^^^ b ^^^ (140 ^^^ 140) := by rw [Nat.xor_self, Nat.xor_zero]
      _ = a ^^^ 140 ^^^ (b ^^^ 140) := by ac_rfl
  · have h3 : (s1 ^^^ d1 ^^^ (s2 ^^^ d2)) % 2 = 1 := by rw [hp]; tauto
    simp only [h1, h2, h3, if_true, if_false, Prod.mk.injEq, true_and]
    ac_rfl
  · have h3 : (s1 ^^^ d1 ^^^ (s2 ^^^ d2)) % 2 = 1 := by rw [hp]; tauto
    simp only [h1, h2, h3, if_true, if_false, Prod.mk.injEq, true_and]
    ac_rfl
  · have h3 : ¬ ((s1 ^^^ d1 ^^^ (s2 ^^^ d2)) % 2 = 1) := by rw [hp]; tauto
    simp only [h1, h2, h3, if_true, if_false]

theorem maxim_rounds_xor (n d1 d2 s1 s2 : Nat) :
    maxim_rounds n (d1 ^^^ d2) (s1 ^^^ s2) = maxim_rounds n d1 s1 ^^^ maxim_rounds n d2 s2 := by
  induction n generalizing d1 d2 s1 s2 with
  | zero => rfl
  | succ n ih =>
    simp only [maxim_rounds, maxim_round_xor]
    exact ih _ _ _ _

theorem xor_lt_256 {a b : Nat} (ha : a < 256) (hb : b < 256) : a ^^^ b < 256 :=
  @Nat.xor_lt_two_pow a b 8 ha hb

theorem crc8_xor (d1 d2 s1 s2 : Nat) (h1 : s1 < 256) (h2 : s2 < 256) :
    crc8 (d1 ^^^ d2) (s1 ^^^ s2) = crc8 d1 s1 ^^^ crc8 d2 s2 := by
  rw [crc8_eq_maxim _ _ (xor_lt_256 h1 h2), crc8_eq_maxim _ _ h1, crc8_eq_maxim _ _ h2]
  exact maxim_rounds_xor 8 d1 d2 s1 s2

theorem crc8_fold_xor_seed (l : List Nat) (s e : Nat) (hs : s < 256) (he : e < 256) :
    crc8_fold (s ^^^ e) l = crc8_fold s l ^^^ crc8_fold e (List.replicate l.length 0) := by
  induction l generalizing s e with
  | nil => rfl
  | cons d t ih =>
    have h := crc8_xor d 0 s e hs he
    rw [Nat.xor_zero] at h
    simp only [crc8_fold, List.foldl_cons, List.length_cons, List.replicate_succ] at ih ⊢
    rw [h]
    exact ih _ _ (crc8_lt d s hs) (crc8_lt 0 e he)

set_option maxRecDepth 100000 in
theorem crc8_zero_ne : ∀ s < 256, s ≠ 0 → crc8 0 s ≠ 0 := by decide

set_option maxRecDepth 100000 in
theorem crc8_bit_ne : ∀ j < 8, crc8 (1 <<< j) 0 ≠ 0 := by decide

theorem crc8_fold_zeros_ne (n e : Nat) (he : e < 256) (hne : e ≠ 0) :
    crc8_fold e (List.replicate n 0) ≠ 0 := by
  induction n generalizing e with
  | zero => exact hne
  | succ n ih =>
    simp only [crc8_fold, List.replicate_succ, List.foldl_cons] at ih ⊢
    exact ih _ (crc8_lt 0 e he) (crc8_zero_ne e he hne)

theorem flip_bit_split (m : List Nat) (i j : Nat) (hi : i < m.length) :
    m = m.take i ++ m.getD i 0 :: m.drop (i + 1) ∧
    flip_bit m i j = m.take i ++ (m.getD i 0 ^^^ (1 <<< j)) :: m.drop (i + 1) := by
  have hg : m.getD i 0 = m[i] := by simp [List.getD_eq_getElem?_getD, hi]
  constructor
  · rw [hg]; simp
  · unfold flip_bit
    rw [List.set_eq_take_append_cons_drop]
    simp [hi]

theorem crc8_fold_cons (s d : Nat) (t : List Nat) :
    crc8_fold s (d :: t) = crc8_fold (crc8 d s) t := rfl

theorem crc8_fold_flip_aux (pre post : List Nat) (x j : Nat) :
    crc8_fold 0 (pre ++ (x ^^^ (1 <<< j)) :: post) =
      crc8_fold 0 (pre ++ x :: post) ^^^
        crc8_fold (crc8 (1 <<< j) 0) (List.replicate post.length 0) := by
  have hs : crc8_fold 0 pre < 256 := crc8_fold_lt _ 0 (by decide)
  have h := crc8_xor x (1 <<< j) (crc8_fold 0 pre) 0 hs (by decide)
  rw [Nat.xor_zero] at h
  rw [crc8_fold_append, crc8_fold_append, crc8_fold_cons, crc8_fold_cons, h]
  exact crc8_fold_xor_seed post _ _ (crc8_lt _ _ hs) (crc8_lt _ _ (by decide))

theorem crc8_fold_flip (m : List Nat) (i j : Nat) (hi : i < m.length) :
    crc8_fold 0 (flip_bit m i j) =
      crc8_fold 0 m ^^^
        crc8_fold (crc8 (1 <<< j) 0) (List.replicate (m.drop (i + 1)).length 0) := by
  obtain ⟨h1, h2⟩ := flip_bit_split m i j hi
  rw [h2]
  conv => rhs; arg 1; rw [h1]
  exact crc8_fold_flip_aux _ _ _ _

/-- Claim C3 (CRC8 single-bit sensitivity): for every byte list `b`, with
`c = crc8_fold 0 b`, flipping any one bit `j < 8` of any byte `i` of the buffer
`b ++ [c]` (the CRC byte included, `i ≤ b.length`) makes the `crc8` fold from
seed 0 over the buffer nonzero. -/
theorem crc8_single_bit (b : List Nat) (i j : Nat) (hi : i ≤ b.length) (hj : j < 8) :
    crc8_fold 0 (flip_bit (b ++ [crc8_fold 0 b]) i j) ≠ 0 := by
  have hlen : i < (b ++ [crc8_fold 0 b]).length := by simp; omega
  rw [crc8_fold_flip _ i j hlen, (crc8_self_check b).1, Nat.zero_xor]
  exact crc8_fold_zeros_ne _ _ (crc8_lt _ _ (by decide)) (crc8_bit_ne j hj)

/-- Witness of `crc8_single_bit`: bit 5 of byte 3 of the ROM
02 1C B8 01 00 00 00 with its CRC byte. -/
theorem crc8_single_bit_witness :
    3 ≤ [0x02, 0x1C, 0xB8, 0x01, 0x00, 0x00, 0x00].length ∧ 5 < 8 ∧
    crc8_fold 0 (flip_bit ([0x02, 0x1C, 0xB8, 0x01, 0x00, 0x00, 0x00] ++
      [crc8_fold 0 [0x02, 0x1C, 0xB8, 0x01, 0x00, 0x00, 0x00]]) 3 5) ≠ 0 :=
  ⟨by decide, by decide, crc8_single_bit _ 3 5 (by decide) (by decide)⟩

/-- Claim C4 (`crc8` is the Dallas/Maxim CRC-8): for every data byte `d` and
seed byte `s`, `crc8 d s` equals eight rounds of the reflected CRC-8/MAXIM
update (`s` becomes `(s >> 1) XOR 0x8C` when bit 0 of `s XOR d` is 1 and
`s >> 1` otherwise, then `d` is shifted right by one), and the result is in
0..255. Only the low eight bits of `d` are consumed, so no bound on `d` is
needed. -/
theorem crc8_is_maxim (d s : Nat) (hs : s < 256) :
    crc8 d s = crc8_maxim d s ∧ crc8 d s < 256 :=
  ⟨crc8_eq_maxim d s hs, crc8_lt d s hs⟩

/-- Witness of `crc8_is_maxim` at data 0x1C and seed 0xBC. -/
theorem crc8_is_maxim_witness :
    0xBC < 256 ∧ crc8 0x1C 0xBC = crc8_maxim 0x1C 0xBC ∧ crc8 0x1C 0xBC < 256 :=
  ⟨by decide, crc8_is_maxim 0x1C 0xBC (by decide)⟩

/-! ## Bytes and ROM commands on the scripted bus -/

theorem and_one_ne_zero_iff (d : Nat) : (d &&& 0x01 ≠ 0) ↔ d.testBit 0 = true := by
  rw [Nat.and_one_is_mod, Nat.testBit_zero]; simp

theorem send_loop_script (pin n d : Nat) (s : Script) :
    owi_send_byte_loop scriptBus pin n d s =
      { pending := s.pending,
        log := s.log ++ (List.range n).map (fun i => Event.wr (d.testBit i)) } := by
  induction n generalizing d s with
  | zero => simp [owi_send_byte_loop]
  | succ n ih =>
    rw [owi_send_byte_loop, ih, List.range_succ_eq_map]
    have hsh : ∀ i, (d >>> 1).testBit i = d.testBit (i + 1) := by
      intro i; rw [Nat.testBit_shiftRight, Nat.add_comm]
    by_cases h : d.testBit 0 = true
    · rw [if_pos ((and_one_ne_zero_iff d).2 h)]
      simp [h, hsh, scriptBus, Function.comp_def]
    · rw [if_neg (fun hh => h ((and_one_ne_zero_iff d).1 hh))]
      simp only [Bool.not_eq_true] at h
      simp [h, hsh, scriptBus, Function.comp_def]

theorem send_byte_script (pin d : Nat) (s : Script) :
    owi_send_byte scriptBus d pin s =
      { pending := s.pending, log := s.log ++ (byte_bits d).map Event.wr } := by
  rw [owi_send_byte, BYTE_TO_BITS, send_loop_script]
  simp [byte_bits, Function.comp_def]

theorem or_BV_eq_add (data idx : Nat) (h : data < 2 ^ idx) : data ||| _BV idx = data + 2 ^ idx := by
  rw [_BV, Nat.one_shiftLeft, Nat.or_comm]
  have := Nat.mul_add_lt_is_or h 1
  simp only [Nat.mul_one] at this
  omega

theorem recv_loop_script (pin n idx data : Nat) (s : Script) (h : data < 2 ^ idx) :
    owi_recv_byte_loop scriptBus pin n idx data s =
      (data + 2 ^ idx * bits_byte (sampled n s.pending),
        { pending := s.pending.drop n,
          log := s.log ++ (sampled n s.pending).map Event.rd }) := by
  induction n generalizing idx data s with
  | zero => simp [owi_recv_byte_loop, sampled, bits_byte]
  | succ n ih =>
    rw [owi_recv_byte_loop]
    have hr : scriptBus.read_bit pin s =
        (s.pending.headD true,
          { pending := s.pending.tail, log := s.log ++ [Event.rd (s.pending.headD true)] }) := rfl
    have hd : s.pending.drop (n + 1) = s.pending.tail.drop n := by
      cases s.pending <;> simp
    rw [hr, hd]
    simp only [sampled, bits_byte, List.map_cons]
    generalize s.pending.headD true = b
    generalize s.pending.tail = t
    cases b
    · simp only [Bool.false_eq_true, if_false]
      rw [ih (idx + 1) data _ (by rw [Nat.pow_succ]; omega)]
      simp [Nat.pow_succ, Nat.mul_assoc]
    · simp only [if_true]
      rw [or_BV_eq_add _ _ h, ih (idx + 1) _ _ (by rw [Nat.pow_succ]; omega)]
      simp [Nat.pow_succ, Nat.mul_assoc]
      ring

theorem recv_byte_script (pin : Nat) (s : Script) :
    owi_recv_byte scriptBus pin s =
      (bits_byte (sampled 8 s.pending),
        { pending := s.pending.drop 8,
          log := s.log ++ (sampled 8 s.pending).map Event.rd }) := by
  rw [owi_recv_byte, BYTE_TO_BITS, recv_loop_script _ _ _ _ _ (by decide)]
  simp

theorem sampled_length (n : Nat) (p : List Bool) : (sampled n p).length = n := by
  induction n generalizing p with
  | zero => rfl
  | succ n ih => simp [sampled, ih]

theorem sampled_add (a b : Nat) (p : List Bool) :
    sampled (a + b) p = sampled a p ++ sampled b (p.drop a) := by
  induction a generalizing p with
  | zero => simp [sampled]
  | succ a ih =>
    have hd : p.drop (a + 1) = p.tail.drop a := by cases p <;> simp
    rw [Nat.add_right_comm, sampled, sampled, ih, hd]
    rfl

theorem sampled_append (l rest : List Bool) : sampled l.length (l ++ rest) = l := by
  induction l with
  | nil => rfl
  | cons b t ih => simp [sampled, ih]

theorem written_map_wr (l : List Bool) : written (l.map Event.wr) = l := by
  induction l with
  | nil => rfl
  | cons b t ih => simp [written, ih]

theorem written_append (a b : List Event) : written (a ++ b) = written a ++ written b := by
  induction a with
  | nil => rfl
  | cons e t ih => cases e <;> simp [written, ih]

theorem byte_bits_length (d : Nat) : (byte_bits d).length = 8 := by simp [byte_bits]

set_option maxRecDepth 100000 in
theorem bits_byte_byte_bits : ∀ d < 256, bits_byte (byte_bits d) = d := by decide

theorem match_rom_script (r : List Nat) (pin : Nat) (s : Script) :
    owi_match_rom scriptBus r pin s =
      (r, { pending := s.pending,
            log := s.log ++ (byte_bits MATCH_ROM_CMD ++ wire_bits r).map Event.wr }) := by
  simp only [owi_match_rom, ROM_LEN_BYTES, owi_match_rom_loop, send_byte_script, wire_bits,
    List.map_append, List.append_assoc]

theorem read_rom_script (rom : List Nat) (pin : Nat) (s : Script) (h : rom.length = 8) :
    owi_read_rom scriptBus rom pin s =
      ([wire_byte s.pending 7, wire_byte s.pending 6, wire_byte s.pending 5,
        wire_byte s.pending 4, wire_byte s.pending 3, wire_byte s.pending 2,
        wire_byte s.pending 1, wire_byte s.pending 0],
       { pending := s.pending.drop 64,
         log := s.log ++ (byte_bits READ_ROM_CMD).map Event.wr ++
           (sampled 64 s.pending).map Event.rd }) := by
  match rom, h with
  | [x0, x1, x2, x3, x4, x5, x6, x7], _ =>
    have e : sampled 64 s.pending = sampled 8 s.pending ++ (sampled 8 (s.pending.drop 8) ++
        (sampled 8 (s.pending.drop 16) ++ (sampled 8 (s.pending.drop 24) ++
        (sampled 8 (s.pending.drop 32) ++ (sampled 8 (s.pending.drop 40) ++
        (sampled 8 (s.pending.drop 48) ++ sampled 8 (s.pending.drop 56))))))) := by
      rw [show 64 = 8 + (8 + (8 + (8 + (8 + (8 + (8 + 8)))))) from rfl]
      simp only [sampled_add, List.drop_drop]
    simp only [owi_read_rom, ROM_LEN_BYTES, owi_read_rom_loop, send_byte_script,
      recv_byte_script, List.set, List.drop_drop, e, wire_byte, List.map_append,
      List.append_assoc, Nat.reduceAdd, Nat.reduceMul, List.drop_zero]

theorem wire_bits_length (r : List Nat) : (wire_bits r).length = 64 := by
  simp [wire_bits, byte_bits_length]

theorem wire_byte_wire_bits (r : List Nat) (k : Nat) (hk : k < 8) :
    sampled 8 ((wire_bits r).drop (8 * k)) = byte_bits (r.getD (7 - k) 0) := by
  have h8 : ∀ (a : Nat) (rest : List Bool), sampled 8 (byte_bits a ++ rest) = byte_bits a := by
    intro a rest
    have := sampled_append (byte_bits a) rest
    rwa [byte_bits_length] at this
  have hd : ∀ (a : Nat) (rest : List Bool), (byte_bits a ++ rest).drop 8 = rest := by
    intro a rest
    have := List.drop_left (byte_bits a) rest
    rwa [byte_bits_length] at this
  have h8' : ∀ (a : Nat), sampled 8 (byte_bits a) = byte_bits a := by
    intro a
    have := h8 a []
    rwa [List.append_nil] at this
  unfold wire_bits
  simp only [List.append_assoc]
  interval_cases k
  · simp only [Nat.mul_zero, List.drop_zero, h8]
  · rw [show 8 * 1 = 8 from rfl]; simp only [hd, h8]
  · rw [show 8 * 2 = 8 + 8 from rfl]; simp only [← List.drop_drop, hd, h8]
  · rw [show 8 * 3 = 8 + 8 + 8 from rfl]; simp only [← List.drop_drop, hd, h8]
  · rw [show 8 * 4 = 8 + 8 + 8 + 8 from rfl]; simp only [← List.drop_drop, hd, h8]
  · rw [show 8 * 5 = 8 + 8 + 8 + 8 + 8 from rfl]; simp only [← List.drop_drop, hd, h8]
  · rw [show 8 * 6 = 8 + 8 + 8 + 8 + 8 + 8 from rfl]; simp only [← List.drop_drop, hd, h8]
  · rw [show 8 * 7 = 8 + 8 + 8 + 8 + 8 + 8 + 8 from rfl]
    simp only [← List.drop_drop, hd, h8']

/-- Claim C8 (Match ROM transmit order): for every buffer `r`,
`owi_match_rom` performs write slots only, 72 of them: the bits of 0x55, then
those of `r[7]`, `r[6]`, ..., `r[0]` in that order, each byte least-significant
bit first (`wire_bits r`); no read slot is performed (nothing of the script is
consumed, no read is logged) and the buffer returned is `r` unchanged. -/
theorem match_rom_transmit (r : List Nat) (pin : Nat) (s : Script) :
    owi_match_rom scriptBus r pin s =
      (r, { pending := s.pending,
            log := s.log ++ (byte_bits 0x55 ++ wire_bits r).map Event.wr }) ∧
    (byte_bits 0x55 ++ wire_bits r).length = 72 := by
  refine ⟨match_rom_script r pin s, ?_⟩
  simp [wire_bits_length, byte_bits_length]

/-- Claim C7 (Read ROM storage order): `owi_read_rom` writes the byte 0x33
(least-significant bit first), then performs exactly 64 read slots and nothing
else; with `wire_byte p k` the `k`-th byte received (assembled
least-significant bit first), on return `rom[7 - k] = wire_byte p k` for every
`k` in 0..7: the first byte received is stored at index 7, the last at
index 0. -/
theorem read_rom_storage (rom : List Nat) (pin : Nat) (s : Script) (h : rom.length = 8) :
    (owi_read_rom scriptBus rom pin s).2.log =
      s.log ++ (byte_bits 0x33).map Event.wr ++ (sampled 64 s.pending).map Event.rd ∧
    (sampled 64 s.pending).length = 64 ∧
    (owi_read_rom scriptBus rom pin s).2.pending = s.pending.drop 64 ∧
    (owi_read_rom scriptBus rom pin s).1.length = 8 ∧
    ∀ k < 8, (owi_read_rom scriptBus rom pin s).1.getD (7 - k) 0 = wire_byte s.pending k := by
  rw [read_rom_script rom pin s h]
  refine ⟨rfl, sampled_length _ _, rfl, rfl, ?_⟩
  intro k hk
  interval_cases k <;> rfl

theorem read_rom_wire_bits (r rom0 : List Nat) (pin : Nat) (lg : List Event)
    (hr : is_rom r) (h0 : rom0.length = 8) :
    (owi_read_rom scriptBus rom0 pin { pending := wire_bits r, log := lg }).1 = r := by
  rw [read_rom_script _ _ _ h0]
  obtain ⟨hlen, hlt⟩ := hr
  match r, hlen with
  | [x0, x1, x2, x3, x4, x5, x6, x7], _ =>
    have hb : ∀ k, k < 8 → wire_byte (wire_bits [x0, x1, x2, x3, x4, x5, x6, x7]) k =
        [x0, x1, x2, x3, x4, x5, x6, x7].getD (7 - k) 0 := by
      intro k hk
      rw [wire_byte, wire_byte_wire_bits _ k hk]
      apply bits_byte_byte_bits
      apply hlt
      interval_cases k <;> simp
    simp only []
    rw [hb 0 (by decide), hb 1 (by decide), hb 2 (by decide), hb 3 (by decide),
      hb 4 (by decide), hb 5 (by decide), hb 6 (by decide), hb 7 (by decide)]
    rfl

/-- Claim C6 (ROM round-trip): for every 8-byte ROM `r`, when the 64 bits
that `owi_match_rom` writes after its command byte are presented, in the same
order, as the bits sampled by `owi_read_rom` after its command byte,
`owi_read_rom` leaves a buffer equal to `r`, whatever the buffer held
before. -/
theorem rom_round_trip (r rom0 : List Nat) (pin : Nat) (p : List Bool) (lg : List Event)
    (hr : is_rom r) (h0 : rom0.length = 8) :
    (owi_read_rom scriptBus rom0 pin
      { pending := (written (owi_match_rom scriptBus r pin { pending := p, log := [] }).2.log).drop 8,
        log := lg }).1 = r := by
  rw [match_rom_script]
  simp only [List.nil_append, written_map_wr]
  have hd : (byte_bits MATCH_ROM_CMD ++ wire_bits r).drop 8 = wire_bits r := by
    have := List.drop_left (byte_bits MATCH_ROM_CMD) (wire_bits r)
    rwa [byte_bits_length] at this
  rw [hd]
  exact read_rom_wire_bits r rom0 pin lg hr h0

/-- Witness of `rom_round_trip` at the ROM A2 00 00 00 01 B8 1C 02. -/
theorem rom_round_trip_witness :
    is_rom [0xA2, 0x00, 0x00, 0x00, 0x01, 0xB8, 0x1C, 0x02] ∧
    [7, 7, 7, 7, 7, 7, 7, 7].length = 8 ∧
    (owi_read_rom scriptBus [7, 7, 7, 7, 7, 7, 7, 7] 3
      { pending := (written (owi_match_rom scriptBus
          [0xA2, 0x00, 0x00, 0x00, 0x01, 0xB8, 0x1C, 0x02] 3
          { pending := [], log := [] }).2.log).drop 8,
        log := [] }).1 = [0xA2, 0x00, 0x00, 0x00, 0x01, 0xB8, 0x1C, 0x02] :=
  ⟨by decide, by decide, rom_round_trip _ _ 3 [] [] (by decide) (by decide)⟩

/-- Witness of `read_rom_storage` on a script of 64 bits. -/
theorem read_rom_storage_witness :
    [9, 9, 9, 9, 9, 9, 9, 9].length = 8 ∧
    ((owi_read_rom scriptBus [9, 9, 9, 9, 9, 9, 9, 9] 2
        { pending := wire_bits [1, 2, 3, 4, 5, 6, 7, 8], log := [] }).2.log =
      ([] : List Event) ++ (byte_bits 0x33).map Event.wr ++
        (sampled 64 (wire_bits [1, 2, 3, 4, 5, 6, 7, 8])).map Event.rd ∧
    (sampled 64 (wire_bits [1, 2, 3, 4, 5, 6, 7, 8])).length = 64 ∧
    (owi_read_rom scriptBus [9, 9, 9, 9, 9, 9, 9, 9] 2
        { pending := wire_bits [1, 2, 3, 4, 5, 6, 7, 8], log := [] }).2.pending =
      (wire_bits [1, 2, 3, 4, 5, 6, 7, 8]).drop 64 ∧
    (owi_read_rom scriptBus [9, 9, 9, 9, 9, 9, 9, 9] 2
        { pending := wire_bits [1, 2, 3, 4, 5, 6, 7, 8], log := [] }).1.length = 8 ∧
    ∀ k < 8, (owi_read_rom scriptBus [9, 9, 9, 9, 9, 9, 9, 9] 2
        { pending := wire_bits [1, 2, 3, 4, 5, 6, 7, 8], log := [] }).1.getD (7 - k) 0 =
      wire_byte (wire_bits [1, 2, 3, 4, 5, 6, 7, 8]) k) :=
  ⟨by decide, read_rom_storage _ 2 { pending := wire_bits [1, 2, 3, 4, 5, 6, 7, 8], log := [] }
    (by decide)⟩

/-! ## The nested loops of the search are one loop over the 64 positions -/

theorem search_body_ok (B : Bus σ) (L pin b k : Nat) (rom : List Nat) (nd : Nat) (s : σ)
    (h : (search_body B L pin (search_at b k rom nd s)).err = false) :
    search_body B L pin (search_at b k rom nd s) =
      search_at b (k + 1) (search_body B L pin (search_at b k rom nd s)).rom
        (search_body B L pin (search_at b k rom nd s)).new_deviation
        (search_body B L pin (search_at b k rom nd s)).bus := by
  unfold search_body at h ⊢
  simp only [search_at] at h ⊢
  split
  · rename_i hc; simp [hc] at h
  · simp only [SearchState.mk.injEq, true_and, and_true]
    omega

theorem search_steps_ok (B : Bus σ) (L pin n i : Nat) (rom : List Nat) (nd : Nat) (s : σ)
    (h : (search_steps B L pin n i rom nd s).err = false) :
    search_steps B L pin n i rom nd s =
      search_at ((i + n) / 8) ((i + n) % 8) (search_steps B L pin n i rom nd s).rom
        (search_steps B L pin n i rom nd s).new_deviation
        (search_steps B L pin n i rom nd s).bus := by
  induction n generalizing i rom nd s with
  | zero => rfl
  | succ n ih =>
    rw [search_steps] at h ⊢
    split
    · rename_i hc; rw [if_pos hc] at h; rw [hc] at h; cases h
    · rename_i hc
      rw [if_neg hc] at h
      have := ih _ _ _ _ h
      rw [show i + (n + 1) = i + 1 + n by omega]
      exact this

theorem search_steps_add (B : Bus σ) (L pin a b i : Nat) (rom : List Nat) (nd : Nat) (s : σ) :
    search_steps B L pin (a + b) i rom nd s =
      if (search_steps B L pin a i rom nd s).err then search_steps B L pin a i rom nd s
      else search_steps B L pin b (i + a) (search_steps B L pin a i rom nd s).rom
        (search_steps B L pin a i rom nd s).new_deviation
        (search_steps B L pin a i rom nd s).bus := by
  induction a generalizing i rom nd s with
  | zero =>
    simp only [Nat.zero_add, search_steps, search_at, Nat.add_zero]
    simp
  | succ a ih =>
    rw [show a + 1 + b = (a + b) + 1 by omega, search_steps, search_steps]
    split
    · rfl
    · rw [ih, show i + 1 + a = i + (a + 1) by omega]

theorem search_inner_eq (B : Bus σ) (L pin b : Nat) (n k : Nat) (hk : k + n = 8)
    (rom : List Nat) (nd : Nat) (s : σ) :
    search_inner B L pin n (search_at b k rom nd s) =
      inner_exit b (search_steps B L pin n (8 * b + k) rom nd s) := by
  induction n generalizing k rom nd s with
  | zero =>
    have : k = 8 := by omega
    subst this
    simp only [search_inner, search_steps, inner_exit, search_at]
    simp only [Bool.false_eq_true, if_false, SearchState.mk.injEq, true_and, and_true]
    omega
  | succ n ih =>
    have hk8 : k < 8 := by omega
    have h1 : (8 * b + k) / 8 = b := by omega
    have h2 : (8 * b + k) % 8 = k := by omega
    rw [search_inner, search_steps, h1, h2]
    have hlt : (search_at b k rom nd s).bit_idx < BYTE_TO_BITS := hk8
    rw [if_pos hlt]
    split
    · rename_i hc; simp only [inner_exit, hc, if_true]
    · rename_i hc
      simp only [Bool.not_eq_true] at hc
      rw [search_body_ok B L pin b k rom nd s hc, ih (k + 1) (by omega)]
      rw [← search_body_ok B L pin b k rom nd s hc]
      rfl

theorem search_outer_eq (B : Bus σ) (L pin : Nat) (m b : Nat) (hb : b + m = 8)
    (rom : List Nat) (nd : Nat) (s : σ) :
    search_outer B L pin m (search_at b 0 rom nd s) =
      search_steps B L pin (8 * m) (8 * b) rom nd s := by
  induction m generalizing b rom nd s with
  | zero =>
    have : b = 8 := by omega
    subst this
    rfl
  | succ m ih =>
    have hlt : (search_at b 0 rom nd s).byte_idx < ROM_LEN_BYTES := by
      show b < 8; omega
    rw [search_outer, if_pos hlt, BYTE_TO_BITS, search_inner_eq B L pin b 8 0 (by omega),
      show 8 * (m + 1) = 8 + 8 * m by omega, search_steps_add, Nat.add_zero]
    by_cases hc : (search_steps B L pin 8 (8 * b) rom nd s).err = true
    · simp only [inner_exit, hc, if_true]
    · simp only [Bool.not_eq_true] at hc
      simp only [inner_exit, hc, Bool.false_eq_true, if_false]
      have hcurr : (search_steps B L pin 8 (8 * b) rom nd s).curr_idx = 8 * (b + 1) + 0 + 1 := by
        rw [search_steps_ok B L pin 8 (8 * b) rom nd s hc]
        simp only [search_at]
        omega
      rw [show 8 * b + 8 = 8 * (b + 1) by omega, ← ih (b + 1) (by omega), hcurr]
      rfl

theorem owi_search_rom_state_eq (B : Bus σ) (rom : List Nat) (L pin : Nat) (s : σ) :
    owi_search_rom_state B rom L pin s =
      search_steps B L pin 64 0 rom 0 (owi_send_byte B SEARCH_ROM_CMD pin s) :=
  search_outer_eq B L pin 8 0 rfl rom 0 _

/-! ## Bits of the buffer -/

theorem and_BV_ne_zero_iff (x k : Nat) : (x &&& _BV k ≠ 0) ↔ x.testBit k = true := by
  rw [_BV, Nat.one_shiftLeft]
  constructor
  · intro h
    by_contra hb
    apply h
    apply Nat.eq_of_testBit_eq
    intro j
    rw [Nat.testBit_and, Nat.testBit_two_pow, Nat.zero_testBit]
    by_cases hj : k = j
    · subst hj; simp [hb]
    · simp [hj]
  · intro h h0
    have := congrArg (fun y => Nat.testBit y k) h0
    simp [Nat.testBit_and, Nat.testBit_two_pow, h] at this

theorem testBit_or_BV (x k j : Nat) :
    (x ||| _BV k).testBit j = (x.testBit j || decide (k = j)) := by
  rw [_BV, Nat.one_shiftLeft, Nat.testBit_or, Nat.testBit_two_pow]

theorem testBit_and_not_BV (x k j : Nat) (hj : j < 8) :
    (x &&& (0xFF ^^^ _BV k)).testBit j = (x.testBit j && !decide (k = j)) := by
  rw [_BV, Nat.one_shiftLeft, Nat.testBit_and, Nat.testBit_xor, Nat.testBit_two_pow]
  have : Nat.testBit 0xFF j = true := by
    have := Nat.testBit_two_pow_sub_one 8 j
    simpa [hj] using this
  rw [this]
  simp

theorem or_BV_lt (x k : Nat) (hx : x < 256) (hk : k < 8) : x ||| _BV k < 256 := by
  rw [_BV, Nat.one_shiftLeft]
  apply @Nat.or_lt_two_pow x (2 ^ k) 8 hx
  exact Nat.pow_lt_pow_right (by decide) hk

theorem and_mask_lt (x m : Nat) (hx : x < 256) : x &&& m < 256 :=
  Nat.lt_of_le_of_lt Nat.and_le_left hx

theorem is_rom_set (rom : List Nat) (b v : Nat) (h : is_rom rom) (hv : v < 256) :
    is_rom (rom.set b v) := by
  refine ⟨by rw [List.length_set]; exact h.1, ?_⟩
  intro x hx
  rcases List.mem_or_eq_of_mem_set hx with h1 | h1
  · exact h.2 x h1
  · rw [h1]; exact hv

theorem getD_lt (rom : List Nat) (b : Nat) (h : is_rom rom) : rom.getD b 0 < 256 := by
  by_cases hb : b < rom.length
  · rw [List.getD_eq_getElem _ _ hb]; exact h.2 _ (List.getElem_mem _)
  · rw [List.getD_eq_default _ _ (by omega)]; decide

theorem getD_set (rom : List Nat) (b c v : Nat) (hb : b < rom.length) :
    (rom.set b v).getD c 0 = if c = b then v else rom.getD c 0 := by
  simp only [List.getD_eq_getElem?_getD, List.getElem?_set]
  by_cases hc : b = c
  · subst hc; simp [hb]
  · have : ¬ c = b := fun h => hc h.symm
    simp [hc, this]

theorem is_rom_set_bit (rom : List Nat) (i : Nat) (h : is_rom rom) :
    is_rom (set_bit rom (i / 8) (i % 8)) :=
  is_rom_set _ _ _ h (or_BV_lt _ _ (getD_lt rom _ h) (Nat.mod_lt _ (by decide)))

theorem is_rom_clear_bit (rom : List Nat) (i : Nat) (h : is_rom rom) :
    is_rom (clear_bit rom (i / 8) (i % 8)) :=
  is_rom_set _ _ _ h (and_mask_lt _ _ (getD_lt rom _ h))

theorem rom_bit_set_bit (rom : List Nat) (i j : Nat) (h : rom.length = 8) (hi : i < 64) :
    rom_bit (set_bit rom (i / 8) (i % 8)) j = if j = i then true else rom_bit rom j := by
  unfold rom_bit set_bit
  rw [getD_set _ _ _ _ (by omega)]
  by_cases hb : j / 8 = i / 8
  · rw [if_pos hb, testBit_or_BV, hb]
    by_cases hk : i % 8 = j % 8
    · have : j = i := by omega
      simp [this]
    · have : ¬ j = i := fun e => hk (by rw [e])
      simp [hk, this]
  · have : ¬ j = i := fun e => hb (by rw [e])
    rw [if_neg hb, if_neg this]

theorem rom_bit_clear_bit (rom : List Nat) (i j : Nat) (h : rom.length = 8) (hi : i < 64) :
    rom_bit (clear_bit rom (i / 8) (i % 8)) j = if j = i then false else rom_bit rom j := by
  unfold rom_bit clear_bit
  rw [getD_set _ _ _ _ (by omega)]
  by_cases hb : j / 8 = i / 8
  · rw [if_pos hb, testBit_and_not_BV _ _ _ (Nat.mod_lt _ (by decide)), hb]
    by_cases hk : i % 8 = j % 8
    · have : j = i := by omega
      simp [this]
    · have : ¬ j = i := fun e => hk (by rw [e])
      simp [hk, this]
  · have : ¬ j = i := fun e => hb (by rw [e])
    rw [if_neg hb, if_neg this]

theorem write_bit_eq (B : Bus σ) (rom : List Nat) (i pin : Nat) (s : σ) :
    write_bit B (rom.getD (i / 8) 0) (i % 8) pin s =
      if rom_bit rom i then B.write_bit1 pin s else B.write_bit0 pin s := by
  unfold write_bit rom_bit
  by_cases h : (rom.getD (i / 8) 0).testBit (i % 8) = true
  · rw [if_pos ((and_BV_ne_zero_iff _ _).2 h), if_pos h]
  · rw [if_neg (fun hh => h ((and_BV_ne_zero_iff _ _).1 hh)), if_neg h]

theorem search_decide_spec (rom : List Nat) (i L nd : Nat) (b1 b2 : Bool)
    (h : is_rom rom) (hi : i < 64) :
    is_rom (search_decide rom (i / 8) (i % 8) (8 * (i / 8) + i % 8 + 1) L nd b1 b2).1 ∧
    (∀ j, rom_bit (search_decide rom (i / 8) (i % 8) (8 * (i / 8) + i % 8 + 1) L nd b1 b2).1 j =
      if j = i then choose_bit L i (rom_bit rom i) b1 b2 else rom_bit rom j) ∧
    (search_decide rom (i / 8) (i % 8) (8 * (i / 8) + i % 8 + 1) L nd b1 b2).2 =
      choose_dev L i (rom_bit rom i) nd b1 b2 := by
  have hc : 8 * (i / 8) + i % 8 + 1 = i + 1 := by omega
  rw [hc]
  unfold search_decide choose_bit choose_dev
  by_cases hne : (b1 != b2) = true
  · simp only [hne, if_true]
    cases b1
    · simp only [Bool.false_eq_true, if_false]
      exact ⟨is_rom_clear_bit rom i h, fun j => rom_bit_clear_bit rom i j h.1 hi, trivial⟩
    · simp only [if_true]
      exact ⟨is_rom_set_bit rom i h, fun j => rom_bit_set_bit rom i j h.1 hi, trivial⟩
  · simp only [hne, Bool.false_eq_true, if_false]
    by_cases h1 : i + 1 = L
    · simp only [h1, if_true]
      exact ⟨is_rom_set_bit rom i h, fun j => rom_bit_set_bit rom i j h.1 hi, trivial⟩
    · simp only [h1, if_false]
      by_cases h2 : i + 1 > L
      · simp only [h2, if_true]
        exact ⟨is_rom_clear_bit rom i h, fun j => rom_bit_clear_bit rom i j h.1 hi, trivial⟩
      · simp only [h2, if_false]
        have hiff := and_BV_ne_zero_iff (rom.getD (i / 8) 0) (i % 8)
        by_cases h3 : rom_bit rom i = true
        · have h3' : ¬ ¬ (rom.getD (i / 8) 0 &&& _BV (i % 8) ≠ 0) := fun hh => hh (hiff.2 h3)
          rw [if_neg h3']
          refine ⟨h, fun j => ?_, by simp [h3]⟩
          by_cases hj : j = i
          · simp [hj, h3]
          · simp [hj]
        · have h3' : ¬ (rom.getD (i / 8) 0 &&& _BV (i % 8) ≠ 0) := fun hh => h3 (hiff.1 hh)
          rw [if_pos h3']
          refine ⟨h, fun j => ?_, by simp [h3]⟩
          by_cases hj : j = i
          · simp [hj]
          · simp [hj]

/-! ## One position of the search -/

theorem search_body_fail (B : Bus σ) (L pin b k : Nat) (rom : List Nat) (nd : Nat) (s : σ)
    (h1 : (B.read_bit pin s).1 = true)
    (h2 : (B.read_bit pin (B.read_bit pin s).2).1 = true) :
    search_body B L pin (search_at b k rom nd s) =
      { search_at b k rom nd s with
        err := true, new_deviation := ROM_SEARCH_FAILED
        bus := (B.read_bit pin (B.read_bit pin s).2).2 } := by
  unfold search_body
  simp only [search_at, h1, h2, Bool.and_self, if_true]

theorem search_body_pass (B : Bus σ) (L pin i : Nat) (rom : List Nat) (nd : Nat) (s : σ)
    (h : is_rom rom) (hi : i < 64)
    (h12 : ¬ ((B.read_bit pin s).1 = true ∧ (B.read_bit pin (B.read_bit pin s).2).1 = true)) :
    (search_body B L pin (search_at (i / 8) (i % 8) rom nd s)).err = false ∧
    is_rom (search_body B L pin (search_at (i / 8) (i % 8) rom nd s)).rom ∧
    (∀ j, rom_bit (search_body B L pin (search_at (i / 8) (i % 8) rom nd s)).rom j =
      if j = i then choose_bit L i (rom_bit rom i) (B.read_bit pin s).1
        (B.read_bit pin (B.read_bit pin s).2).1 else rom_bit rom j) ∧
    (search_body B L pin (search_at (i / 8) (i % 8) rom nd s)).new_deviation =
      choose_dev L i (rom_bit rom i) nd (B.read_bit pin s).1
        (B.read_bit pin (B.read_bit pin s).2).1 ∧
    (search_body B L pin (search_at (i / 8) (i % 8) rom nd s)).bus =
      (if rom_bit (search_body B L pin (search_at (i / 8) (i % 8) rom nd s)).rom i
        then B.write_bit1 pin (B.read_bit pin (B.read_bit pin s).2).2
        else B.write_bit0 pin (B.read_bit pin (B.read_bit pin s).2).2) := by
  have hc : ¬ (((B.read_bit pin s).1 && (B.read_bit pin (B.read_bit pin s).2).1) = true) := by
    simpa using h12
  obtain ⟨d1, d2, d3⟩ := search_decide_spec rom i L nd (B.read_bit pin s).1
    (B.read_bit pin (B.read_bit pin s).2).1 h hi
  unfold search_body
  simp only [Bool.not_eq_true] at hc
  simp only [search_at, hc, Bool.false_eq_true, if_false]
  refine ⟨trivial, d1, d2, d3, ?_⟩
  exact write_bit_eq B _ i pin _

/-! ## The search on the scripted bus: failure -/

theorem getD_tail_tail (q : List Bool) (k : Nat) :
    q.tail.tail.getD k true = q.getD (k + 2) true := by
  match q with
  | [] => simp
  | [_] => simp
  | _ :: _ :: t => simp

theorem drop_tail_tail (q : List Bool) (k : Nat) : q.tail.tail.drop k = q.drop (k + 2) := by
  match q with
  | [] => simp
  | [_] => simp
  | _ :: _ :: t => simp

theorem headD_eq_getD (q : List Bool) : q.headD true = q.getD 0 true := by
  cases q <;> rfl

theorem tail_headD_eq_getD (q : List Bool) : q.tail.headD true = q.getD 1 true := by
  match q with
  | [] => rfl
  | [_] => rfl
  | _ :: _ :: t => rfl

theorem script_read (pin : Nat) (q : List Bool) (lg : List Event) :
    scriptBus.read_bit pin { pending := q, log := lg } =
      (q.headD true, { pending := q.tail, log := lg ++ [Event.rd (q.headD true)] }) := rfl

theorem script_write (pin : Nat) (c : Bool) (s : Script) :
    (if c = true then scriptBus.write_bit1 pin s else scriptBus.write_bit0 pin s) =
      { pending := s.pending, log := s.log ++ [Event.wr c] } := by
  cases c <;> rfl

theorem script_search_fail (L pin m : Nat) :
    ∀ (n i : Nat) (rom : List Nat) (nd : Nat) (q : List Bool) (lg : List Event),
      is_rom rom → i + m < 64 → m < n → (∀ j < m, ¬ pair_11 q j) → pair_11 q m →
      (search_steps scriptBus L pin n i rom nd { pending := q, log := lg }).err = true ∧
      (search_steps scriptBus L pin n i rom nd { pending := q, log := lg }).new_deviation
        = ROM_SEARCH_FAILED ∧
      (search_steps scriptBus L pin n i rom nd { pending := q, log := lg }).bus =
        { pending := q.drop (2 * m + 2),
          log := lg ++ search_log
            (search_steps scriptBus L pin n i rom nd { pending := q, log := lg }).rom m i q ++
            [Event.rd true, Event.rd true] } ∧
      is_rom (search_steps scriptBus L pin n i rom nd { pending := q, log := lg }).rom ∧
      (∀ j, j < i ∨ i + m ≤ j →
        rom_bit (search_steps scriptBus L pin n i rom nd { pending := q, log := lg }).rom j
          = rom_bit rom j) ∧
      (m = 0 → (search_steps scriptBus L pin n i rom nd { pending := q, log := lg }).rom = rom) := by
  induction m with
  | zero =>
    intro n i rom nd q lg hrom _ hn _ hat
    obtain ⟨n, rfl⟩ : ∃ k, n = k + 1 := ⟨n - 1, by omega⟩
    have a1 : q.headD true = true := by rw [headD_eq_getD]; exact hat.1
    have a2 : q.tail.headD true = true := by rw [tail_headD_eq_getD]; exact hat.2
    have h1 : (scriptBus.read_bit pin { pending := q, log := lg }).1 = true := by
      rw [script_read]; exact a1
    have h2 : (scriptBus.read_bit pin (scriptBus.read_bit pin { pending := q, log := lg }).2).1
        = true := by
      rw [script_read, script_read]; exact a2
    have hb := search_body_fail scriptBus L pin (i / 8) (i % 8) rom nd _ h1 h2
    have he : (search_body scriptBus L pin
        (search_at (i / 8) (i % 8) rom nd { pending := q, log := lg })).err = true := by
      rw [hb]
    rw [search_steps, if_pos he, hb]
    refine ⟨rfl, rfl, ?_, hrom, fun _ _ => rfl, fun _ => rfl⟩
    show (scriptBus.read_bit pin (scriptBus.read_bit pin { pending := q, log := lg }).2).2 = _
    rw [script_read, script_read, a1, a2]
    have hd := drop_tail_tail q 0
    rw [List.drop_zero] at hd
    simp only [search_log, hd, List.append_nil, List.append_assoc, List.singleton_append,
      Nat.mul_zero, Nat.zero_add]
  | succ m ih =>
    intro n i rom nd q lg hrom hi hn hbefore hat
    obtain ⟨n, rfl⟩ : ∃ k, n = k + 1 := ⟨n - 1, by omega⟩
    have h0 : ¬ pair_11 q 0 := hbefore 0 (by omega)
    have h12 : ¬ ((scriptBus.read_bit pin { pending := q, log := lg }).1 = true ∧
        (scriptBus.read_bit pin (scriptBus.read_bit pin { pending := q, log := lg }).2).1
          = true) := by
      rw [script_read, script_read, headD_eq_getD, tail_headD_eq_getD]; exact h0
    obtain ⟨e1, e2, e3, _, e5⟩ := search_body_pass scriptBus L pin i rom nd _ hrom (by omega) h12
    have he : ¬ (search_body scriptBus L pin
        (search_at (i / 8) (i % 8) rom nd { pending := q, log := lg })).err = true := by
      rw [e1]; decide
    rw [search_steps, if_neg he]
    rw [script_write, script_read, script_read] at e5
    simp only [List.append_assoc, List.singleton_append, List.cons_append, List.nil_append] at e5
    generalize search_body scriptBus L pin
        (search_at (i / 8) (i % 8) rom nd { pending := q, log := lg }) = st at e1 e2 e3 e5 he ⊢
    rw [e5]
    have hb' : ∀ j < m, ¬ pair_11 q.tail.tail j := by
      intro j hj hp
      apply hbefore (j + 1) (by omega)
      unfold pair_11 at hp ⊢
      rw [getD_tail_tail, getD_tail_tail] at hp
      exact hp
    have hat' : pair_11 q.tail.tail m := by
      unfold pair_11 at hat ⊢
      rw [getD_tail_tail, getD_tail_tail]
      exact hat
    obtain ⟨r1, r2, r3, r4, r5, _⟩ := ih n (i + 1) st.rom st.new_deviation q.tail.tail
      (lg ++ (Event.rd (q.headD true) :: Event.rd (q.tail.headD true) ::
        [Event.wr (rom_bit st.rom i)]))
      e2 (by omega) (by omega) hb' hat'
    refine ⟨r1, r2, ?_, r4, ?_, fun h => by omega⟩
    · rw [r3, drop_tail_tail]
      simp only [search_log, List.append_assoc, List.cons_append, List.nil_append]
      rw [r5 i (Or.inl (by omega))]
      rfl
    · intro j hj
      rw [r5 j (by omega), e3 j, if_neg (by omega)]

theorem wired_send_loop (pin n d : Nat) (w : Wired) (h : w.phase ≠ 2) :
    owi_send_byte_loop wiredBus pin n d w = w := by
  induction n generalizing d with
  | zero => rfl
  | succ n ih =>
    rw [owi_send_byte_loop]
    have h1 : wiredBus.write_bit1 pin w = w := by
      show wired_write true w = w
      rw [wired_write, if_neg h]
    have h0 : wiredBus.write_bit0 pin w = w := by
      show wired_write false w = w
      rw [wired_write, if_neg h]
    rw [h1, h0, ite_self]
    exact ih _

theorem wired_send_byte (pin d : Nat) (w : Wired) (h : w.phase ≠ 2) :
    owi_send_byte wiredBus d pin w = w := wired_send_loop pin _ d w h

theorem search_rom_script_fail (rom : List Nat) (L pin : Nat) (p : List Bool) (k : Nat)
    (hrom : is_rom rom) (hk : k < 64) (hbefore : ∀ j < k, ¬ pair_11 p j) (hat : pair_11 p k) :
    (owi_search_rom scriptBus rom L pin { pending := p, log := [] }).1 = 0xFF ∧
    (owi_search_rom scriptBus rom L pin { pending := p, log := [] }).2.2 =
      { pending := p.drop (2 * k + 2),
        log := (byte_bits 0xF0).map Event.wr ++
          search_log (owi_search_rom scriptBus rom L pin { pending := p, log := [] }).2.1 k 0 p ++
          [Event.rd true, Event.rd true] } ∧
    (∀ j, k ≤ j →
      rom_bit (owi_search_rom scriptBus rom L pin { pending := p, log := [] }).2.1 j =
        rom_bit rom j) ∧
    (k = 0 → (owi_search_rom scriptBus rom L pin { pending := p, log := [] }).2.1 = rom) := by
  unfold owi_search_rom
  simp only [owi_search_rom_state_eq, send_byte_script, List.nil_append]
  obtain ⟨_, r2, r3, _, r5, r6⟩ := script_search_fail L pin k 64 0 rom 0 p
    ((byte_bits SEARCH_ROM_CMD).map Event.wr) hrom (by omega) hk hbefore hat
  exact ⟨r2, r3, fun j hj => r5 j (Or.inr (by omega)), r6⟩

theorem pair_11_of_all_true (q : List Bool) (h : ∀ b ∈ q, b = true) (j : Nat) : pair_11 q j := by
  have : ∀ n, q.getD n true = true := by
    intro n
    by_cases hn : n < q.length
    · rw [List.getD_eq_getElem _ _ hn]; exact h _ (List.getElem_mem _)
    · rw [List.getD_eq_default _ _ (by omega)]
  exact ⟨this _, this _⟩

theorem search_rom_wired_empty (rom : List Nat) (L pin : Nat) :
    owi_search_rom wiredBus rom L pin (wired_start []) =
      (0xFF, rom, { sel := [], pos := 0, phase := 2 }) := by
  unfold owi_search_rom
  simp only [owi_search_rom_state_eq]
  rw [wired_send_byte _ _ _ (by decide)]
  have hb := search_body_fail wiredBus L pin (0 / 8) (0 % 8) rom 0 (wired_start []) rfl rfl
  have he : (search_body wiredBus L pin (search_at (0 / 8) (0 % 8) rom 0 (wired_start []))).err
      = true := by rw [hb]
  rw [search_steps, if_pos he, hb]
  rfl

/-- Claim C5 (search failure): on a bus whose read slots sample the script
`p`, if position `k` (0-based) is the first whose two read slots both sample 1,
`owi_search_rom` returns 0xFF and its slots are exactly: the command byte
0xF0, then for each earlier position two reads and the write of the settled
bit, then the two reads of position `k`; nothing is written for position `k`,
no later position is read (the script is consumed up to `2 * k + 2` bits only)
and the buffer bits from position `k` on are untouched. In particular when
every read slot samples 1 (no device), and on the wired-AND bus with no
device, the call returns 0xFF after the command byte and two read slots and
leaves the buffer unchanged. -/
theorem search_failure (rom : List Nat) (L pin : Nat) (p : List Bool) (k : Nat)
    (hrom : is_rom rom) (hk : k < 64) (hbefore : ∀ j < k, ¬ pair_11 p j) (hat : pair_11 p k) :
    ((owi_search_rom scriptBus rom L pin { pending := p, log := [] }).1 = 0xFF ∧
      (owi_search_rom scriptBus rom L pin { pending := p, log := [] }).2.2 =
        { pending := p.drop (2 * k + 2),
          log := (byte_bits 0xF0).map Event.wr ++
            search_log (owi_search_rom scriptBus rom L pin { pending := p, log := [] }).2.1 k 0 p ++
            [Event.rd true, Event.rd true] } ∧
      (∀ j, k ≤ j →
        rom_bit (owi_search_rom scriptBus rom L pin { pending := p, log := [] }).2.1 j =
          rom_bit rom j)) ∧
    (∀ q : List Bool, (∀ b ∈ q, b = true) →
      owi_search_rom scriptBus rom L pin { pending := q, log := [] } =
        (0xFF, rom, { pending := q.drop 2,
                      log := (byte_bits 0xF0).map Event.wr ++ [Event.rd true, Event.rd true] })) ∧
    owi_search_rom wiredBus rom L pin (wired_start []) =
      (0xFF, rom, { sel := [], pos := 0, phase := 2 }) := by
  obtain ⟨a1, a2, a3, _⟩ := search_rom_script_fail rom L pin p k hrom hk hbefore hat
  refine ⟨⟨a1, a2, a3⟩, ?_, search_rom_wired_empty rom L pin⟩
  intro q hq
  obtain ⟨b1, b2, _, b4⟩ := search_rom_script_fail rom L pin q 0 hrom (by decide)
    (fun j hj => absurd hj (by omega)) (pair_11_of_all_true q hq 0)
  have b4' := b4 rfl
  rw [b4'] at b2
  apply Prod.ext
  · exact b1
  · apply Prod.ext
    · exact b4'
    · rw [b2]; rfl

/-- Witness of `search_failure`: the third position reads the pair (1,1). -/
theorem search_failure_witness :
    is_rom [1, 2, 3, 4, 5, 6, 7, 8] ∧ 2 < 64 ∧
    (∀ j < 2, ¬ pair_11 [false, true, true, false, true, true] j) ∧
    pair_11 [false, true, true, false, true, true] 2 ∧
    (((owi_search_rom scriptBus [1, 2, 3, 4, 5, 6, 7, 8] 0 0
        { pending := [false, true, true, false, true, true], log := [] }).1 = 0xFF ∧
      (owi_search_rom scriptBus [1, 2, 3, 4, 5, 6, 7, 8] 0 0
        { pending := [false, true, true, false, true, true], log := [] }).2.2 =
        { pending := [false, true, true, false, true, true].drop (2 * 2 + 2),
          log := (byte_bits 0xF0).map Event.wr ++
            search_log (owi_search_rom scriptBus [1, 2, 3, 4, 5, 6, 7, 8] 0 0
              { pending := [false, true, true, false, true, true], log := [] }).2.1 2 0
              [false, true, true, false, true, true] ++
            [Event.rd true, Event.rd true] } ∧
      (∀ j, 2 ≤ j →
        rom_bit (owi_search_rom scriptBus [1, 2, 3, 4, 5, 6, 7, 8] 0 0
          { pending := [false, true, true, false, true, true], log := [] }).2.1 j =
          rom_bit [1, 2, 3, 4, 5, 6, 7, 8] j)) ∧
    (∀ q : List Bool, (∀ b ∈ q, b = true) →
      owi_search_rom scriptBus [1, 2, 3, 4, 5, 6, 7, 8] 0 0 { pending := q, log := [] } =
        (0xFF, [1, 2, 3, 4, 5, 6, 7, 8],
          { pending := q.drop 2,
            log := (byte_bits 0xF0).map Event.wr ++ [Event.rd true, Event.rd true] })) ∧
    owi_search_rom wiredBus [1, 2, 3, 4, 5, 6, 7, 8] 0 0 (wired_start []) =
      (0xFF, [1, 2, 3, 4, 5, 6, 7, 8], { sel := [], pos := 0, phase := 2 })) :=
  ⟨by decide, by decide, by decide, by decide,
    search_failure [1, 2, 3, 4, 5, 6, 7, 8] 0 0 [false, true, true, false, true, true] 2
      (by decide) (by decide) (by decide) (by decide)⟩

/-! ## The search on the wired-AND bus: one pass -/

theorem agree_congr (d r r1 : List Nat) (j : Nat) (h : ∀ k < j, rom_bit r1 k = rom_bit r k) :
    agree d r1 j ↔ agree d r j := by
  unfold agree
  constructor
  · intro ha k hk; rw [ha k hk, h k hk]
  · intro ha k hk; rw [ha k hk, h k hk]

theorem zero_disc_congr (D : List (List Nat)) (r r1 : List Nat) (j : Nat)
    (h : ∀ k ≤ j, rom_bit r1 k = rom_bit r k) : zero_disc D r1 j ↔ zero_disc D r j := by
  unfold zero_disc
  rw [h j (Nat.le_refl j)]
  have : ∀ d, agree d r1 j ↔ agree d r j :=
    fun d => agree_congr d r r1 j (fun k hk => h k (Nat.le_of_lt hk))
  simp only [this]

theorem agree_succ (d r : List Nat) (i : Nat) :
    agree d r (i + 1) ↔ agree d r i ∧ rom_bit d i = rom_bit r i := by
  unfold agree
  constructor
  · intro h; exact ⟨fun j hj => h j (by omega), h i (by omega)⟩
  · intro h j hj
    by_cases hji : j = i
    · rw [hji]; exact h.2
    · exact h.1 j (by omega)

theorem wired_read1 (pin : Nat) (S : List (List Nat)) (i : Nat) :
    wiredBus.read_bit pin { sel := S, pos := i, phase := 0 } =
      (S.all (fun r => rom_bit r i), { sel := S, pos := i, phase := 1 }) := rfl

theorem wired_read2 (pin : Nat) (S : List (List Nat)) (i : Nat) :
    wiredBus.read_bit pin { sel := S, pos := i, phase := 1 } =
      (S.all (fun r => !rom_bit r i), { sel := S, pos := i, phase := 2 }) := rfl

theorem wired_write2 (pin : Nat) (S : List (List Nat)) (i : Nat) (c : Bool) :
    (if c = true then wiredBus.write_bit1 pin { sel := S, pos := i, phase := 2 }
      else wiredBus.write_bit0 pin { sel := S, pos := i, phase := 2 }) =
      { sel := S.filter (fun r => rom_bit r i == c), pos := i + 1, phase := 0 } := by
  cases c <;> rfl

theorem choose_bit_of_mixed (L i : Nat) (cur : Bool) (S : List (List Nat))
    (x : List Nat) (hx : x ∈ S)
    (hne : rom_bit x i ≠ choose_bit L i cur (S.all (fun r => rom_bit r i))
      (S.all (fun r => !rom_bit r i))) :
    S.all (fun r => rom_bit r i) = false ∧ S.all (fun r => !rom_bit r i) = false := by
  cases h1 : S.all (fun r => rom_bit r i) <;> cases h2 : S.all (fun r => !rom_bit r i)
  · exact ⟨rfl, rfl⟩
  · exfalso
    rw [h1, h2] at hne
    rw [List.all_eq_true] at h2
    have := h2 x hx
    simp [choose_bit] at hne
    simp [hne] at this
  · exfalso
    rw [h1, h2] at hne
    rw [List.all_eq_true] at h1
    have := h1 x hx
    simp [choose_bit] at hne
    simp [hne] at this
  · exfalso
    rw [List.all_eq_true] at h1 h2
    have a := h1 x hx
    have b := h2 x hx
    simp [a] at b

theorem pass_step (D : List (List Nat)) (b : List Nat) (L pin i : Nat) (r : List Nat) (nd : Nat)
    (w : Wired) (inv : PassInv D b L i r nd w) (hi : i < 64) :
    (search_body wiredBus L pin (search_at (i / 8) (i % 8) r nd w)).err = false ∧
    PassInv D b L (i + 1) (search_body wiredBus L pin (search_at (i / 8) (i % 8) r nd w)).rom
      (search_body wiredBus L pin (search_at (i / 8) (i % 8) r nd w)).new_deviation
      (search_body wiredBus L pin (search_at (i / 8) (i % 8) r nd w)).bus := by
  obtain ⟨S, pos, ph⟩ := w
  have hpos : pos = i := inv.pos
  have hph : ph = 0 := inv.phase
  subst hpos hph
  have hne : S ≠ [] := inv.ne
  have hsel : ∀ d, d ∈ S ↔ d ∈ D ∧ agree d r pos := inv.sel
  obtain ⟨x0, hx0⟩ := List.exists_mem_of_ne_nil S hne
  have h12 : ¬ ((wiredBus.read_bit pin { sel := S, pos := pos, phase := 0 }).1 = true ∧
      (wiredBus.read_bit pin
        (wiredBus.read_bit pin { sel := S, pos := pos, phase := 0 }).2).1 = true) := by
    rw [wired_read1, wired_read2]
    rintro ⟨h1, h2⟩
    rw [List.all_eq_true] at h1 h2
    have a := h1 x0 hx0
    have c := h2 x0 hx0
    simp [a] at c
  obtain ⟨e1, e2, e3, e4, e5⟩ := search_body_pass wiredBus L pin pos r nd _ inv.rom hi h12
  rw [wired_read1, wired_read2] at e3 e4 e5
  simp only [] at e3 e4 e5
  rw [wired_write2] at e5
  generalize search_body wiredBus L pin
    (search_at (pos / 8) (pos % 8) r nd { sel := S, pos := pos, phase := 0 }) = st
    at e1 e2 e3 e4 e5 ⊢
  have hc : rom_bit st.rom pos = choose_bit L pos (rom_bit r pos)
      (S.all (fun r => rom_bit r pos)) (S.all (fun r => !rom_bit r pos)) := by
    rw [e3 pos, if_pos rfl]
  have hold : ∀ k, k ≠ pos → rom_bit st.rom k = rom_bit r k := by
    intro k hk; rw [e3 k, if_neg hk]
  have hag : ∀ d j, j ≤ pos → (agree d st.rom j ↔ agree d r j) :=
    fun d j hj => agree_congr d r st.rom j (fun k hk => hold k (by omega))
  have hmixed : ∀ x ∈ S, rom_bit x pos ≠ rom_bit st.rom pos →
      S.all (fun r => rom_bit r pos) = false ∧ S.all (fun r => !rom_bit r pos) = false := by
    intro x hx hxne
    rw [hc] at hxne
    exact choose_bit_of_mixed L pos _ S x hx hxne
  have hone : S.all (fun r => !rom_bit r pos) = false → ∃ y ∈ S, rom_bit y pos = true := by
    intro h
    rw [List.all_eq_false] at h
    obtain ⟨y, hy, hyb⟩ := h
    exact ⟨y, hy, by simpa using hyb⟩
  have hzero : S.all (fun r => rom_bit r pos) = false → ∃ y ∈ S, rom_bit y pos = false := by
    intro h
    rw [List.all_eq_false] at h
    obtain ⟨y, hy, hyb⟩ := h
    exact ⟨y, hy, by simpa using hyb⟩
  refine ⟨e1, ?_⟩
  rw [e5]
  constructor
  · exact e2
  · rfl
  · rfl
  · -- some device stays selected
    show S.filter (fun r => rom_bit r pos == rom_bit st.rom pos) ≠ []
    suffices h : ∃ y ∈ S, rom_bit y pos = rom_bit st.rom pos by
      obtain ⟨y, hy, hyb⟩ := h
      intro hnil
      have : y ∈ S.filter (fun r => rom_bit r pos == rom_bit st.rom pos) := by
        rw [List.mem_filter]; exact ⟨hy, by simp [hyb]⟩
      rw [hnil] at this
      cases this
    by_cases hx : rom_bit x0 pos = rom_bit st.rom pos
    · exact ⟨x0, hx0, hx⟩
    · obtain ⟨m1, m2⟩ := hmixed x0 hx0 hx
      cases hv : rom_bit st.rom pos
      · exact hzero m1
      · exact hone m2
  · intro d
    show d ∈ S.filter (fun r => rom_bit r pos == rom_bit st.rom pos) ↔ _
    rw [List.mem_filter, hsel d, agree_succ, hag d pos (Nat.le_refl _)]
    simp [and_assoc]
  · intro j hj
    rw [hold j (by omega)]
    exact inv.rest j (by omega)
  · intro j hj d hd hagd hdne
    by_cases hjp : j = pos
    · subst hjp
      have hdS : d ∈ S := (hsel d).2 ⟨hd, (hag d j (Nat.le_refl _)).1 hagd⟩
      obtain ⟨m1, m2⟩ := hmixed d hdS hdne
      rw [hc, m1, m2, inv.rest j (Nat.le_refl _)]
      rfl
    · rw [hold j hjp] at hdne ⊢
      exact inv.chosen j (by omega) d hd ((hag d j (by omega)).1 hagd) hdne
  · rw [e4]
    have := inv.nd_le
    unfold choose_dev
    split_ifs <;> omega
  · intro hnd
    rw [e4] at hnd ⊢
    have hkeep : nd ≠ 0 → zero_disc D st.rom (nd - 1) := by
      intro h0
      have hle := inv.nd_le
      rw [zero_disc_congr D r st.rom (nd - 1) (fun k hk => hold k (by omega))]
      exact inv.nd_disc h0
    have hnew : S.all (fun r => !rom_bit r pos) = false → rom_bit st.rom pos = false →
        zero_disc D st.rom (pos + 1 - 1) := by
      intro hb2 hv
      obtain ⟨y, hy, hyb⟩ := hone hb2
      rw [Nat.add_sub_cancel]
      exact ⟨hv, y, ((hsel y).1 hy).1, (hag y pos (Nat.le_refl _)).2 ((hsel y).1 hy).2, hyb⟩
    unfold choose_dev at hnd ⊢
    unfold choose_bit at hc
    cases hb1 : S.all (fun r => rom_bit r pos) <;>
      cases hb2 : S.all (fun r => !rom_bit r pos) <;>
      simp only [hb1, hb2, bne_self_eq_false, Bool.false_eq_true, if_false, if_true,
        Bool.true_bne, Bool.false_bne, Bool.not_false, Bool.not_true] at hnd hc ⊢
    · by_cases h1 : pos + 1 = L
      · simp only [h1, if_true] at hnd ⊢; exact hkeep hnd
      · simp only [h1, if_false] at hnd hc ⊢
        by_cases h2 : pos + 1 > L
        · simp only [h2, if_true] at hnd hc ⊢
          exact hnew hb2 hc
        · simp only [h2, if_false] at hnd hc ⊢
          cases hcur : rom_bit r pos
          · simp only [hcur, Bool.false_eq_true, if_false] at hnd hc ⊢
            exact hnew hb2 hc
          · simp only [hcur, if_true] at hnd ⊢
            exact hkeep hnd
    · exact hkeep hnd
    · exact hkeep hnd
    · exfalso
      rw [List.all_eq_true] at hb1 hb2
      have a := hb1 x0 hx0
      have c := hb2 x0 hx0
      simp [a] at c
  · intro j hj hz
    rw [e4]
    by_cases hjp : j = pos
    · subst hjp
      obtain ⟨hv, d, hd, hagd, hdb⟩ := hz
      have hdS : d ∈ S := (hsel d).2 ⟨hd, (hag d j (Nat.le_refl _)).1 hagd⟩
      obtain ⟨m1, m2⟩ := hmixed d hdS (by rw [hv, hdb]; decide)
      rw [hc, m1, m2] at hv
      rw [m1, m2]
      unfold choose_bit at hv
      unfold choose_dev
      simp only [bne_self_eq_false, Bool.false_eq_true, if_false] at hv ⊢
      by_cases h1 : j + 1 = L
      · simp [h1] at hv
      · simp only [h1, if_false] at hv ⊢
        by_cases h2 : j + 1 > L
        · simp only [h2, if_true]; omega
        · simp only [h2, if_false] at hv ⊢
          simp only [hv, Bool.false_eq_true, if_false]; omega
    · have h1 : j + 1 ≤ nd := inv.nd_max j (by omega)
        ((zero_disc_congr D r st.rom j (fun k hk => hold k (by omega))).1 hz)
      have h2 := inv.nd_le
      unfold choose_dev
      split_ifs <;> omega

theorem pass_steps (D : List (List Nat)) (b : List Nat) (L pin n : Nat) :
    ∀ (i : Nat) (r : List Nat) (nd : Nat) (w : Wired), PassInv D b L i r nd w → i + n ≤ 64 →
      (search_steps wiredBus L pin n i r nd w).err = false ∧
      PassInv D b L (i + n) (search_steps wiredBus L pin n i r nd w).rom
        (search_steps wiredBus L pin n i r nd w).new_deviation
        (search_steps wiredBus L pin n i r nd w).bus := by
  induction n with
  | zero => intro i r nd w inv _; exact ⟨rfl, inv⟩
  | succ n ih =>
    intro i r nd w inv hi
    obtain ⟨e1, e2⟩ := pass_step D b L pin i r nd w inv (by omega)
    rw [search_steps, if_neg (by rw [e1]; decide), show i + (n + 1) = i + 1 + n by omega]
    exact ih _ _ _ _ e2 (by omega)

theorem pass_init (D : List (List Nat)) (b : List Nat) (L : Nat) (hb : is_rom b) (hne : D ≠ []) :
    PassInv D b L 0 b 0 (wired_start D) where
  rom := hb
  pos := rfl
  phase := rfl
  ne := hne
  sel := fun _ => ⟨fun h => ⟨h, fun j hj => absurd hj (Nat.not_lt_zero j)⟩, fun h => h.1⟩
  rest := fun _ _ => rfl
  chosen := fun j hj => absurd hj (Nat.not_lt_zero j)
  nd_le := Nat.le_refl 0
  nd_disc := fun h => absurd rfl h
  nd_max := fun j hj => absurd hj (Nat.not_lt_zero j)

theorem testBit_ge_8 (x j : Nat) (hx : x < 256) (hj : 8 ≤ j) : x.testBit j = false := by
  apply Nat.testBit_lt_two_pow
  calc x < 2 ^ 8 := hx
    _ ≤ 2 ^ j := Nat.pow_le_pow_right (by decide) hj

theorem rom_ext (a b : List Nat) (ha : is_rom a) (hb : is_rom b) (h : agree a b 64) : a = b := by
  apply List.ext_getElem (by rw [ha.1, hb.1])
  intro k h1 h2
  have hk : k < 8 := by rw [ha.1] at h1; exact h1
  apply Nat.eq_of_testBit_eq
  intro j
  by_cases hj : j < 8
  · have := h (8 * k + j) (by omega)
    unfold rom_bit at this
    rw [show (8 * k + j) / 8 = k by omega, show (8 * k + j) % 8 = j by omega,
      List.getD_eq_getElem _ _ h1, List.getD_eq_getElem _ _ h2] at this
    exact this
  · rw [testBit_ge_8 _ j (ha.2 _ (List.getElem_mem _)) (by omega),
      testBit_ge_8 _ j (hb.2 _ (List.getElem_mem _)) (by omega)]

theorem search_wired_inv (D : List (List Nat)) (b : List Nat) (L pin : Nat)
    (hb : is_rom b) (hne : D ≠ []) :
    PassInv D b L 64 (owi_search_rom wiredBus b L pin (wired_start D)).2.1
      (owi_search_rom wiredBus b L pin (wired_start D)).1
      (owi_search_rom wiredBus b L pin (wired_start D)).2.2 := by
  unfold owi_search_rom
  simp only [owi_search_rom_state_eq]
  rw [wired_send_byte _ _ (wired_start D) (by simp [wired_start])]
  exact (pass_steps D b L pin 64 0 b 0 _ (pass_init D b L hb hne) (by decide)).2

theorem search_wired_mem (D : List (List Nat)) (b : List Nat) (L pin : Nat)
    (hD : ∀ d ∈ D, is_rom d) (hb : is_rom b) (hne : D ≠ []) :
    (owi_search_rom wiredBus b L pin (wired_start D)).2.1 ∈ D := by
  have inv := search_wired_inv D b L pin hb hne
  obtain ⟨x, hx⟩ := List.exists_mem_of_ne_nil _ inv.ne
  obtain ⟨hxD, hag⟩ := (inv.sel x).1 hx
  rw [← rom_ext x _ (hD x hxD) inv.rom hag]
  exact hxD

/-- Claim C10 (ROM CRC invariant after Search): on the wired-AND bus whose
devices each present a 64-bit ROM made of seven identity bytes and, last, the
CRC8 of those seven bytes (bits of each byte least-significant first), every
call of `owi_search_rom` that does not return 0xFF, for any `last_deviation`
and any initial 8-byte buffer, leaves a buffer whose `crc8` fold from seed 0
over `rom[0..6]` equals `rom[7]`. -/
theorem search_rom_crc (D : List (List Nat)) (buf : List Nat) (L pin : Nat)
    (hD : ∀ r ∈ D, is_rom r ∧ r.getD 7 0 = crc8_fold 0 (r.take 7))
    (hbuf : is_rom buf)
    (hret : (owi_search_rom wiredBus buf L pin (wired_start D)).1 ≠ 0xFF) :
    crc8_fold 0 ((owi_search_rom wiredBus buf L pin (wired_start D)).2.1.take 7) =
      (owi_search_rom wiredBus buf L pin (wired_start D)).2.1.getD 7 0 := by
  by_cases hne : D = []
  · exfalso
    apply hret
    rw [hne, search_rom_wired_empty]
  · have hm := search_wired_mem D buf L pin (fun d hd => (hD d hd).1) hbuf hne
    exact ((hD _ hm).2).symm

set_option maxRecDepth 1000000 in
theorem search_rom_crc_example :
    (∀ r ∈ [[0x02, 0x1C, 0xB8, 0x01, 0x00, 0x00, 0x00, 0xA2]],
      is_rom r ∧ r.getD 7 0 = crc8_fold 0 (r.take 7)) ∧
    (owi_search_rom wiredBus [0, 0, 0, 0, 0, 0, 0, 0] 0 0
      (wired_start [[0x02, 0x1C, 0xB8, 0x01, 0x00, 0x00, 0x00, 0xA2]])).1 ≠ 0xFF := by
  decide

/-- Witness of `search_rom_crc` on the bus with the single device
02 1C B8 01 00 00 00 A2. -/
theorem search_rom_crc_witness :
    (∀ r ∈ [[0x02, 0x1C, 0xB8, 0x01, 0x00, 0x00, 0x00, 0xA2]],
      is_rom r ∧ r.getD 7 0 = crc8_fold 0 (r.take 7)) ∧
    is_rom [0, 0, 0, 0, 0, 0, 0, 0] ∧
    (owi_search_rom wiredBus [0, 0, 0, 0, 0, 0, 0, 0] 0 0
      (wired_start [[0x02, 0x1C, 0xB8, 0x01, 0x00, 0x00, 0x00, 0xA2]])).1 ≠ 0xFF ∧
    crc8_fold 0 ((owi_search_rom wiredBus [0, 0, 0, 0, 0, 0, 0, 0] 0 0
      (wired_start [[0x02, 0x1C, 0xB8, 0x01, 0x00, 0x00, 0x00, 0xA2]])).2.1.take 7) =
      (owi_search_rom wiredBus [0, 0, 0, 0, 0, 0, 0, 0] 0 0
      (wired_start [[0x02, 0x1C, 0xB8, 0x01, 0x00, 0x00, 0x00, 0xA2]])).2.1.getD 7 0 :=
  ⟨search_rom_crc_example.1, by decide, search_rom_crc_example.2,
    search_rom_crc [[0x02, 0x1C, 0xB8, 0x01, 0x00, 0x00, 0x00, 0xA2]] [0, 0, 0, 0, 0, 0, 0, 0] 0 0
      search_rom_crc_example.1 (by decide) search_rom_crc_example.2⟩

/-! ## The search on the wired-AND bus: the chain of calls -/

theorem agree_symm {a b : List Nat} {i : Nat} (h : agree a b i) : agree b a i :=
  fun j hj => (h j hj).symm

theorem agree_trans {a b c : List Nat} {i : Nat} (h1 : agree a b i) (h2 : agree b c i) :
    agree a c i := fun j hj => (h1 j hj).trans (h2 j hj)

theorem agree_mono {a b : List Nat} {i j : Nat} (h : agree a b i) (hj : j ≤ i) : agree a b j :=
  fun k hk => h k (by omega)

theorem lex_lt_irrefl (a : List Nat) : ¬ lex_lt a a := by
  rintro ⟨q, _, _, h0, h1⟩
  rw [h0] at h1
  cases h1

theorem lex_lt_trans {a b c : List Nat} (h1 : lex_lt a b) (h2 : lex_lt b c) : lex_lt a c := by
  obtain ⟨q1, hq1, ag1, a0, b1⟩ := h1
  obtain ⟨q2, hq2, ag2, b0, c1⟩ := h2
  rcases Nat.lt_trichotomy q1 q2 with h | h | h
  · refine ⟨q1, hq1, agree_trans ag1 (agree_mono ag2 (by omega)), a0, ?_⟩
    rw [← ag2 q1 h]; exact b1
  · subst h
    rw [b0] at b1
    cases b1
  · refine ⟨q2, hq2, agree_trans (agree_mono ag1 (by omega)) ag2, ?_, c1⟩
    rw [ag1 q2 h]; exact b0

theorem first_diff (a c : List Nat) (ha : is_rom a) (hc : is_rom c) :
    a = c ∨ ∃ q, q < 64 ∧ agree a c q ∧ rom_bit a q ≠ rom_bit c q := by
  by_cases h : agree a c 64
  · exact Or.inl (rom_ext a c ha hc h)
  · right
    have hex : ∃ q, q < 64 ∧ rom_bit a q ≠ rom_bit c q := by
      unfold agree at h
      push_neg at h
      exact h
    refine ⟨Nat.find hex, (Nat.find_spec hex).1, ?_, (Nat.find_spec hex).2⟩
    intro j hj
    by_contra hne
    exact Nat.find_min hex hj ⟨by have := (Nat.find_spec hex).1; omega, hne⟩

theorem filter_length_lt {α : Type} (l : List α) (p q : α → Bool)
    (hpq : ∀ x ∈ l, q x = true → p x = true) (hex : ∃ x ∈ l, p x = true ∧ q x = false) :
    (l.filter q).length < (l.filter p).length := by
  have hle : ∀ (l : List α), (∀ x ∈ l, q x = true → p x = true) →
      (l.filter q).length ≤ (l.filter p).length := by
    intro l
    induction l with
    | nil => intro _; simp
    | cons y t ih =>
      intro h
      have iht := ih (fun x hx => h x (List.mem_cons_of_mem _ hx))
      have hy := h y (List.mem_cons_self _ _)
      cases hq : q y <;> cases hp : p y
      · simp [List.filter, hq, hp, iht]
      · simp [List.filter, hq, hp]; omega
      · simp [hq, hp] at hy
      · simp [List.filter, hq, hp, iht]
  induction l with
  | nil => obtain ⟨x, hx, _⟩ := hex; cases hx
  | cons y t ih =>
    have hlet := hle t (fun x hx => hpq x (List.mem_cons_of_mem _ hx))
    obtain ⟨x, hx, hp, hq⟩ := hex
    rcases List.mem_cons.1 hx with hxy | hxt
    · subst hxy
      simp [List.filter, hp, hq]; omega
    · have iht := ih (fun x hx => hpq x (List.mem_cons_of_mem _ hx)) ⟨x, hxt, hp, hq⟩
      have hy := hpq y (List.mem_cons_self _ _)
      cases hqy : q y <;> cases hpy : p y
      · simp [List.filter, hqy, hpy, iht]
      · simp [List.filter, hqy, hpy]; omega
      · simp [hqy, hpy] at hy
      · simp [List.filter, hqy, hpy, iht]

theorem search_wired_good (D : List (List Nat)) (b : List Nat) (L pin : Nat)
    (hD : ∀ d ∈ D, is_rom d) (hb : is_rom b) (hne : D ≠ []) :
    Good D (owi_search_rom wiredBus b L pin (wired_start D)).2.1
      (owi_search_rom wiredBus b L pin (wired_start D)).1 := by
  have inv := search_wired_inv D b L pin hb hne
  exact ⟨search_wired_mem D b L pin hD hb hne, inv.nd_le, inv.nd_disc, inv.nd_max⟩

theorem search_wired_first (D : List (List Nat)) (b : List Nat) (pin : Nat)
    (hD : ∀ d ∈ D, is_rom d) (hb : is_rom b) (hne : D ≠ []) :
    ∀ d ∈ D, d = (owi_search_rom wiredBus b 0 pin (wired_start D)).2.1 ∨
      lex_lt (owi_search_rom wiredBus b 0 pin (wired_start D)).2.1 d := by
  have inv := search_wired_inv D b 0 pin hb hne
  generalize (owi_search_rom wiredBus b 0 pin (wired_start D)).2.1 = c at inv
  generalize (owi_search_rom wiredBus b 0 pin (wired_start D)).1 = nd at inv
  generalize (owi_search_rom wiredBus b 0 pin (wired_start D)).2.2 = w at inv
  intro d hd
  rcases first_diff d c (hD d hd) inv.rom with h | ⟨q, hq, hag, hne'⟩
  · exact Or.inl h
  · right
    have hc := inv.chosen q hq d hd hag hne'
    have hc0 : rom_bit c q = false := by
      rw [hc]; simp [choice]
    refine ⟨q, hq, agree_symm hag, hc0, ?_⟩
    rw [hc0] at hne'
    simpa using hne'

theorem search_wired_next (D : List (List Nat)) (b : List Nat) (L pin : Nat)
    (hD : ∀ d ∈ D, is_rom d) (hL : L ≠ 0) (hg : Good D b L) :
    lex_lt b (owi_search_rom wiredBus b L pin (wired_start D)).2.1 ∧
    ∀ d ∈ D, lex_lt b d → d = (owi_search_rom wiredBus b L pin (wired_start D)).2.1 ∨
      lex_lt (owi_search_rom wiredBus b L pin (wired_start D)).2.1 d := by
  obtain ⟨hbD, hL64, hdisc, hmax⟩ := hg
  have hne : D ≠ [] := List.ne_nil_of_mem hbD
  have inv := search_wired_inv D b L pin (hD b hbD) hne
  generalize (owi_search_rom wiredBus b L pin (wired_start D)).2.1 = c at inv
  generalize (owi_search_rom wiredBus b L pin (wired_start D)).1 = nd at inv
  generalize (owi_search_rom wiredBus b L pin (wired_start D)).2.2 = w at inv
  -- the pass replays `b` before position `L`
  have hreplay : ∀ j, j ≤ L - 1 → agree c b j := by
    intro j
    induction j with
    | zero => intro _ k hk; omega
    | succ j ih =>
      intro hj
      have hag := ih (by omega)
      rw [agree_succ]
      refine ⟨hag, ?_⟩
      by_contra hne'
      have hc := inv.chosen j (by omega) b hbD (agree_symm hag) (fun e => hne' e.symm)
      have : choice L b j = rom_bit b j := by
        unfold choice
        rw [if_neg (by omega), if_neg (by omega)]
      rw [this] at hc
      exact hne' hc
  have hagL : agree c b (L - 1) := hreplay (L - 1) (Nat.le_refl _)
  obtain ⟨hb0, d0, hd0, hag0, hd01⟩ := hdisc hL
  -- at position `L` the pass takes the 1-branch
  have hcL : rom_bit c (L - 1) = true := by
    by_contra hcf
    have hcf' : rom_bit c (L - 1) = false := by simpa using hcf
    have hc := inv.chosen (L - 1) (by omega) d0 hd0 (agree_trans hag0 (agree_symm hagL))
      (by rw [hd01, hcf']; decide)
    have : choice L b (L - 1) = true := by
      unfold choice
      rw [if_pos (by omega)]
    rw [this] at hc
    exact hcf hc
  refine ⟨⟨L - 1, by omega, agree_symm hagL, hb0, hcL⟩, ?_⟩
  intro d hd ⟨q, hq, hagq, hbq, hdq⟩
  have hqL : q + 1 ≤ L := hmax q hq ⟨hbq, d, hd, agree_symm hagq, hdq⟩
  by_cases hlt : q + 1 < L
  · right
    have hcq : rom_bit c q = rom_bit b q := hagL q (by omega)
    exact ⟨q, hq, agree_trans (agree_mono hagL (by omega)) hagq, by rw [hcq]; exact hbq, hdq⟩
  · have hqe : q = L - 1 := by omega
    subst hqe
    have hdc : agree d c (L - 1) := agree_trans (agree_symm hagq) (agree_symm hagL)
    rcases first_diff d c (hD d hd) inv.rom with h | ⟨q', hq', hag', hne'⟩
    · exact Or.inl h
    · right
      have hq'L : L - 1 < q' := by
        by_contra hle
        have hle' : q' ≤ L - 1 := by omega
        rcases Nat.lt_or_eq_of_le hle' with h1 | h1
        · exact hne' (hdc q' h1)
        · rw [h1, hdq, hcL] at hne'
          exact hne' rfl
      have hc := inv.chosen q' hq' d hd hag' hne'
      have hc0 : rom_bit c q' = false := by
        rw [hc]
        unfold choice
        rw [if_neg (by omega), if_pos (by omega)]
      refine ⟨q', hq', agree_symm hag', hc0, ?_⟩
      rw [hc0] at hne'
      simpa using hne'

theorem search_wired_call (D : List (List Nat)) (b : List Nat) (L pin : Nat)
    (hD : ∀ d ∈ D, is_rom d) (hb : is_rom b) (hne : D ≠ []) (hpre : L = 0 ∨ Good D b L) :
    Good D (owi_search_rom wiredBus b L pin (wired_start D)).2.1
      (owi_search_rom wiredBus b L pin (wired_start D)).1 ∧
    (L = 0 ∨ lex_lt b (owi_search_rom wiredBus b L pin (wired_start D)).2.1) ∧
    ∀ d ∈ D, (L = 0 ∨ lex_lt b d) →
      d = (owi_search_rom wiredBus b L pin (wired_start D)).2.1 ∨
      lex_lt (owi_search_rom wiredBus b L pin (wired_start D)).2.1 d := by
  refine ⟨search_wired_good D b L pin hD hb hne, ?_⟩
  by_cases hL : L = 0
  · subst hL
    exact ⟨Or.inl rfl, fun d hd _ => search_wired_first D b pin hD hb hne d hd⟩
  · have hg : Good D b L := hpre.resolve_left hL
    obtain ⟨h1, h2⟩ := search_wired_next D b L pin hD hL hg
    exact ⟨Or.inr h1, fun d hd hc => h2 d hd (hc.resolve_left hL)⟩

theorem search_all_spec (D : List (List Nat)) (pin : Nat) (hD : ∀ d ∈ D, is_rom d)
    (hne : D ≠ []) (n : Nat) :
    ∀ (b : List Nat) (L : Nat), is_rom b → (L = 0 ∨ Good D b L) →
      (D.filter (fun d => decide (L = 0 ∨ lex_lt b d))).length ≤ n →
      (∀ x ∈ search_all D pin n b L, x.1 ≠ 0xFF) ∧
      (search_all D pin n b L).getLast?.map Prod.fst = some 0 ∧
      List.Pairwise lex_lt ((search_all D pin n b L).map Prod.snd) ∧
      ∀ d, d ∈ (search_all D pin n b L).map Prod.snd ↔ d ∈ D ∧ (L = 0 ∨ lex_lt b d) := by
  induction n with
  | zero =>
    intro b L hb hpre hlen
    exfalso
    obtain ⟨hg, hc, _⟩ := search_wired_call D b L pin hD hb hne hpre
    have hmem : (owi_search_rom wiredBus b L pin (wired_start D)).2.1 ∈
        D.filter (fun d => decide (L = 0 ∨ lex_lt b d)) := by
      rw [List.mem_filter]
      exact ⟨hg.1, by simpa using hc⟩
    have : D.filter (fun d => decide (L = 0 ∨ lex_lt b d)) = [] :=
      List.length_eq_zero.1 (by omega)
    rw [this] at hmem
    cases hmem
  | succ n ih =>
    intro b L hb hpre hlen
    obtain ⟨hg, hc, hsucc⟩ := search_wired_call D b L pin hD hb hne hpre
    have hstep : search_all D pin (n + 1) b L =
        ((owi_search_rom wiredBus b L pin (wired_start D)).1,
          (owi_search_rom wiredBus b L pin (wired_start D)).2.1) ::
        (if (owi_search_rom wiredBus b L pin (wired_start D)).1 = 0 then []
         else search_all D pin n (owi_search_rom wiredBus b L pin (wired_start D)).2.1
           (owi_search_rom wiredBus b L pin (wired_start D)).1) := rfl
    rw [hstep]
    generalize (owi_search_rom wiredBus b L pin (wired_start D)).2.1 = c at hg hc hsucc
    generalize (owi_search_rom wiredBus b L pin (wired_start D)).1 = nd at hg
    have hnd : nd ≠ 0xFF := by have := hg.2.1; omega
    by_cases h0 : nd = 0
    · subst h0
      rw [if_pos rfl]
      refine ⟨?_, rfl, ?_, ?_⟩
      · intro x hx
        rw [List.mem_singleton] at hx
        rw [hx]; exact hnd
      · simp
      · intro d
        simp only [List.map_cons, List.map_nil, List.mem_singleton]
        constructor
        · intro h; rw [h]; exact ⟨hg.1, hc⟩
        · rintro ⟨hd, hcd⟩
          rcases hsucc d hd hcd with h | ⟨q, hq, hag, hc0, hd1⟩
          · exact h
          · exfalso
            have := hg.2.2.2 q hq ⟨hc0, d, hd, agree_symm hag, hd1⟩
            omega
    · rw [if_neg h0]
      have hlen' : (D.filter (fun d => decide (nd = 0 ∨ lex_lt c d))).length ≤ n := by
        have hlt := filter_length_lt D (fun d => decide (L = 0 ∨ lex_lt b d))
          (fun d => decide (nd = 0 ∨ lex_lt c d))
          (by
            intro x _ hx
            simp only [decide_eq_true_eq] at hx ⊢
            rcases hc with hc | hc
            · exact Or.inl hc
            · exact Or.inr (lex_lt_trans hc (hx.resolve_left h0)))
          ⟨c, hg.1, by simpa using hc, by
            simp only [decide_eq_false_iff_not]
            rintro (h | h)
            · exact h0 h
            · exact lex_lt_irrefl c h⟩
        omega
      obtain ⟨r1, r2, r3, r4⟩ := ih c nd (hD c hg.1) (Or.inr hg) hlen'
      generalize search_all D pin n c nd = rest at r1 r2 r3 r4
      refine ⟨?_, ?_, ?_, ?_⟩
      · intro x hx
        rcases List.mem_cons.1 hx with h | h
        · rw [h]; exact hnd
        · exact r1 x h
      · cases rest with
        | nil => simp at r2
        | cons y t => simpa using r2
      · rw [List.map_cons, List.pairwise_cons]
        refine ⟨?_, r3⟩
        intro d hd
        exact ((r4 d).1 hd).2.resolve_left h0
      · intro d
        rw [List.map_cons, List.mem_cons, r4 d]
        constructor
        · rintro (h | ⟨hd, hcd⟩)
          · rw [h]; exact ⟨hg.1, hc⟩
          · refine ⟨hd, ?_⟩
            rcases hc with hc | hc
            · exact Or.inl hc
            · exact Or.inr (lex_lt_trans hc (hcd.resolve_left h0))
        · rintro ⟨hd, hcd⟩
          rcases hsucc d hd hcd with h | h
          · exact Or.inl h
          · exact Or.inr ⟨hd, Or.inr h⟩

theorem search_all_dropLast (D : List (List Nat)) (pin n : Nat) :
    ∀ (b : List Nat) (L : Nat), ∀ x ∈ (search_all D pin n b L).dropLast, x.1 ≠ 0 := by
  induction n with
  | zero => intro b L x hx; cases hx
  | succ n ih =>
    intro b L x hx
    have hstep : search_all D pin (n + 1) b L =
        ((owi_search_rom wiredBus b L pin (wired_start D)).1,
          (owi_search_rom wiredBus b L pin (wired_start D)).2.1) ::
        (if (owi_search_rom wiredBus b L pin (wired_start D)).1 = 0 then []
         else search_all D pin n (owi_search_rom wiredBus b L pin (wired_start D)).2.1
           (owi_search_rom wiredBus b L pin (wired_start D)).1) := rfl
    rw [hstep] at hx
    by_cases h0 : (owi_search_rom wiredBus b L pin (wired_start D)).1 = 0
    · rw [if_pos h0] at hx
      cases hx
    · rw [if_neg h0] at hx
      have ih' := ih (owi_search_rom wiredBus b L pin (wired_start D)).2.1
        (owi_search_rom wiredBus b L pin (wired_start D)).1
      generalize search_all D pin n (owi_search_rom wiredBus b L pin (wired_start D)).2.1
        (owi_search_rom wiredBus b L pin (wired_start D)).1 = rest at hx ih'
      cases rest with
      | nil => cases hx
      | cons y t =>
        rw [List.dropLast_cons₂] at hx
        rcases List.mem_cons.1 hx with h | h
        · rw [h]; exact h0
        · exact ih' x h

/-- Claim C1 (search enumeration): for every non-empty list `D` of pairwise
distinct 8-byte ROMs on the wired-AND bus and every initial 8-byte buffer,
calling `owi_search_rom` with `last_deviation = 0` and then with the value
returned and the buffer left by the previous call, until a call returns 0
(`search_all`, with any bound `n` on the calls that is at least `|D|`), makes
exactly `|D|` calls; none returns 0xFF; the buffers left are the ROMs of `D`,
each once; the last call returns 0 and no earlier call does. -/
theorem search_enumerates (D : List (List Nat)) (buf : List Nat) (pin n : Nat)
    (hne : D ≠ []) (hnodup : D.Nodup) (hD : ∀ r ∈ D, is_rom r) (hbuf : is_rom buf)
    (hn : D.length ≤ n) :
    (search_all D pin n buf 0).length = D.length ∧
    (∀ x ∈ search_all D pin n buf 0, x.1 ≠ 0xFF) ∧
    ((search_all D pin n buf 0).map Prod.snd).Perm D ∧
    (search_all D pin n buf 0).getLast?.map Prod.fst = some 0 ∧
    (∀ x ∈ (search_all D pin n buf 0).dropLast, x.1 ≠ 0) := by
  have hlen : (D.filter (fun d => decide ((0 : Nat) = 0 ∨ lex_lt buf d))).length ≤ n :=
    Nat.le_trans (List.length_filter_le _ _) hn
  obtain ⟨r1, r2, r3, r4⟩ := search_all_spec D pin hD hne n buf 0 hbuf (Or.inl rfl) hlen
  have hnd : ((search_all D pin n buf 0).map Prod.snd).Nodup := by
    apply List.Pairwise.imp _ r3
    intro a b hab e
    rw [e] at hab
    exact lex_lt_irrefl b hab
  have hperm : ((search_all D pin n buf 0).map Prod.snd).Perm D := by
    rw [List.perm_ext_iff_of_nodup hnd hnodup]
    intro d
    rw [r4 d]
    simp
  refine ⟨?_, r1, hperm, r2, search_all_dropLast D pin n buf 0⟩
  rw [← hperm.length_eq, List.length_map]

/-- Witness of `search_enumerates` on a bus with three devices. -/
theorem search_enumerates_witness :
    [[0x02, 0x1C, 0xB8, 0x01, 0x00, 0x00, 0x00, 0xA2], [0x28, 1, 2, 3, 4, 5, 6, 7],
      [0x28, 1, 2, 3, 4, 5, 6, 8]] ≠ [] ∧
    [[0x02, 0x1C, 0xB8, 0x01, 0x00, 0x00, 0x00, 0xA2], [0x28, 1, 2, 3, 4, 5, 6, 7],
      [0x28, 1, 2, 3, 4, 5, 6, 8]].Nodup ∧
    (∀ r ∈ [[0x02, 0x1C, 0xB8, 0x01, 0x00, 0x00, 0x00, 0xA2], [0x28, 1, 2, 3, 4, 5, 6, 7],
      [0x28, 1, 2, 3, 4, 5, 6, 8]], is_rom r) ∧
    is_rom [9, 9, 9, 9, 9, 9, 9, 9] ∧
    [[0x02, 0x1C, 0xB8, 0x01, 0x00, 0x00, 0x00, 0xA2], [0x28, 1, 2, 3, 4, 5, 6, 7],
      [0x28, 1, 2, 3, 4, 5, 6, 8]].length ≤ 5 ∧
    ((search_all [[0x02, 0x1C, 0xB8, 0x01, 0x00, 0x00, 0x00, 0xA2], [0x28, 1, 2, 3, 4, 5, 6, 7],
      [0x28, 1, 2, 3, 4, 5, 6, 8]] 0 5 [9, 9, 9, 9, 9, 9, 9, 9] 0).length =
      [[0x02, 0x1C, 0xB8, 0x01, 0x00, 0x00, 0x00, 0xA2], [0x28, 1, 2, 3, 4, 5, 6, 7],
      [0x28, 1, 2, 3, 4, 5, 6, 8]].length ∧
    (∀ x ∈ search_all [[0x02, 0x1C, 0xB8, 0x01, 0x00, 0x00, 0x00, 0xA2],
      [0x28, 1, 2, 3, 4, 5, 6, 7], [0x28, 1, 2, 3, 4, 5, 6, 8]] 0 5 [9, 9, 9, 9, 9, 9, 9, 9] 0,
      x.1 ≠ 0xFF) ∧
    ((search_all [[0x02, 0x1C, 0xB8, 0x01, 0x00, 0x00, 0x00, 0xA2], [0x28, 1, 2, 3, 4, 5, 6, 7],
      [0x28, 1, 2, 3, 4, 5, 6, 8]] 0 5 [9, 9, 9, 9, 9, 9, 9, 9] 0).map Prod.snd).Perm
      [[0x02, 0x1C, 0xB8, 0x01, 0x00, 0x00, 0x00, 0xA2], [0x28, 1, 2, 3, 4, 5, 6, 7],
      [0x28, 1, 2, 3, 4, 5, 6, 8]] ∧
    (search_all [[0x02, 0x1C, 0xB8, 0x01, 0x00, 0x00, 0x00, 0xA2], [0x28, 1, 2, 3, 4, 5, 6, 7],
      [0x28, 1, 2, 3, 4, 5, 6, 8]] 0 5 [9, 9, 9, 9, 9, 9, 9, 9] 0).getLast?.map Prod.fst = some 0 ∧
    (∀ x ∈ (search_all [[0x02, 0x1C, 0xB8, 0x01, 0x00, 0x00, 0x00, 0xA2],
      [0x28, 1, 2, 3, 4, 5, 6, 7], [0x28, 1, 2, 3, 4, 5, 6, 8]] 0 5
      [9, 9, 9, 9, 9, 9, 9, 9] 0).dropLast, x.1 ≠ 0)) :=
  ⟨by decide, by decide, by decide, by decide, by decide,
    search_enumerates _ [9, 9, 9, 9, 9, 9, 9, 9] 0 5 (by decide) (by decide) (by decide)
      (by decide) (by decide)⟩

/-! ## Read ROM and the CRC byte -/

theorem bytes_bits_eq_wire_bits (l : List Nat) (h : l.length = 8) :
    bytes_bits l = wire_bits l.reverse := by
  match l, h with
  | [x0, x1, x2, x3, x4, x5, x6, x7], _ =>
    simp [bytes_bits, wire_bits]

theorem read_rom_device (id rom : List Nat) (pin : Nat) (lg : List Event)
    (hid : id.length = 7) (hlt : ∀ x ∈ id, x < 256) (hrom : rom.length = 8) :
    (owi_read_rom scriptBus rom pin { pending := device_stream id, log := lg }).1 =
      crc8_fold 0 id :: id.reverse := by
  have hl : (id ++ [crc8_fold 0 id]).length = 8 := by simp [hid]
  have hr : is_rom (id ++ [crc8_fold 0 id]).reverse := by
    refine ⟨by simp [hid], ?_⟩
    intro x hx
    rw [List.mem_reverse, List.mem_append, List.mem_singleton] at hx
    rcases hx with h | h
    · exact hlt x h
    · rw [h]; exact crc8_fold_lt id 0 (by decide)
  rw [device_stream, bytes_bits_eq_wire_bits _ hl, read_rom_wire_bits _ _ _ _ hr hrom]
  simp

set_option maxRecDepth 100000 in
theorem crc8_fold_reversed_example :
    crc8_fold 0 [0xA2, 0x00, 0x00, 0x00, 0x01, 0xB8, 0x1C] = 0xE3 := by decide

/-- Claim C9, as stated, fails: a device with family code 0x02 and serial
bytes 1C B8 01 00 00 00 transmits those seven bytes and then their CRC 0xA2;
`owi_read_rom` leaves A2 00 00 00 01 B8 1C 02, and the CRC of `rom[0..6]` is
0xE3, not `rom[7] = 0x02`. -/
theorem read_rom_crc_counterexample :
    (owi_read_rom scriptBus [0, 0, 0, 0, 0, 0, 0, 0] 0
      { pending := device_stream [0x02, 0x1C, 0xB8, 0x01, 0x00, 0x00, 0x00], log := [] }).1 =
      [0xA2, 0x00, 0x00, 0x00, 0x01, 0xB8, 0x1C, 0x02] ∧
    crc8_fold 0 ((owi_read_rom scriptBus [0, 0, 0, 0, 0, 0, 0, 0] 0
      { pending := device_stream [0x02, 0x1C, 0xB8, 0x01, 0x00, 0x00, 0x00], log := [] }).1.take 7)
      ≠ (owi_read_rom scriptBus [0, 0, 0, 0, 0, 0, 0, 0] 0
      { pending := device_stream [0x02, 0x1C, 0xB8, 0x01, 0x00, 0x00, 0x00], log := [] }).1.getD 7 0 := by
  have h := read_rom_device [0x02, 0x1C, 0xB8, 0x01, 0x00, 0x00, 0x00] [0, 0, 0, 0, 0, 0, 0, 0] 0 []
    (by decide) (by decide) (by decide)
  rw [h, crc8_fold_example.1]
  refine ⟨rfl, ?_⟩
  show crc8_fold 0 [0xA2, 0x00, 0x00, 0x00, 0x01, 0xB8, 0x1C] ≠ 0x02
  rw [crc8_fold_reversed_example]
  decide

/-- Claim C9, amended: `owi_read_rom` stores the bytes in the reverse of the
order received, so for a device that transmits its family code first, its six
serial bytes next and the CRC8 of those seven bytes last, the buffer holds the
CRC byte at `rom[0]` and the family code at `rom[7]`, and the `crc8` fold from
seed 0 over `rom[7], rom[6], ..., rom[1]` equals `rom[0]`. -/
theorem read_rom_crc_reversed (id rom : List Nat) (pin : Nat) (lg : List Event)
    (hid : id.length = 7) (hlt : ∀ x ∈ id, x < 256) (hrom : rom.length = 8) :
    (owi_read_rom scriptBus rom pin { pending := device_stream id, log := lg }).1 =
      crc8_fold 0 id :: id.reverse ∧
    (owi_read_rom scriptBus rom pin { pending := device_stream id, log := lg }).1.getD 7 0 =
      id.getD 0 0 ∧
    crc8_fold 0
      ((owi_read_rom scriptBus rom pin { pending := device_stream id, log := lg }).1.drop 1).reverse =
      (owi_read_rom scriptBus rom pin { pending := device_stream id, log := lg }).1.getD 0 0 := by
  rw [read_rom_device id rom pin lg hid hlt hrom]
  refine ⟨rfl, ?_, by simp⟩
  match id, hid with
  | [x0, x1, x2, x3, x4, x5, x6], _ => rfl

/-- Witness of `read_rom_crc_reversed` at the device 02 1C B8 01 00 00 00. -/
theorem read_rom_crc_reversed_witness :
    [0x02, 0x1C, 0xB8, 0x01, 0x00, 0x00, 0x00].length = 7 ∧
    (∀ x ∈ [0x02, 0x1C, 0xB8, 0x01, 0x00, 0x00, 0x00], x < 256) ∧
    [0, 0, 0, 0, 0, 0, 0, 0].length = 8 ∧
    ((owi_read_rom scriptBus [0, 0, 0, 0, 0, 0, 0, 0] 0
        { pending := device_stream [0x02, 0x1C, 0xB8, 0x01, 0x00, 0x00, 0x00], log := [] }).1 =
      crc8_fold 0 [0x02, 0x1C, 0xB8, 0x01, 0x00, 0x00, 0x00] ::
        [0x02, 0x1C, 0xB8, 0x01, 0x00, 0x00, 0x00].reverse ∧
    (owi_read_rom scriptBus [0, 0, 0, 0, 0, 0, 0, 0] 0
        { pending := device_stream [0x02, 0x1C, 0xB8, 0x01, 0x00, 0x00, 0x00], log := [] }).1.getD 7 0 =
      [0x02, 0x1C, 0xB8, 0x01, 0x00, 0x00, 0x00].getD 0 0 ∧
    crc8_fold 0
      ((owi_read_rom scriptBus [0, 0, 0, 0, 0, 0, 0, 0] 0
        { pending := device_stream [0x02, 0x1C, 0xB8, 0x01, 0x00, 0x00, 0x00],
          log := [] }).1.drop 1).reverse =
      (owi_read_rom scriptBus [0, 0, 0, 0, 0, 0, 0, 0] 0
        { pending := device_stream [0x02, 0x1C, 0xB8, 0x01, 0x00, 0x00, 0x00], log := [] }).1.getD 0 0) :=
  ⟨by decide, by decide, by decide,
    read_rom_crc_reversed _ _ 0 [] (by decide) (by decide) (by decide)⟩

/-! ## Bytes on any bus -/

theorem send_loop_write_bits (B : Bus σ) (pin n d : Nat) (s : σ) :
    owi_send_byte_loop B pin n d s =
      write_bits B pin ((List.range n).map (fun i => d.testBit i)) s := by
  induction n generalizing d s with
  | zero => rfl
  | succ n ih =>
    rw [owi_send_byte_loop, ih, List.range_succ_eq_map, List.map_cons, List.map_map, write_bits]
    have hsh : ((fun i => (d >>> 1).testBit i) : Nat → Bool) =
        (fun i => d.testBit i) ∘ Nat.succ := by
      funext i
      simp only [Function.comp, Nat.testBit_shiftRight, Nat.succ_eq_add_one, Nat.add_comm]
    rw [hsh]
    by_cases h : d.testBit 0 = true
    · rw [if_pos ((and_one_ne_zero_iff d).2 h), if_pos h]
    · rw [if_neg (fun hh => h ((and_one_ne_zero_iff d).1 hh)), if_neg h]

theorem send_byte_write_bits (B : Bus σ) (d pin : Nat) (s : σ) :
    owi_send_byte B d pin s = write_bits B pin (byte_bits d) s :=
  send_loop_write_bits B pin 8 d s

theorem recv_loop_read_slots (B : Bus σ) (pin n idx data : Nat) (s : σ) (h : data < 2 ^ idx) :
    owi_recv_byte_loop B pin n idx data s =
      (data + 2 ^ idx * bits_byte (read_slots B pin n s).1, (read_slots B pin n s).2) := by
  induction n generalizing idx data s with
  | zero => simp [owi_recv_byte_loop, read_slots, bits_byte]
  | succ n ih =>
    rw [owi_recv_byte_loop]
    simp only [read_slots, bits_byte]
    cases hb : (B.read_bit pin s).1
    · simp only [Bool.false_eq_true, if_false]
      rw [ih (idx + 1) data _ (by rw [Nat.pow_succ]; omega)]
      simp [Nat.pow_succ, Nat.mul_assoc]
    · simp only [if_true]
      rw [or_BV_eq_add _ _ h, ih (idx + 1) _ _ (by rw [Nat.pow_succ]; omega)]
      simp [Nat.pow_succ, Nat.mul_assoc]
      ring

theorem recv_byte_read_slots (B : Bus σ) (pin : Nat) (s : σ) :
    owi_recv_byte B pin s =
      (bits_byte (read_slots B pin 8 s).1, (read_slots B pin 8 s).2) := by
  rw [owi_recv_byte, BYTE_TO_BITS, recv_loop_read_slots _ _ _ _ _ _ (by decide)]
  simp

theorem read_slots_length (B : Bus σ) (pin n : Nat) (s : σ) :
    (read_slots B pin n s).1.length = n := by
  induction n generalizing s with
  | zero => rfl
  | succ n ih => simp [read_slots, ih]

theorem bits_byte_eq_sum (l : List Bool) (h : l.length = 8) : bits_byte l = bits_sum l := by
  match l, h with
  | [b0, b1, b2, b3, b4, b5, b6, b7], _ =>
    simp only [bits_byte, bits_sum, List.range, List.range.loop, List.map_cons, List.map_nil,
      List.sum_cons, List.sum_nil, List.getD_cons_zero, List.getD_cons_succ]
    omega

theorem read_slots_script (pin n : Nat) (s : Script) :
    read_slots scriptBus pin n s =
      (sampled n s.pending,
        { pending := s.pending.drop n, log := s.log ++ (sampled n s.pending).map Event.rd }) := by
  induction n generalizing s with
  | zero => simp [read_slots, sampled]
  | succ n ih =>
    obtain ⟨p, lg⟩ := s
    have hd : p.drop (n + 1) = p.tail.drop n := by
      cases p <;> simp
    simp only [read_slots, sampled, ih, script_read, hd, List.map_cons, List.append_assoc,
      List.singleton_append]


theorem byte_bits_getD (d i : Nat) (hi : i < 8) : (byte_bits d).getD i false = d.testBit i := by
  unfold byte_bits
  rw [List.getD_eq_getElem _ _ (by simp; exact hi)]
  simp

/-- Claim C19 (byte send is LSB-first): for every byte `d` and on every bus,
`owi_send_byte` performs exactly the 8 write slots of the bits of `d`, bit `i`
of `d` in the `i`-th slot (a write-1 slot when the bit is 1, a write-0 slot when
it is 0), and no read slot; on the scripted bus the log grows by those 8 write
slots and nothing of the script is consumed. -/
theorem send_byte_lsb_first (B : Bus σ) (d pin : Nat) (s : σ) (sc : Script) :
    owi_send_byte B d pin s = write_bits B pin (byte_bits d) s ∧
    (byte_bits d).length = 8 ∧
    (∀ i < 8, (byte_bits d).getD i false = d.testBit i) ∧
    owi_send_byte scriptBus d pin sc =
      { pending := sc.pending, log := sc.log ++ (byte_bits d).map Event.wr } :=
  ⟨send_byte_write_bits B d pin s, byte_bits_length d, fun i hi => byte_bits_getD d i hi,
    send_byte_script pin d sc⟩

/-- Claim C20 (byte receive is LSB-first and inverts send): on every bus
`owi_recv_byte` performs exactly 8 read slots and returns the sum over
`i = 0..7` of `b_i * 2 ^ i`, with `b_i` the bit sampled in the `i`-th slot; on
the scripted bus it consumes 8 bits of the script and logs 8 read slots; and
for every byte `d`, receiving the 8 bits that `owi_send_byte` writes for `d`
returns `d`. -/
theorem recv_byte_lsb_first (B : Bus σ) (pin : Nat) (s : σ) (sc : Script) (d : Nat)
    (p : List Bool) (lg : List Event) (hd : d < 256) :
    owi_recv_byte B pin s =
      (bits_sum (read_slots B pin 8 s).1, (read_slots B pin 8 s).2) ∧
    (read_slots B pin 8 s).1.length = 8 ∧
    owi_recv_byte scriptBus pin sc =
      (bits_sum (sampled 8 sc.pending),
        { pending := sc.pending.drop 8,
          log := sc.log ++ (sampled 8 sc.pending).map Event.rd }) ∧
    (owi_recv_byte scriptBus pin
      { pending := written (owi_send_byte scriptBus d pin { pending := p, log := [] }).log,
        log := lg }).1 = d := by
  refine ⟨?_, read_slots_length B pin 8 s, ?_, ?_⟩
  · rw [recv_byte_read_slots, bits_byte_eq_sum _ (read_slots_length B pin 8 s)]
  · rw [recv_byte_script, bits_byte_eq_sum _ (sampled_length 8 _)]
  · rw [send_byte_script, recv_byte_script]
    simp only [List.nil_append, written_map_wr]
    have h := sampled_append (byte_bits d) []
    rw [byte_bits_length, List.append_nil] at h
    rw [h]
    exact bits_byte_byte_bits d hd

/-- Witness of `recv_byte_lsb_first` at the byte 0xA2. -/
theorem recv_byte_lsb_first_witness :
    0xA2 < 256 ∧
    (owi_recv_byte scriptBus 0 { pending := [true, false, true], log := [] } =
      (bits_sum (read_slots scriptBus 0 8 { pending := [true, false, true], log := [] }).1,
        (read_slots scriptBus 0 8 { pending := [true, false, true], log := [] }).2) ∧
    (read_slots scriptBus 0 8 { pending := [true, false, true], log := [] }).1.length = 8 ∧
    owi_recv_byte scriptBus 0 { pending := [false, true], log := [] } =
      (bits_sum (sampled 8 [false, true]),
        { pending := [false, true].drop 8,
          log := [] ++ (sampled 8 [false, true]).map Event.rd }) ∧
    (owi_recv_byte scriptBus 0
      { pending := written (owi_send_byte scriptBus 0xA2 0 { pending := [], log := [] }).log,
        log := [] }).1 = 0xA2) :=
  ⟨by decide, recv_byte_lsb_first scriptBus 0 { pending := [true, false, true], log := [] }
    { pending := [false, true], log := [] } 0xA2 [] [] (by decide)⟩

/-! ## The scripted line -/

theorem line_write_bits (pin : Nat) (l : List Bool) (s : LineScript) :
    write_bits scriptLine.toBus pin l s =
      { pending := s.pending, log := s.log ++ wr_slots l } := by
  induction l generalizing s with
  | nil => simp [write_bits, wr_slots]
  | cons b t ih =>
    rw [write_bits, ih]
    cases b <;> simp [scriptLine, wr_slots]

theorem line_read_slots (pin n : Nat) (s : LineScript) :
    read_slots scriptLine.toBus pin n s =
      (sampled n s.pending,
        { pending := s.pending.drop n, log := s.log ++ rd_slots (sampled n s.pending) }) := by
  induction n generalizing s with
  | zero => simp [read_slots, sampled, rd_slots]
  | succ n ih =>
    obtain ⟨p, lg⟩ := s
    have hd : p.drop (n + 1) = p.tail.drop n := by
      cases p <;> simp
    have hr : scriptLine.toBus.read_bit pin { pending := p, log := lg } =
        (p.headD true,
          { pending := p.tail, log := lg ++ [LineEvent.slot (Event.rd (p.headD true))] }) := rfl
    simp only [read_slots, sampled, ih, hr, hd, rd_slots, List.map_cons, List.append_assoc,
      List.singleton_append]

theorem line_send_byte (d pin : Nat) (s : LineScript) :
    owi_send_byte scriptLine.toBus d pin s =
      { pending := s.pending, log := s.log ++ wr_slots (byte_bits d) } := by
  rw [send_byte_write_bits, line_write_bits]

theorem line_recv_byte (pin : Nat) (s : LineScript) :
    owi_recv_byte scriptLine.toBus pin s =
      (bits_byte (sampled 8 s.pending),
        { pending := s.pending.drop 8, log := s.log ++ rd_slots (sampled 8 s.pending) }) := by
  rw [recv_byte_read_slots, line_read_slots]

theorem wr_slots_append (a b : List Bool) : wr_slots (a ++ b) = wr_slots a ++ wr_slots b := by
  simp [wr_slots]

theorem rd_slots_append (a b : List Bool) : rd_slots (a ++ b) = rd_slots a ++ rd_slots b := by
  simp [rd_slots]

theorem line_match_rom (r : List Nat) (pin : Nat) (s : LineScript) :
    owi_match_rom scriptLine.toBus r pin s =
      (r, { pending := s.pending,
            log := s.log ++ wr_slots (byte_bits MATCH_ROM_CMD ++ wire_bits r) }) := by
  simp only [owi_match_rom, ROM_LEN_BYTES, owi_match_rom_loop, line_send_byte, wire_bits,
    wr_slots_append, List.append_assoc]

theorem line_detect (pin : Nat) (p : List Bool) (lg : List LineEvent) :
    owi_detect_presence scriptLine pin { pending := p, log := lg } =
      (!p.headD true,
        { pending := p.tail, log := lg ++ [LineEvent.reset (p.headD true)] }) := rfl

theorem line_is_busy (pin : Nat) (p : List Bool) (lg : List LineEvent) :
    owi_is_busy scriptLine pin { pending := p, log := lg } =
      (!p.headD true,
        { pending := p.tail, log := lg ++ [LineEvent.slot (Event.rd (p.headD true))] }) := rfl

theorem line_wait (pin N : Nat) (rest : List Bool) :
    ∀ (fuel : Nat) (lg : List LineEvent), N < fuel →
      wait_conversion scriptLine pin fuel
        { pending := List.replicate N false ++ true :: rest, log := lg } =
      some { pending := rest, log := lg ++ rd_slots (List.replicate N false ++ [true]) } := by
  induction N with
  | zero =>
    intro fuel lg h
    obtain ⟨n, rfl⟩ : ∃ k, fuel = k + 1 := ⟨fuel - 1, by omega⟩
    simp [wait_conversion, line_is_busy, rd_slots]
  | succ N ih =>
    intro fuel lg h
    obtain ⟨n, rfl⟩ : ∃ k, fuel = k + 1 := ⟨fuel - 1, by omega⟩
    rw [wait_conversion, List.replicate_succ, List.cons_append, line_is_busy]
    simp only [List.headD_cons, Bool.not_false, if_true, List.tail_cons]
    rw [ih n _ (by omega)]
    simp [rd_slots]

theorem line_wait_short (pin N : Nat) (rest : List Bool) :
    ∀ (fuel : Nat) (lg : List LineEvent), fuel ≤ N →
      wait_conversion scriptLine pin fuel
        { pending := List.replicate N false ++ true :: rest, log := lg } = none := by
  induction N with
  | zero =>
    intro fuel lg h
    have : fuel = 0 := by omega
    subst this
    rfl
  | succ N ih =>
    intro fuel lg h
    cases fuel with
    | zero => rfl
    | succ n =>
      rw [wait_conversion, List.replicate_succ, List.cons_append, line_is_busy]
      simp only [List.headD_cons, Bool.not_false, if_true, List.tail_cons]
      exact ih n _ (by omega)

/-! ## The scratchpad -/

theorem take_set_succ (scr : List Nat) (idx a : Nat) (h : idx < scr.length) :
    (scr.set idx a).take (idx + 1) = scr.take idx ++ [a] := by
  induction scr generalizing idx with
  | nil => simp at h
  | cons x t ih =>
    cases idx with
    | zero => simp
    | succ i =>
      simp only [List.set_cons_succ, List.take_succ_cons, List.cons_append, List.cons.injEq,
        true_and]
      exact ih i (by simpa using h)

theorem bytes_bits_cons (a : Nat) (t : List Nat) :
    bytes_bits (a :: t) = byte_bits a ++ bytes_bits t := rfl

theorem sampled_byte_bits (a : Nat) (rest : List Bool) :
    sampled 8 (byte_bits a ++ rest) = byte_bits a := by
  have := sampled_append (byte_bits a) rest
  rwa [byte_bits_length] at this

theorem drop_byte_bits (a : Nat) (rest : List Bool) : (byte_bits a ++ rest).drop 8 = rest := by
  have := List.drop_left (byte_bits a) rest
  rwa [byte_bits_length] at this

theorem line_scratch_loop (pin : Nat) (rest : List Bool) :
    ∀ (l : List Nat) (idx : Nat) (scr : List Nat) (lg : List LineEvent),
      (∀ x ∈ l, x < 256) → scr.length = idx + l.length →
      read_scratchpad_loop scriptLine pin l.length idx scr
        { pending := bytes_bits l ++ rest, log := lg } =
      (scr.take idx ++ l, { pending := rest, log := lg ++ rd_slots (bytes_bits l) }) := by
  intro l
  induction l with
  | nil =>
    intro idx scr lg _ hlen
    simp only [List.length_nil, Nat.add_zero] at hlen
    simp [read_scratchpad_loop, bytes_bits, rd_slots, ← hlen]
  | cons a t ih =>
    intro idx scr lg hlt hlen
    simp only [List.length_cons] at hlen
    rw [List.length_cons, read_scratchpad_loop, line_recv_byte]
    simp only [bytes_bits_cons, List.append_assoc, sampled_byte_bits, drop_byte_bits]
    rw [bits_byte_byte_bits a (hlt a (List.mem_cons_self _ _)),
      ih (idx + 1) _ _ (fun x hx => hlt x (List.mem_cons_of_mem _ hx))
        (by rw [List.length_set]; omega),
      take_set_succ _ _ _ (by omega)]
    simp [rd_slots_append]

theorem scratchpad_crc_loop_eq (sp : List Nat) (n : Nat) :
    ∀ (idx crc : Nat), idx + n ≤ sp.length →
      scratchpad_crc_loop sp n idx crc = crc8_fold crc ((sp.drop idx).take n) := by
  induction n with
  | zero => intro idx crc _; simp [scratchpad_crc_loop, crc8_fold]
  | succ n ih =>
    intro idx crc h
    have hi : idx < sp.length := by omega
    rw [scratchpad_crc_loop, ih (idx + 1) _ (by omega), List.drop_eq_getElem_cons hi,
      List.take_succ_cons, crc8_fold_cons, List.getD_eq_getElem _ _ hi]

theorem scratchpad_crc_eq (sp : List Nat) (h : sp.length = 9) :
    scratchpad_crc sp = true ↔ crc8_fold 0 (sp.take 8) ≠ sp.getD 8 0 := by
  unfold scratchpad_crc
  rw [EXPECTED_CRC_IDX, scratchpad_crc_loop_eq sp 8 0 0 (by omega), List.drop_zero]
  by_cases hc : crc8_fold 0 (sp.take 8) = sp.getD 8 0
  · simp [hc]
  · simp [hc]

theorem raw_temp_eq (sp : List Nat) (h : ∀ x ∈ sp, x < 256) :
    raw_temp sp = sp.getD 1 0 * 256 + sp.getD 0 0 := by
  have getD_lt : ∀ i, sp.getD i 0 < 256 := by
    intro i
    by_cases hi : i < sp.length
    · rw [List.getD_eq_getElem _ _ hi]; exact h _ (List.getElem_mem _)
    · rw [List.getD_eq_default _ _ (by omega)]; decide
  unfold raw_temp
  rw [TEMP_HI_IDX, TEMP_LO_IDX, Nat.shiftLeft_eq]
  have h0 := getD_lt 0
  have h1 := getD_lt 1
  have hor := Nat.mul_add_lt_is_or (show sp.getD 0 0 < 2 ^ 8 from h0) (sp.getD 1 0)
  rw [Nat.mul_comm (sp.getD 1 0) (2 ^ 8), ← hor]
  omega

theorem line_read_scratchpad (dev : ds18b20_dev_t) (scr sp : List Nat) (r1 : Bool)
    (rest : List Bool) (lg : List LineEvent)
    (hscr : scr.length = 9) (hsp : sp.length = 9) (hlt : ∀ x ∈ sp, x < 256) :
    read_scratchpad scriptLine dev scr
      { pending := r1 :: (bytes_bits sp ++ rest), log := lg } =
      (scratchpad_crc sp, sp,
        { pending := rest,
          log := lg ++ (LineEvent.reset r1 ::
            (wr_slots (byte_bits MATCH_ROM_CMD ++ wire_bits dev.rom ++
              byte_bits READ_SCRATCHPAD_CMD) ++ rd_slots (bytes_bits sp))) }) := by
  unfold read_scratchpad
  simp only [line_detect, line_match_rom, line_send_byte, List.headD_cons, List.tail_cons,
    SCRATCHPAD_LEN_BYTES]
  have h := line_scratch_loop dev.pin rest sp 0 scr
    (lg ++ [LineEvent.reset r1] ++ wr_slots (byte_bits MATCH_ROM_CMD ++ wire_bits dev.rom) ++
      wr_slots (byte_bits READ_SCRATCHPAD_CMD)) hlt (by rw [hscr, hsp])
  rw [hsp] at h
  rw [h]
  simp [wr_slots_append]

/-! ## `ds18b20_read_temp` on the scripted line -/

theorem line_read_temp_wait (dev : ds18b20_dev_t) (sp0 : List Nat) (r0 : Bool) (N fuel : Nat)
    (rest : List Bool) (lg : List LineEvent) (hf : N < fuel) :
    ds18b20_read_temp scriptLine dev sp0 fuel
      { pending := r0 :: (List.replicate N false ++ true :: rest), log := lg } =
    some (read_temp_finish scriptLine dev sp0
      { pending := rest,
        log := lg ++ (LineEvent.reset r0 ::
          (wr_slots (byte_bits MATCH_ROM_CMD ++ wire_bits dev.rom ++ byte_bits CONVERT_TEMP_CMD) ++
            rd_slots (List.replicate N false ++ [true]))) }) := by
  unfold ds18b20_read_temp
  simp only [line_detect, line_match_rom, line_send_byte, List.headD_cons, List.tail_cons]
  rw [line_wait dev.pin N rest fuel _ hf]
  simp [wr_slots_append]

theorem line_read_temp (dev : ds18b20_dev_t) (sp0 sp : List Nat) (r0 r1 : Bool) (N fuel : Nat)
    (rest : List Bool) (lg : List LineEvent)
    (h0 : sp0.length = 9) (hsp : sp.length = 9) (hlt : ∀ x ∈ sp, x < 256) (hf : N < fuel) :
    ds18b20_read_temp scriptLine dev sp0 fuel
      { pending := temp_script r0 N r1 sp rest, log := lg } =
    some (if crc8_fold 0 (sp.take 8) = sp.getD 8 0 then
        (false,
          { dev with temp := ((sp.getD 1 0 * 256 + sp.getD 0 0 : Nat) : ℚ) / 16 },
          { pending := rest.tail,
            log := lg ++ temp_log dev r0 N r1 sp ++ [LineEvent.reset (rest.headD true)] })
      else
        (true, dev, { pending := rest, log := lg ++ temp_log dev r0 N r1 sp })) := by
  unfold temp_script
  rw [line_read_temp_wait dev sp0 r0 N fuel _ lg hf]
  unfold read_temp_finish
  rw [line_read_scratchpad dev sp0 sp r1 rest _ h0 hsp hlt]
  have hlog : lg ++ (LineEvent.reset r0 ::
      (wr_slots (byte_bits MATCH_ROM_CMD ++ wire_bits dev.rom ++ byte_bits CONVERT_TEMP_CMD) ++
        rd_slots (List.replicate N false ++ [true]))) ++
      (LineEvent.reset r1 ::
        (wr_slots (byte_bits MATCH_ROM_CMD ++ wire_bits dev.rom ++
          byte_bits READ_SCRATCHPAD_CMD) ++ rd_slots (bytes_bits sp))) =
      lg ++ temp_log dev r0 N r1 sp := by
    simp [temp_log]
  rw [hlog]
  by_cases hc : crc8_fold 0 (sp.take 8) = sp.getD 8 0
  · have hcrc : scratchpad_crc sp = false := by
      have := scratchpad_crc_eq sp hsp
      cases hs : scratchpad_crc sp
      · rfl
      · exact absurd hc (this.1 hs)
    simp only [hcrc, Bool.not_false, if_true, hc, line_detect]
    rw [raw_temp_eq sp hlt, PRECISION]
    congr 2
    simp only [mul_one_div]
  · have hcrc : scratchpad_crc sp = true := (scratchpad_crc_eq sp hsp).2 hc
    simp only [hcrc, Bool.not_true, Bool.false_eq_true, if_false, hc]

/-! ## `ds18b20_read_temp`: decoding, CRC check, presence, wait loop -/

set_option maxRecDepth 100000 in
theorem scratchpad_examples :
    crc8_fold 0 ([0x91, 0x01, 0x4B, 0x46, 0x7F, 0xFF, 0x0F, 0x10, 0x25].take 8) =
      [0x91, 0x01, 0x4B, 0x46, 0x7F, 0xFF, 0x0F, 0x10, 0x25].getD 8 0 ∧
    crc8_fold 0 ([0xF8, 0xFF, 0x4B, 0x46, 0x7F, 0xFF, 0x08, 0x10, 0xF8].take 8) =
      [0xF8, 0xFF, 0x4B, 0x46, 0x7F, 0xFF, 0x08, 0x10, 0xF8].getD 8 0 ∧
    crc8_fold 0 ([0, 0, 0, 0, 0, 0, 0, 0, 0].take 8) = [0, 0, 0, 0, 0, 0, 0, 0, 0].getD 8 0 ∧
    crc8_fold 0 ([0x91, 0x01, 0x4B, 0x46, 0x7F, 0xFF, 0x0F, 0x10, 0x26].take 8) ≠
      [0x91, 0x01, 0x4B, 0x46, 0x7F, 0xFF, 0x0F, 0x10, 0x26].getD 8 0 := by
  decide

/-- Claim C13 (temperature decode examples): when the wait loop ends and
the nine scratchpad bytes received pass the CRC check, `ds18b20_read_temp`
returns success and stores `raw / 16` in `dev->temp`, with
`raw = scratchpad[1] * 256 + scratchpad[0]`, leaving `pin` and `rom` as they
were; this holds for every raw value, in particular for 0..32767. Bytes 0x91,
0x01 (raw 401) give exactly 25.0625 and bytes 0x00, 0x00 give exactly 0. -/
theorem temp_decode (dev : ds18b20_dev_t) (sp0 sp : List Nat) (r0 r1 : Bool) (N fuel : Nat)
    (rest : List Bool) (lg : List LineEvent)
    (h0 : sp0.length = 9) (hsp : sp.length = 9) (hlt : ∀ x ∈ sp, x < 256) (hf : N < fuel)
    (hcrc : crc8_fold 0 (sp.take 8) = sp.getD 8 0) :
    ds18b20_read_temp scriptLine dev sp0 fuel
        { pending := temp_script r0 N r1 sp rest, log := lg } =
      some (false,
        { dev with temp := ((sp.getD 1 0 * 256 + sp.getD 0 0 : Nat) : ℚ) / 16 },
        { pending := rest.tail,
          log := lg ++ temp_log dev r0 N r1 sp ++ [LineEvent.reset (rest.headD true)] }) ∧
    (sp.getD 0 0 = 0x91 → sp.getD 1 0 = 0x01 →
      (ds18b20_read_temp scriptLine dev sp0 fuel
        { pending := temp_script r0 N r1 sp rest, log := lg }).map (fun r => r.2.1.temp) =
        some (25.0625 : ℚ)) ∧
    (sp.getD 0 0 = 0x00 → sp.getD 1 0 = 0x00 →
      (ds18b20_read_temp scriptLine dev sp0 fuel
        { pending := temp_script r0 N r1 sp rest, log := lg }).map (fun r => r.2.1.temp) =
        some (0 : ℚ)) := by
  rw [line_read_temp dev sp0 sp r0 r1 N fuel rest lg h0 hsp hlt hf, if_pos hcrc]
  refine ⟨rfl, ?_, ?_⟩
  · intro a b
    rw [a, b]
    simp only [Option.map_some']
    norm_num
  · intro a b
    rw [a, b]
    simp only [Option.map_some']
    norm_num

/-- Witness of `temp_decode` at the scratchpad 91 01 4B 46 7F FF 0F 10 25,
after three busy samples. -/
theorem temp_decode_witness :
    [0, 0, 0, 0, 0, 0, 0, 0, 0].length = 9 ∧
    [0x91, 0x01, 0x4B, 0x46, 0x7F, 0xFF, 0x0F, 0x10, 0x25].length = 9 ∧
    (∀ x ∈ [0x91, 0x01, 0x4B, 0x46, 0x7F, 0xFF, 0x0F, 0x10, 0x25], x < 256) ∧
    3 < 4 ∧
    crc8_fold 0 ([0x91, 0x01, 0x4B, 0x46, 0x7F, 0xFF, 0x0F, 0x10, 0x25].take 8) =
      [0x91, 0x01, 0x4B, 0x46, 0x7F, 0xFF, 0x0F, 0x10, 0x25].getD 8 0 ∧
    (ds18b20_read_temp scriptLine { pin := 2, rom := [0x28, 1, 2, 3, 4, 5, 6, 7], temp := 0 }
        [0, 0, 0, 0, 0, 0, 0, 0, 0] 4
        { pending := temp_script false 3 false
            [0x91, 0x01, 0x4B, 0x46, 0x7F, 0xFF, 0x0F, 0x10, 0x25] [false],
          log := [] } =
      some (false,
        { ({ pin := 2, rom := [0x28, 1, 2, 3, 4, 5, 6, 7], temp := 0 } : ds18b20_dev_t) with
          temp := (([0x91, 0x01, 0x4B, 0x46, 0x7F, 0xFF, 0x0F, 0x10, 0x25].getD 1 0 * 256 +
            [0x91, 0x01, 0x4B, 0x46, 0x7F, 0xFF, 0x0F, 0x10, 0x25].getD 0 0 : Nat) : ℚ) / 16 },
        { pending := [false].tail,
          log := [] ++ temp_log { pin := 2, rom := [0x28, 1, 2, 3, 4, 5, 6, 7], temp := 0 }
            false 3 false [0x91, 0x01, 0x4B, 0x46, 0x7F, 0xFF, 0x0F, 0x10, 0x25] ++
            [LineEvent.reset ([false].headD true)] }) ∧
    ([0x91, 0x01, 0x4B, 0x46, 0x7F, 0xFF, 0x0F, 0x10, 0x25].getD 0 0 = 0x91 →
      [0x91, 0x01, 0x4B, 0x46, 0x7F, 0xFF, 0x0F, 0x10, 0x25].getD 1 0 = 0x01 →
      (ds18b20_read_temp scriptLine { pin := 2, rom := [0x28, 1, 2, 3, 4, 5, 6, 7], temp := 0 }
        [0, 0, 0, 0, 0, 0, 0, 0, 0] 4
        { pending := temp_script false 3 false
            [0x91, 0x01, 0x4B, 0x46, 0x7F, 0xFF, 0x0F, 0x10, 0x25] [false],
          log := [] }).map (fun r => r.2.1.temp) = some (25.0625 : ℚ)) ∧
    ([0x91, 0x01, 0x4B, 0x46, 0x7F, 0xFF, 0x0F, 0x10, 0x25].getD 0 0 = 0x00 →
      [0x91, 0x01, 0x4B, 0x46, 0x7F, 0xFF, 0x0F, 0x10, 0x25].getD 1 0 = 0x00 →
      (ds18b20_read_temp scriptLine { pin := 2, rom := [0x28, 1, 2, 3, 4, 5, 6, 7], temp := 0 }
        [0, 0, 0, 0, 0, 0, 0, 0, 0] 4
        { pending := temp_script false 3 false
            [0x91, 0x01, 0x4B, 0x46, 0x7F, 0xFF, 0x0F, 0x10, 0x25] [false],
          log := [] }).map (fun r => r.2.1.temp) = some (0 : ℚ))) :=
  ⟨by decide, by decide, by decide, by decide, scratchpad_examples.1,
    temp_decode { pin := 2, rom := [0x28, 1, 2, 3, 4, 5, 6, 7], temp := 0 }
      [0, 0, 0, 0, 0, 0, 0, 0, 0] [0x91, 0x01, 0x4B, 0x46, 0x7F, 0xFF, 0x0F, 0x10, 0x25]
      false false 3 4 [false] [] (by decide) (by decide) (by decide) (by decide)
      scratchpad_examples.1⟩

/-- Claim C12 fails on the code: the scratchpad F8 FF 4B 46 7F FF 08 10 F8
passes the CRC check and encodes -0.5 degrees (raw 0xFFF8 in two's
complement); `ds18b20_read_temp` returns success and stores 65528 / 16 =
4095.5, because `raw_temp` is a `uint16_t`. -/
theorem temp_decode_negative :
    (ds18b20_read_temp scriptLine { pin := 2, rom := [0x28, 1, 2, 3, 4, 5, 6, 7], temp := 0 }
        [0, 0, 0, 0, 0, 0, 0, 0, 0] 1
        { pending := temp_script false 0 false
            [0xF8, 0xFF, 0x4B, 0x46, 0x7F, 0xFF, 0x08, 0x10, 0xF8] [],
          log := [] }).map (fun r => (r.1, r.2.1.temp)) = some (false, (4095.5 : ℚ)) ∧
    (4095.5 : ℚ) ≠ -0.5 := by
  rw [line_read_temp _ _ _ _ _ _ _ _ _ (by decide) (by decide) (by decide) (by decide),
    if_pos scratchpad_examples.2.1]
  refine ⟨?_, by norm_num⟩
  simp only [Option.map_some', List.getD_cons_zero, List.getD_cons_succ]
  norm_num

/-- Claim C14 (CRC mismatch is atomic): when the wait loop ends and the nine
scratchpad bytes received do not pass the CRC check (the `crc8` fold of bytes
0..7 from seed 0 differs from byte 8), `ds18b20_read_temp` returns the error
status and the record (`temp`, `rom`, `pin`) is as before the call, and no
reset slot follows the scratchpad read; when the fold equals byte 8 it returns
success. -/
theorem crc_mismatch_atomic (dev : ds18b20_dev_t) (sp0 sp : List Nat) (r0 r1 : Bool)
    (N fuel : Nat) (rest : List Bool) (lg : List LineEvent)
    (h0 : sp0.length = 9) (hsp : sp.length = 9) (hlt : ∀ x ∈ sp, x < 256) (hf : N < fuel) :
    (crc8_fold 0 (sp.take 8) ≠ sp.getD 8 0 →
      ds18b20_read_temp scriptLine dev sp0 fuel
          { pending := temp_script r0 N r1 sp rest, log := lg } =
        some (true, dev, { pending := rest, log := lg ++ temp_log dev r0 N r1 sp })) ∧
    (crc8_fold 0 (sp.take 8) = sp.getD 8 0 →
      (ds18b20_read_temp scriptLine dev sp0 fuel
          { pending := temp_script r0 N r1 sp rest, log := lg }).map (fun r => r.1) =
        some false) := by
  rw [line_read_temp dev sp0 sp r0 r1 N fuel rest lg h0 hsp hlt hf]
  constructor
  · intro hc; rw [if_neg hc]
  · intro hc; rw [if_pos hc]; rfl

/-- Witness of `crc_mismatch_atomic` at a scratchpad whose CRC byte is
wrong (0x26 for 0x25). -/
theorem crc_mismatch_atomic_witness :
    [0, 0, 0, 0, 0, 0, 0, 0, 0].length = 9 ∧
    [0x91, 0x01, 0x4B, 0x46, 0x7F, 0xFF, 0x0F, 0x10, 0x26].length = 9 ∧
    (∀ x ∈ [0x91, 0x01, 0x4B, 0x46, 0x7F, 0xFF, 0x0F, 0x10, 0x26], x < 256) ∧
    2 < 5 ∧
    ((crc8_fold 0 ([0x91, 0x01, 0x4B, 0x46, 0x7F, 0xFF, 0x0F, 0x10, 0x26].take 8) ≠
        [0x91, 0x01, 0x4B, 0x46, 0x7F, 0xFF, 0x0F, 0x10, 0x26].getD 8 0 →
      ds18b20_read_temp scriptLine { pin := 2, rom := [0x28, 1, 2, 3, 4, 5, 6, 7], temp := 21 }
          [0, 0, 0, 0, 0, 0, 0, 0, 0] 5
          { pending := temp_script false 2 false
              [0x91, 0x01, 0x4B, 0x46, 0x7F, 0xFF, 0x0F, 0x10, 0x26] [],
            log := [] } =
        some (true, { pin := 2, rom := [0x28, 1, 2, 3, 4, 5, 6, 7], temp := 21 },
          { pending := [],
            log := [] ++ temp_log { pin := 2, rom := [0x28, 1, 2, 3, 4, 5, 6, 7], temp := 21 }
              false 2 false [0x91, 0x01, 0x4B, 0x46, 0x7F, 0xFF, 0x0F, 0x10, 0x26] })) ∧
    (crc8_fold 0 ([0x91, 0x01, 0x4B, 0x46, 0x7F, 0xFF, 0x0F, 0x10, 0x26].take 8) =
        [0x91, 0x01, 0x4B, 0x46, 0x7F, 0xFF, 0x0F, 0x10, 0x26].getD 8 0 →
      (ds18b20_read_temp scriptLine { pin := 2, rom := [0x28, 1, 2, 3, 4, 5, 6, 7], temp := 21 }
          [0, 0, 0, 0, 0, 0, 0, 0, 0] 5
          { pending := temp_script false 2 false
              [0x91, 0x01, 0x4B, 0x46, 0x7F, 0xFF, 0x0F, 0x10, 0x26] [],
            log := [] }).map (fun r => r.1) = some false)) :=
  ⟨by decide, by decide, by decide, by decide,
    crc_mismatch_atomic { pin := 2, rom := [0x28, 1, 2, 3, 4, 5, 6, 7], temp := 21 }
      [0, 0, 0, 0, 0, 0, 0, 0, 0] [0x91, 0x01, 0x4B, 0x46, 0x7F, 0xFF, 0x0F, 0x10, 0x26]
      false false 2 5 [] [] (by decide) (by decide) (by decide) (by decide)⟩

/-- Claim C15 fails on the code: the first reset slot samples the line high
(no device, `owi_detect_presence` yields false), the wait loop then reads
ready, and the line delivers nine zero bytes, which pass the CRC check;
`ds18b20_read_temp` does not use the value of `owi_detect_presence`, returns
success and overwrites `dev->temp` (5 before the call) with 0. -/
theorem read_temp_ignores_presence :
    (owi_detect_presence scriptLine 2
        { pending := temp_script true 0 true [0, 0, 0, 0, 0, 0, 0, 0, 0] [], log := [] }).1 =
      false ∧
    (ds18b20_read_temp scriptLine { pin := 2, rom := [0x28, 1, 2, 3, 4, 5, 6, 7], temp := 5 }
        [0, 0, 0, 0, 0, 0, 0, 0, 0] 1
        { pending := temp_script true 0 true [0, 0, 0, 0, 0, 0, 0, 0, 0] [],
          log := [] }).map (fun r => (r.1, r.2.1.temp)) = some (false, (0 : ℚ)) ∧
    (5 : ℚ) ≠ 0 := by
  refine ⟨rfl, ?_, by norm_num⟩
  rw [line_read_temp _ _ _ _ _ _ _ _ _ (by decide) (by decide) (by decide) (by decide),
    if_pos scratchpad_examples.2.2.1]
  simp only [Option.map_some', List.getD_cons_zero, List.getD_cons_succ]
  norm_num

/-- Claim C18 (busy-wait length): when, after the Convert-Temperature
command, the line reads busy (0) for exactly `N` read slots and then ready
(1), the wait loop of `ds18b20_read_temp` performs exactly those `N + 1` read
slots, for every `N`, and the rest of the call (which starts with the reset
of the scratchpad read) runs from there; the loop has no bound of its own: in
the model it ends within `fuel` iterations exactly when `N < fuel`. -/
theorem busy_wait_length (dev : ds18b20_dev_t) (sp0 : List Nat) (r0 : Bool) (N fuel : Nat)
    (rest : List Bool) (lg : List LineEvent) (hf : N < fuel) :
    wait_conversion scriptLine dev.pin fuel
        { pending := List.replicate N false ++ true :: rest, log := lg } =
      some { pending := rest, log := lg ++ rd_slots (List.replicate N false ++ [true]) } ∧
    ds18b20_read_temp scriptLine dev sp0 fuel
        { pending := r0 :: (List.replicate N false ++ true :: rest), log := lg } =
      some (read_temp_finish scriptLine dev sp0
        { pending := rest,
          log := lg ++ (LineEvent.reset r0 ::
            (wr_slots (byte_bits 0x55 ++ wire_bits dev.rom ++ byte_bits 0x44) ++
              rd_slots (List.replicate N false ++ [true]))) }) ∧
    (∀ n, n ≤ N →
      wait_conversion scriptLine dev.pin n
        { pending := List.replicate N false ++ true :: rest, log := lg } = none) :=
  ⟨line_wait dev.pin N rest fuel lg hf, line_read_temp_wait dev sp0 r0 N fuel rest lg hf,
    fun n hn => line_wait_short dev.pin N rest n lg hn⟩

/-- Witness of `busy_wait_length` with five busy samples. -/
theorem busy_wait_length_witness :
    5 < 6 ∧
    (wait_conversion scriptLine
        ({ pin := 2, rom := [0x28, 1, 2, 3, 4, 5, 6, 7], temp := 0 } : ds18b20_dev_t).pin 6
        { pending := List.replicate 5 false ++ true :: [false, true], log := [] } =
      some { pending := [false, true],
             log := [] ++ rd_slots (List.replicate 5 false ++ [true]) } ∧
    ds18b20_read_temp scriptLine { pin := 2, rom := [0x28, 1, 2, 3, 4, 5, 6, 7], temp := 0 }
        [0, 0, 0, 0, 0, 0, 0, 0, 0] 6
        { pending := false :: (List.replicate 5 false ++ true :: [false, true]), log := [] } =
      some (read_temp_finish scriptLine
        { pin := 2, rom := [0x28, 1, 2, 3, 4, 5, 6, 7], temp := 0 }
        [0, 0, 0, 0, 0, 0, 0, 0, 0]
        { pending := [false, true],
          log := [] ++ (LineEvent.reset false ::
            (wr_slots (byte_bits 0x55 ++
                wire_bits ({ pin := 2, rom := [0x28, 1, 2, 3, 4, 5, 6, 7],
                             temp := 0 } : ds18b20_dev_t).rom ++ byte_bits 0x44) ++
              rd_slots (List.replicate 5 false ++ [true]))) }) ∧
    (∀ n, n ≤ 5 →
      wait_conversion scriptLine
        ({ pin := 2, rom := [0x28, 1, 2, 3, 4, 5, 6, 7], temp := 0 } : ds18b20_dev_t).pin n
        { pending := List.replicate 5 false ++ true :: [false, true], log := [] } = none)) :=
  ⟨by decide,
    busy_wait_length { pin := 2, rom := [0x28, 1, 2, 3, 4, 5, 6, 7], temp := 0 }
      [0, 0, 0, 0, 0, 0, 0, 0, 0] false 5 6 [false, true] [] (by decide)⟩

/-! ## `ds18b20_get_rom` and `ds18b20_init` -/

/-- Claim C16 (discoverRom): on every line `ds18b20_get_rom` returns the
error status exactly when the reset slot of its presence detection samples the
line high (no device); in that case the bus is left as the reset slot left it
(no operation follows; on the scripted line the log grows by the reset alone)
and the record is unchanged; otherwise it returns success, `dev->rom` is the
buffer produced by `owi_read_rom` run from the state after the reset, and
`temp` and `pin` are unchanged. -/
theorem get_rom_presence (L : Line σ) (dev : ds18b20_dev_t) (s : σ) (p : List Bool)
    (lg : List LineEvent) :
    ((ds18b20_get_rom L dev s).1 = true ↔ (L.reset_slot dev.pin s).1 = true) ∧
    ((L.reset_slot dev.pin s).1 = true →
      ds18b20_get_rom L dev s = (true, dev, (L.reset_slot dev.pin s).2)) ∧
    ((L.reset_slot dev.pin s).1 = false →
      ds18b20_get_rom L dev s =
        (false,
          { pin := dev.pin,
            rom := (owi_read_rom L.toBus dev.rom dev.pin (L.reset_slot dev.pin s).2).1,
            temp := dev.temp },
          (owi_read_rom L.toBus dev.rom dev.pin (L.reset_slot dev.pin s).2).2)) ∧
    ds18b20_get_rom scriptLine dev { pending := true :: p, log := lg } =
      (true, dev, { pending := p, log := lg ++ [LineEvent.reset true] }) := by
  refine ⟨?_, ?_, ?_, rfl⟩
  · unfold ds18b20_get_rom owi_detect_presence
    cases h : (L.reset_slot dev.pin s).1 <;> simp
  · intro h
    unfold ds18b20_get_rom owi_detect_presence
    simp [h]
  · intro h
    unfold ds18b20_get_rom owi_detect_presence
    simp [h]

/-- Claim C17, as stated, fails: `ds18b20_init` on a record whose ROM bytes
are 1..8 returns success with `pin` and `temp` set and leaves the ROM bytes
1..8, not zero. -/
theorem init_rom_counterexample :
    ds18b20_init scriptLine (some { pin := 7, rom := [1, 2, 3, 4, 5, 6, 7, 8], temp := 5 }) 2
        { pending := [], log := [] } =
      (false, some { pin := 2, rom := [1, 2, 3, 4, 5, 6, 7, 8], temp := 0 },
        { pending := [], log := [LineEvent.init] }) ∧
    ¬ ((ds18b20_init scriptLine
        (some { pin := 7, rom := [1, 2, 3, 4, 5, 6, 7, 8], temp := 5 }) 2
        { pending := [], log := [] }).2.1.map (fun d => d.rom) =
      some [0, 0, 0, 0, 0, 0, 0, 0]) := by
  constructor
  · rfl
  · decide

/-- Claim C17, amended: for every non-null device record and every pin,
`ds18b20_init` returns success and leaves `dev->pin = pin` and
`dev->temp = 0`; it does not write `dev->rom`, which keeps the bytes it held
(the caller provides them); the line is released by `owi_init`; it returns
failure exactly when the device handle is null, and then touches nothing. -/
theorem init_spec (L : Line σ) (d : ds18b20_dev_t) (pin : Nat) (s : σ) :
    ds18b20_init L (some d) pin s =
      (false, some { pin := pin, rom := d.rom, temp := 0 }, owi_init L pin s) ∧
    ds18b20_init L none pin s = (true, none, s) ∧
    (∀ dev : Option ds18b20_dev_t, (ds18b20_init L dev pin s).1 = true ↔ dev = none) := by
  refine ⟨rfl, rfl, ?_⟩
  intro dev
  cases dev with
  | none => simp [ds18b20_init]
  | some d => simp [ds18b20_init]

/-! ## The buffer layouts of Search ROM and Read ROM -/

theorem search_single (r buf : List Nat) (L pin : Nat) (hr : is_rom r) (hb : is_rom buf) :
    (owi_search_rom wiredBus buf L pin (wired_start [r])).1 = 0 ∧
    (owi_search_rom wiredBus buf L pin (wired_start [r])).2.1 = r := by
  obtain ⟨hm, _, hdisc, _⟩ := search_wired_good [r] buf L pin
    (fun d hd => by rw [List.mem_singleton] at hd; rw [hd]; exact hr) hb (by simp)
  rw [List.mem_singleton] at hm
  refine ⟨?_, hm⟩
  by_contra hne
  obtain ⟨h0, d, hd, _, h1⟩ := hdisc hne
  rw [List.mem_singleton] at hd
  rw [hm] at h0
  rw [hd, h0] at h1
  cases h1

theorem read_rom_stream (l rom : List Nat) (pin : Nat) (lg : List Event)
    (hl : is_rom l) (hrom : rom.length = 8) :
    (owi_read_rom scriptBus rom pin { pending := bytes_bits l, log := lg }).1 = l.reverse := by
  have hr : is_rom l.reverse := by
    refine ⟨by rw [List.length_reverse]; exact hl.1, ?_⟩
    intro x hx
    exact hl.2 x (List.mem_reverse.1 hx)
  rw [bytes_bits_eq_wire_bits l hl.1, read_rom_wire_bits _ _ _ _ hr hrom]

set_option maxRecDepth 100000 in
theorem layout_example :
    bytes_bits [0x02, 0x1C, 0xB8, 0x01, 0x00, 0x00, 0x00, 0xA2] =
      (List.range 64).map (rom_bit [0x02, 0x1C, 0xB8, 0x01, 0x00, 0x00, 0x00, 0xA2]) ∧
    wire_bits [0x02, 0x1C, 0xB8, 0x01, 0x00, 0x00, 0x00, 0xA2] ≠
      bytes_bits [0x02, 0x1C, 0xB8, 0x01, 0x00, 0x00, 0x00, 0xA2] := by
  decide

/-- Claim C11 fails on the code: the single device 02 1C B8 01 00 00 00 A2
presents the same 64 bits to both commands (family code 0x02 first, each byte
least-significant bit first). `owi_search_rom` with `last_deviation = 0`
returns 0 and leaves 02 1C B8 01 00 00 00 A2 (first byte received at index 0),
`owi_read_rom` leaves A2 00 00 00 01 B8 1C 02 (first byte received at index
7): the buffers differ, and `owi_match_rom` given the buffer of the search
sends `rom[7]` = 0xA2 first, not the bits in the order the device presented
them. -/
theorem search_read_layout_differ :
    bytes_bits [0x02, 0x1C, 0xB8, 0x01, 0x00, 0x00, 0x00, 0xA2] =
      (List.range 64).map (rom_bit [0x02, 0x1C, 0xB8, 0x01, 0x00, 0x00, 0x00, 0xA2]) ∧
    (owi_search_rom wiredBus [0, 0, 0, 0, 0, 0, 0, 0] 0 0
      (wired_start [[0x02, 0x1C, 0xB8, 0x01, 0x00, 0x00, 0x00, 0xA2]])).1 = 0 ∧
    (owi_search_rom wiredBus [0, 0, 0, 0, 0, 0, 0, 0] 0 0
      (wired_start [[0x02, 0x1C, 0xB8, 0x01, 0x00, 0x00, 0x00, 0xA2]])).2.1 =
      [0x02, 0x1C, 0xB8, 0x01, 0x00, 0x00, 0x00, 0xA2] ∧
    (owi_read_rom scriptBus [0, 0, 0, 0, 0, 0, 0, 0] 0
      { pending := bytes_bits [0x02, 0x1C, 0xB8, 0x01, 0x00, 0x00, 0x00, 0xA2],
        log := [] }).1 = [0xA2, 0x00, 0x00, 0x00, 0x01, 0xB8, 0x1C, 0x02] ∧
    (owi_search_rom wiredBus [0, 0, 0, 0, 0, 0, 0, 0] 0 0
      (wired_start [[0x02, 0x1C, 0xB8, 0x01, 0x00, 0x00, 0x00, 0xA2]])).2.1 ≠
      (owi_read_rom scriptBus [0, 0, 0, 0, 0, 0, 0, 0] 0
        { pending := bytes_bits [0x02, 0x1C, 0xB8, 0x01, 0x00, 0x00, 0x00, 0xA2],
          log := [] }).1 ∧
    (written (owi_match_rom scriptBus
        (owi_search_rom wiredBus [0, 0, 0, 0, 0, 0, 0, 0] 0 0
          (wired_start [[0x02, 0x1C, 0xB8, 0x01, 0x00, 0x00, 0x00, 0xA2]])).2.1 0
        { pending := [], log := [] }).2.log).drop 8 ≠
      bytes_bits [0x02, 0x1C, 0xB8, 0x01, 0x00, 0x00, 0x00, 0xA2] := by
  obtain ⟨s1, s2⟩ := search_single [0x02, 0x1C, 0xB8, 0x01, 0x00, 0x00, 0x00, 0xA2]
    [0, 0, 0, 0, 0, 0, 0, 0] 0 0 (by decide) (by decide)
  have hread := read_rom_stream [0x02, 0x1C, 0xB8, 0x01, 0x00, 0x00, 0x00, 0xA2]
    [0, 0, 0, 0, 0, 0, 0, 0] 0 [] (by decide) (by decide)
  refine ⟨layout_example.1, s1, s2, hread, ?_, ?_⟩
  · rw [s2, hread]
    decide
  · rw [s2, match_rom_script]
    simp only [List.nil_append, written_map_wr]
    have hd : (byte_bits MATCH_ROM_CMD ++
        wire_bits [0x02, 0x1C, 0xB8, 0x01, 0x00, 0x00, 0x00, 0xA2]).drop 8 =
        wire_bits [0x02, 0x1C, 0xB8, 0x01, 0x00, 0x00, 0x00, 0xA2] :=
      drop_byte_bits _ _
    rw [hd]
    exact layout_example.2

/-! ## Presence detection on the pin -/

/-- Claim C21 (presence is the inverted sample): on every microcontroller
`owi_detect_presence` disables interrupts, drives the pin low, waits 480,
releases the pin, waits 70, takes one sample, waits 410 and enables
interrupts; it returns true exactly when the sample is low; the steps taken
are the same whatever the sample (on the traced microcontroller: these eight
steps, one of them a sample, and one level consumed). -/
theorem detect_presence_inverted (H : Hw σ) (pin : Nat) (s : σ) (lv : List Bool)
    (ev : List HwEvent) :
    owi_detect_presence (hwLine H) pin s =
      (!(H.read_bus_value pin (H.delay_us 70 (H.release_bus pin
          (H.delay_us 480 (H.drive_bus_low pin (H.cli s)))))).1,
        H.sei (H.delay_us 410 (H.read_bus_value pin (H.delay_us 70 (H.release_bus pin
          (H.delay_us 480 (H.drive_bus_low pin (H.cli s)))))).2)) ∧
    ((owi_detect_presence (hwLine H) pin s).1 = true ↔
      (H.read_bus_value pin (H.delay_us 70 (H.release_bus pin
          (H.delay_us 480 (H.drive_bus_low pin (H.cli s)))))).1 = false) ∧
    owi_detect_presence (hwLine traceHw) pin { levels := lv, events := ev } =
      (!lv.headD true,
        { levels := lv.tail,
          events := ev ++ [HwEvent.cli, HwEvent.low pin, HwEvent.wait 480,
            HwEvent.release pin, HwEvent.wait 70, HwEvent.sample pin (lv.headD true),
            HwEvent.wait 410, HwEvent.sei] }) := by
  refine ⟨rfl, ?_, ?_⟩
  · simp [owi_detect_presence, hwLine, presence_slot, OWI_DELAY_US_H, OWI_DELAY_US_I]
  · simp [owi_detect_presence, hwLine, presence_slot, traceHw, OWI_DELAY_US_H, OWI_DELAY_US_I,
      OWI_DELAY_US_J]

/-! ## The search on the scripted bus: a pass without failure -/

theorem search_log_congr (r r1 : List Nat) (m : Nat) :
    ∀ (i : Nat) (q : List Bool), (∀ j, i ≤ j → j < i + m → rom_bit r j = rom_bit r1 j) →
      search_log r m i q = search_log r1 m i q := by
  induction m with
  | zero => intro i q _; rfl
  | succ m ih =>
    intro i q h
    simp only [search_log]
    rw [h i (Nat.le_refl i) (by omega), ih (i + 1) q.tail.tail (fun j h1 h2 => h j (by omega) (by omega))]

theorem search_log_snoc (r : List Nat) (m : Nat) :
    ∀ (i : Nat) (q : List Bool),
      search_log r (m + 1) i q = search_log r m i q ++
        [Event.rd (q.getD (2 * m) true), Event.rd (q.getD (2 * m + 1) true),
          Event.wr (rom_bit r (i + m))] := by
  induction m with
  | zero =>
    intro i q
    simp only [search_log, List.nil_append, Nat.mul_zero, Nat.zero_add, Nat.add_zero]
    rw [tail_headD_eq_getD, headD_eq_getD]
  | succ m ih =>
    intro i q
    rw [search_log, ih (i + 1) q.tail.tail, getD_tail_tail, getD_tail_tail]
    simp only [search_log, List.cons_append]
    rw [show i + 1 + m = i + (m + 1) by omega, show 2 * m + 2 = 2 * (m + 1) by omega,
      show 2 * m + 1 + 2 = 2 * (m + 1) + 1 by omega]

theorem search_log_length (r : List Nat) (m : Nat) :
    ∀ (i : Nat) (q : List Bool), (search_log r m i q).length = 3 * m ∧
      (reads (search_log r m i q)).length = 2 * m ∧
      (written (search_log r m i q)).length = m := by
  induction m with
  | zero => intro i q; exact ⟨rfl, rfl, rfl⟩
  | succ m ih =>
    intro i q
    obtain ⟨h1, h2, h3⟩ := ih (i + 1) q.tail.tail
    refine ⟨?_, ?_, ?_⟩
    · simp only [search_log, List.length_cons, h1]; omega
    · simp only [search_log, List.length_cons, reads, h2]; omega
    · simp only [search_log, List.length_cons, written, h3]

theorem written_search_log (r : List Nat) (m : Nat) :
    ∀ (i : Nat) (q : List Bool),
      written (search_log r m i q) = (List.range m).map (fun j => rom_bit r (i + j)) := by
  induction m with
  | zero => intro i q; rfl
  | succ m ih =>
    intro i q
    simp only [search_log, written, ih (i + 1) q.tail.tail, List.range_succ_eq_map, List.map_cons,
      List.map_map, Nat.add_zero]
    congr 1
    apply List.map_congr_left
    intro j _
    simp only [Function.comp, Nat.succ_eq_add_one]
    rw [show i + 1 + j = i + (j + 1) by omega]

theorem choose_dev_marks (L j : Nat) (cur : Bool) (nd : Nat) (b1 b2 : Bool)
    (h : ¬ (b1 = true ∧ b2 = true)) :
    choose_dev L j cur nd b1 b2 =
      if b1 = false ∧ b2 = false ∧ (L < j + 1 ∨ (j + 1 < L ∧ cur = false)) then j + 1 else nd := by
  unfold choose_dev
  cases b1 <;> cases b2 <;> cases cur <;> simp at h ⊢ <;> split_ifs <;> omega

theorem getD_drop_two (q : List Bool) (m : Nat) :
    (q.drop (2 * m)).headD true = q.getD (2 * m) true ∧
    (q.drop (2 * m)).tail.headD true = q.getD (2 * m + 1) true ∧
    (q.drop (2 * m)).tail.tail = q.drop (2 * (m + 1)) := by
  refine ⟨?_, ?_, ?_⟩
  · rw [headD_eq_getD]; simp [List.getD_eq_getElem?_getD]
  · rw [tail_headD_eq_getD]; simp [List.getD_eq_getElem?_getD]
  · have := drop_tail_tail (q.drop (2 * m)) 0
    rw [List.drop_zero] at this
    rw [this, List.drop_drop]
    congr 1

/-- One position of the pass on the scripted bus, the pair read not being (1,1). -/
theorem script_step (L pin i : Nat) (rom : List Nat) (nd : Nat) (q : List Bool)
    (lg : List Event) (hrom : is_rom rom) (hi : i < 64)
    (h : ¬ (q.headD true = true ∧ q.tail.headD true = true)) :
    (search_steps scriptBus L pin 1 i rom nd { pending := q, log := lg }).err = false ∧
    is_rom (search_steps scriptBus L pin 1 i rom nd { pending := q, log := lg }).rom ∧
    (∀ j, rom_bit (search_steps scriptBus L pin 1 i rom nd { pending := q, log := lg }).rom j =
      if j = i then choose_bit L i (rom_bit rom i) (q.headD true) (q.tail.headD true)
      else rom_bit rom j) ∧
    (search_steps scriptBus L pin 1 i rom nd { pending := q, log := lg }).new_deviation =
      choose_dev L i (rom_bit rom i) nd (q.headD true) (q.tail.headD true) ∧
    (search_steps scriptBus L pin 1 i rom nd { pending := q, log := lg }).bus =
      { pending := q.tail.tail,
        log := lg ++ [Event.rd (q.headD true), Event.rd (q.tail.headD true),
          Event.wr (rom_bit
            (search_steps scriptBus L pin 1 i rom nd { pending := q, log := lg }).rom i)] } := by
  have h12 : ¬ ((scriptBus.read_bit pin { pending := q, log := lg }).1 = true ∧
      (scriptBus.read_bit pin (scriptBus.read_bit pin { pending := q, log := lg }).2).1
        = true) := by
    rw [script_read, script_read]; exact h
  obtain ⟨e1, e2, e3, e4, e5⟩ := search_body_pass scriptBus L pin i rom nd _ hrom hi h12
  have he : ¬ (search_body scriptBus L pin
      (search_at (i / 8) (i % 8) rom nd { pending := q, log := lg })).err = true := by
    rw [e1]; decide
  rw [script_write, script_read, script_read] at e5
  rw [script_read, script_read] at e3 e4
  simp only [List.append_assoc, List.singleton_append, List.cons_append, List.nil_append] at e5
  rw [search_steps, if_neg he, search_steps]
  exact ⟨rfl, e2, e3, e4, e5⟩

theorem script_search_pass (L pin : Nat) (rom : List Nat) (q : List Bool) (lg : List Event)
    (hrom : is_rom rom) (m : Nat) (hm : m ≤ 64) (hq : ∀ j < m, ¬ pair_11 q j) :
    (search_steps scriptBus L pin m 0 rom 0 { pending := q, log := lg }).err = false ∧
    is_rom (search_steps scriptBus L pin m 0 rom 0 { pending := q, log := lg }).rom ∧
    (search_steps scriptBus L pin m 0 rom 0 { pending := q, log := lg }).bus =
      { pending := q.drop (2 * m),
        log := lg ++ search_log
          (search_steps scriptBus L pin m 0 rom 0 { pending := q, log := lg }).rom m 0 q } ∧
    (∀ j, rom_bit (search_steps scriptBus L pin m 0 rom 0 { pending := q, log := lg }).rom j =
      if j < m then choose_bit L j (rom_bit rom j) (q.getD (2 * j) true) (q.getD (2 * j + 1) true)
      else rom_bit rom j) ∧
    (search_steps scriptBus L pin m 0 rom 0 { pending := q, log := lg }).new_deviation ≤ m ∧
    ((search_steps scriptBus L pin m 0 rom 0 { pending := q, log := lg }).new_deviation ≠ 0 →
      marks L rom q
        ((search_steps scriptBus L pin m 0 rom 0 { pending := q, log := lg }).new_deviation - 1)) ∧
    (∀ j < m, marks L rom q j →
      j + 1 ≤ (search_steps scriptBus L pin m 0 rom 0 { pending := q, log := lg }).new_deviation) := by
  induction m with
  | zero =>
    refine ⟨rfl, hrom, ?_, fun j => ?_, Nat.le_refl _, fun h => absurd rfl h, fun j hj => ?_⟩
    · simp [search_steps, search_at, search_log]
    · simp [search_steps, search_at]
    · omega
  | succ m ih =>
    obtain ⟨a1, a2, a3, a4, a5, a6, a7⟩ := ih (by omega) (fun j hj => hq j (by omega))
    have he : ¬ (search_steps scriptBus L pin m 0 rom 0 { pending := q, log := lg }).err = true := by
      rw [a1]; decide
    rw [search_steps_add scriptBus L pin m 1 0, if_neg he, Nat.zero_add, a3]
    generalize search_steps scriptBus L pin m 0 rom 0 { pending := q, log := lg } = st
      at a1 a2 a3 a4 a5 a6 a7 he ⊢
    obtain ⟨g1, g2, g3⟩ := getD_drop_two q m
    have hp : ¬ ((q.drop (2 * m)).headD true = true ∧ (q.drop (2 * m)).tail.headD true = true) := by
      rw [g1, g2]; exact hq m (by omega)
    obtain ⟨s1, s2, s3, s4, s5⟩ := script_step L pin m st.rom st.new_deviation (q.drop (2 * m))
      (lg ++ search_log st.rom m 0 q) a2 (by omega) hp
    generalize search_steps scriptBus L pin 1 m st.rom st.new_deviation
      { pending := q.drop (2 * m), log := lg ++ search_log st.rom m 0 q } = st1
      at s1 s2 s3 s4 s5 ⊢
    rw [g1, g2] at s3 s4 s5 hp
    rw [g3] at s5
    have hcur : rom_bit st.rom m = rom_bit rom m := by rw [a4 m, if_neg (by omega)]
    rw [hcur] at s3 s4
    rw [choose_dev_marks L m _ _ _ _ hp] at s4
    have hmk : marks L rom q m ↔ (q.getD (2 * m) true = false ∧ q.getD (2 * m + 1) true = false ∧
        (L < m + 1 ∨ (m + 1 < L ∧ rom_bit rom m = false))) := Iff.rfl
    refine ⟨s1, s2, ?_, ?_, ?_, ?_, ?_⟩
    · rw [s5, search_log_snoc, Nat.zero_add,
        search_log_congr st1.rom st.rom m 0 q (fun j _ hj => by rw [s3 j, if_neg (by omega)])]
      simp only [List.append_assoc]
    · intro j
      rw [s3 j]
      by_cases hj : j = m
      · subst hj
        rw [if_pos rfl, if_pos (by omega)]
      · rw [if_neg hj, a4 j]
        by_cases hlt : j < m
        · rw [if_pos hlt, if_pos (by omega)]
        · rw [if_neg hlt, if_neg (by omega)]
    · rw [s4]; split_ifs <;> omega
    · intro hne
      rw [s4] at hne ⊢
      by_cases hc : marks L rom q m
      · rw [if_pos (hmk.1 hc)]
        exact hc
      · rw [if_neg (fun h => hc (hmk.2 h))] at hne ⊢
        exact a6 hne
    · intro j hj hmj
      rw [s4]
      by_cases hc : marks L rom q m
      · rw [if_pos (hmk.1 hc)]; omega
      · rw [if_neg (fun h => hc (hmk.2 h))]
        have : j ≠ m := fun e => hc (e ▸ hmj)
        exact a7 j (by omega) hmj

theorem search_rom_script (rom : List Nat) (L pin : Nat) (p : List Bool) (lg : List Event)
    (k : Nat) (hrom : is_rom rom) (hk : k ≤ 64) (hq : ∀ j < k, ¬ pair_11 p j)
    (hat : k < 64 → pair_11 p k) :
    is_rom (owi_search_rom scriptBus rom L pin { pending := p, log := lg }).2.1 ∧
    (∀ j, rom_bit (owi_search_rom scriptBus rom L pin { pending := p, log := lg }).2.1 j =
      if j < k then choose_bit L j (rom_bit rom j) (p.getD (2 * j) true) (p.getD (2 * j + 1) true)
      else rom_bit rom j) ∧
    (owi_search_rom scriptBus rom L pin { pending := p, log := lg }).2.2 =
      { pending := p.drop (if k < 64 then 2 * k + 2 else 128),
        log := lg ++ (byte_bits 0xF0).map Event.wr ++
          search_log (owi_search_rom scriptBus rom L pin { pending := p, log := lg }).2.1 k 0 p ++
          (if k < 64 then [Event.rd true, Event.rd true] else []) } ∧
    (k < 64 → (owi_search_rom scriptBus rom L pin { pending := p, log := lg }).1 = 0xFF) ∧
    (k = 64 →
      (owi_search_rom scriptBus rom L pin { pending := p, log := lg }).1 ≤ 64 ∧
      ((owi_search_rom scriptBus rom L pin { pending := p, log := lg }).1 ≠ 0 →
        marks L rom p ((owi_search_rom scriptBus rom L pin { pending := p, log := lg }).1 - 1)) ∧
      ∀ j < 64, marks L rom p j →
        j + 1 ≤ (owi_search_rom scriptBus rom L pin { pending := p, log := lg }).1) := by
  unfold owi_search_rom
  simp only [owi_search_rom_state_eq, send_byte_script]
  obtain ⟨a1, a2, a3, a4, a5, a6, a7⟩ := script_search_pass L pin rom p
    (lg ++ (byte_bits SEARCH_ROM_CMD).map Event.wr) hrom k hk hq
  have he : ¬ (search_steps scriptBus L pin k 0 rom 0
      { pending := p, log := lg ++ (byte_bits SEARCH_ROM_CMD).map Event.wr }).err = true := by
    rw [a1]; decide
  have e64 : ∀ x, search_steps scriptBus L pin 64 0 rom 0 x =
      search_steps scriptBus L pin (k + (64 - k)) 0 rom 0 x :=
    fun x => by rw [show k + (64 - k) = 64 by omega]
  rw [e64, search_steps_add, if_neg he, Nat.zero_add, a3]
  generalize search_steps scriptBus L pin k 0 rom 0
      { pending := p, log := lg ++ (byte_bits SEARCH_ROM_CMD).map Event.wr } = st
    at a1 a2 a3 a4 a5 a6 a7 he ⊢
  by_cases hk64 : k < 64
  · have hp : pair_11 (p.drop (2 * k)) 0 := by
      have := hat hk64
      unfold pair_11 at this ⊢
      simpa [List.getD_eq_getElem?_getD] using this
    obtain ⟨r1, r2, r3, _, _, r6⟩ := script_search_fail L pin 0 (64 - k) k st.rom st.new_deviation
      (p.drop (2 * k)) (lg ++ (byte_bits SEARCH_ROM_CMD).map Event.wr ++ search_log st.rom k 0 p)
      a2 (by omega) (by omega) (fun j hj => absurd hj (by omega)) hp
    rw [r6 rfl, r3, r6 rfl]
    refine ⟨a2, a4, ?_, fun _ => r2, fun h => absurd h (by omega)⟩
    simp only [if_pos hk64, search_log, List.append_nil, List.drop_drop, SEARCH_ROM_CMD,
      Nat.mul_zero, Nat.zero_add]
  · have h64 : k = 64 := by omega
    subst h64
    simp only [Nat.sub_self, search_steps, search_at, if_neg hk64, List.append_nil,
      SEARCH_ROM_CMD]
    exact ⟨a2, a4, trivial, fun h => absurd h hk64, fun _ => ⟨a5, a6, a7⟩⟩

theorem first_pair (q : List Bool) (n : Nat) :
    ∃ k, k ≤ n ∧ (∀ j < k, ¬ pair_11 q j) ∧ (k < n → pair_11 q k) := by
  induction n with
  | zero => exact ⟨0, Nat.le_refl 0, fun j hj => absurd hj (by omega), fun h => absurd h (by omega)⟩
  | succ n ih =>
    obtain ⟨k, h1, h2, h3⟩ := ih
    by_cases hk : k < n
    · exact ⟨k, by omega, h2, fun _ => h3 hk⟩
    · have hkn : k = n := by omega
      subst hkn
      by_cases hp : pair_11 q k
      · exact ⟨k, by omega, h2, fun _ => hp⟩
      · refine ⟨k + 1, Nat.le_refl _, fun j hj => ?_, fun h => absurd h (by omega)⟩
        by_cases hj2 : j = k
        · rw [hj2]; exact hp
        · exact h2 j (by omega)

theorem written_search_rom (rom : List Nat) (L pin : Nat) (p : List Bool)
    (k : Nat) (hrom : is_rom rom) (hk : k ≤ 64) (hq : ∀ j < k, ¬ pair_11 p j)
    (hat : k < 64 → pair_11 p k) :
    written (owi_search_rom scriptBus rom L pin { pending := p, log := [] }).2.2.log =
      byte_bits 0xF0 ++ (List.range k).map
        (fun j => rom_bit (owi_search_rom scriptBus rom L pin { pending := p, log := [] }).2.1 j) := by
  obtain ⟨_, _, h3, _, _⟩ := search_rom_script rom L pin p [] k hrom hk hq hat
  rw [h3]
  simp only [List.nil_append, written_append, written_map_wr, written_search_log, Nat.zero_add]
  by_cases h : k < 64
  · simp [h, written]
  · simp [h, written]

theorem reached_lt (p : List Bool) (j k : Nat) (hbefore : ∀ i < j, ¬ pair_11 p i)
    (hj : ¬ pair_11 p j) (hj64 : j < 64) (hat : k < 64 → pair_11 p k) (hk : k ≤ 64) : j < k := by
  by_contra hc
  have hk64 : k < 64 := by omega
  by_cases e : k = j
  · exact hj (e ▸ hat hk64)
  · exact hbefore k (by omega) (hat hk64)

/-- Claim C22 (bit chosen at a discrepancy): in a call of `owi_search_rom` on
a bus whose read slots sample the script `p`, let the 0-based position `j`
(the 1-based position `j + 1`, kept at bit `j % 8` of byte `j / 8`) be reached
without a pair (1,1) and let both of its read slots sample 0. Then the bit the
call leaves in the buffer at that position is 1 if `j + 1 = last_deviation`,
0 if `j + 1 > last_deviation`, and the bit the buffer held there on entry if
`j + 1 < last_deviation`; and that bit is the one written in the write slot of
the position, the `j`-th write after the eight of the command byte. -/
theorem search_discrepancy_choice (rom : List Nat) (L pin : Nat) (p : List Bool) (j : Nat)
    (hrom : is_rom rom) (hj : j < 64) (hbefore : ∀ i < j, ¬ pair_11 p i)
    (h1 : p.getD (2 * j) true = false) (h2 : p.getD (2 * j + 1) true = false) :
    ((owi_search_rom scriptBus rom L pin { pending := p, log := [] }).2.1.getD (j / 8) 0).testBit
        (j % 8) =
      (if j + 1 = L then true else if j + 1 > L then false
        else (rom.getD (j / 8) 0).testBit (j % 8)) ∧
    (written (owi_search_rom scriptBus rom L pin { pending := p, log := [] }).2.2.log)[8 + j]? =
      some (if j + 1 = L then true else if j + 1 > L then false
        else (rom.getD (j / 8) 0).testBit (j % 8)) := by
  obtain ⟨k, hk, hq, hat⟩ := first_pair p 64
  have hnp : ¬ pair_11 p j := fun h => by rw [h.1] at h1; exact Bool.noConfusion h1
  have hjk : j < k := reached_lt p j k hbefore hnp hj hat hk
  obtain ⟨_, b2, _, _, _⟩ := search_rom_script rom L pin p [] k hrom hk hq hat
  have hbit : rom_bit (owi_search_rom scriptBus rom L pin { pending := p, log := [] }).2.1 j =
      (if j + 1 = L then true else if j + 1 > L then false else rom_bit rom j) := by
    rw [b2 j, if_pos hjk, h1, h2]
    rfl
  refine ⟨hbit, ?_⟩
  rw [written_search_rom rom L pin p k hrom hk hq hat,
    List.getElem?_append_right (by rw [byte_bits_length]; omega), byte_bits_length,
    Nat.add_sub_cancel_left, List.getElem?_map, List.getElem?_range hjk]
  exact congrArg some hbit

/-- Witness of `search_discrepancy_choice`: position 2 (1-based) reads (0,0)
and equals `last_deviation`. -/
theorem search_discrepancy_choice_witness :
    is_rom [0, 0, 0, 0, 0, 0, 0, 0] ∧ 1 < 64 ∧
    (∀ i < 1, ¬ pair_11 [true, false, false, false] i) ∧
    [true, false, false, false].getD (2 * 1) true = false ∧
    [true, false, false, false].getD (2 * 1 + 1) true = false ∧
    (((owi_search_rom scriptBus [0, 0, 0, 0, 0, 0, 0, 0] 2 0
        { pending := [true, false, false, false], log := [] }).2.1.getD (1 / 8) 0).testBit
        (1 % 8) =
      (if 1 + 1 = 2 then true else if 1 + 1 > 2 then false
        else (([0, 0, 0, 0, 0, 0, 0, 0] : List Nat).getD (1 / 8) 0).testBit (1 % 8)) ∧
    (written (owi_search_rom scriptBus [0, 0, 0, 0, 0, 0, 0, 0] 2 0
        { pending := [true, false, false, false], log := [] }).2.2.log)[8 + 1]? =
      some (if 1 + 1 = 2 then true else if 1 + 1 > 2 then false
        else (([0, 0, 0, 0, 0, 0, 0, 0] : List Nat).getD (1 / 8) 0).testBit (1 % 8))) :=
  ⟨by decide, by decide, by decide, by decide, by decide,
    search_discrepancy_choice [0, 0, 0, 0, 0, 0, 0, 0] 2 0 [true, false, false, false] 1
      (by decide) (by decide) (by decide) (by decide) (by decide)⟩

theorem no_pair_zeros (n : Nat) : ∀ j < n, ¬ pair_11 (List.replicate (2 * n) false) j := by
  intro j hj h
  have := h.1
  rw [List.getD_eq_getElem _ _ (by rw [List.length_replicate]; omega)] at this
  simp at this

/-- Claim C23 (value returned): for a call of `owi_search_rom` on a bus whose
read slots sample the script `p`, with no pair (1,1) among the 64 pairs read,
the value returned is at most 64; if it is not 0 it is a 1-based position
`ret` at which both reads were 0 and either `ret > last_deviation`, or
`ret < last_deviation` and the buffer holds 0 there; and no such position is
larger than the value returned, so the value is 0 exactly when there is none.
At such a position before `last_deviation` the buffer bit is the same on entry
and on return. -/
theorem search_return_value (rom : List Nat) (L pin : Nat) (p : List Bool)
    (hrom : is_rom rom) (hq : ∀ j < 64, ¬ pair_11 p j) :
    (owi_search_rom scriptBus rom L pin { pending := p, log := [] }).1 ≤ 64 ∧
    ((owi_search_rom scriptBus rom L pin { pending := p, log := [] }).1 ≠ 0 →
      marks L rom p ((owi_search_rom scriptBus rom L pin { pending := p, log := [] }).1 - 1)) ∧
    (∀ j < 64, marks L rom p j →
      j + 1 ≤ (owi_search_rom scriptBus rom L pin { pending := p, log := [] }).1) ∧
    ((owi_search_rom scriptBus rom L pin { pending := p, log := [] }).1 = 0 ↔
      ∀ j < 64, ¬ marks L rom p j) ∧
    (∀ j < 64, j + 1 < L → p.getD (2 * j) true = false → p.getD (2 * j + 1) true = false →
      rom_bit (owi_search_rom scriptBus rom L pin { pending := p, log := [] }).2.1 j =
        rom_bit rom j) := by
  obtain ⟨_, b2, _, _, b5⟩ := search_rom_script rom L pin p [] 64 hrom (Nat.le_refl _) hq
    (fun h => absurd h (by omega))
  obtain ⟨c1, c2, c3⟩ := b5 rfl
  refine ⟨c1, c2, c3, ⟨fun h0 j hj hm => ?_, fun hn => ?_⟩, fun j hj hL h1 h2 => ?_⟩
  · have := c3 j hj hm
    omega
  · by_contra hne
    have hm := c2 hne
    exact hn _ (by omega) hm
  · rw [b2 j, if_pos hj, h1, h2]
    simp only [choose_bit, bne_self_eq_false, Bool.false_eq_true, if_false]
    rw [if_neg (by omega), if_neg (by omega)]

/-- Witness of `search_return_value`: every pair read is (0,0) and
`last_deviation` is 0, so the value returned is 64. -/
theorem search_return_value_witness :
    is_rom [0, 0, 0, 0, 0, 0, 0, 0] ∧
    (∀ j < 64, ¬ pair_11 (List.replicate (2 * 64) false) j) ∧
    ((owi_search_rom scriptBus [0, 0, 0, 0, 0, 0, 0, 0] 0 0
        { pending := List.replicate (2 * 64) false, log := [] }).1 ≤ 64 ∧
    ((owi_search_rom scriptBus [0, 0, 0, 0, 0, 0, 0, 0] 0 0
        { pending := List.replicate (2 * 64) false, log := [] }).1 ≠ 0 →
      marks 0 [0, 0, 0, 0, 0, 0, 0, 0] (List.replicate (2 * 64) false)
        ((owi_search_rom scriptBus [0, 0, 0, 0, 0, 0, 0, 0] 0 0
          { pending := List.replicate (2 * 64) false, log := [] }).1 - 1)) ∧
    (∀ j < 64, marks 0 [0, 0, 0, 0, 0, 0, 0, 0] (List.replicate (2 * 64) false) j →
      j + 1 ≤ (owi_search_rom scriptBus [0, 0, 0, 0, 0, 0, 0, 0] 0 0
        { pending := List.replicate (2 * 64) false, log := [] }).1) ∧
    ((owi_search_rom scriptBus [0, 0, 0, 0, 0, 0, 0, 0] 0 0
        { pending := List.replicate (2 * 64) false, log := [] }).1 = 0 ↔
      ∀ j < 64, ¬ marks 0 [0, 0, 0, 0, 0, 0, 0, 0] (List.replicate (2 * 64) false) j) ∧
    (∀ j < 64, j + 1 < 0 → (List.replicate (2 * 64) false).getD (2 * j) true = false →
      (List.replicate (2 * 64) false).getD (2 * j + 1) true = false →
      rom_bit (owi_search_rom scriptBus [0, 0, 0, 0, 0, 0, 0, 0] 0 0
        { pending := List.replicate (2 * 64) false, log := [] }).2.1 j =
        rom_bit [0, 0, 0, 0, 0, 0, 0, 0] j)) :=
  ⟨by decide, no_pair_zeros 64,
    search_return_value [0, 0, 0, 0, 0, 0, 0, 0] 0 0 (List.replicate (2 * 64) false)
      (by decide) (no_pair_zeros 64)⟩

/-- Claim C24 (agreed bits are recorded): one pass through the loop body of
`owi_search_rom` at the 0-based position `i`, on any bus, whose two read slots
sample different bits, leaves the first bit read at position `i` of the buffer
and every other bit of the buffer as it was, for every `last_deviation` and
every buffer; hence in a call on a bus whose read slots sample the script `p`,
at every position `j` reached without a pair (1,1) whose two reads differ, the
buffer returned holds the first bit read (1 for the pair (1,0), 0 for (0,1)). -/
theorem search_agreed_bits (rom : List Nat) (hrom : is_rom rom) (L pin : Nat) :
    (∀ (τ : Type) (B : Bus τ) (s : τ) (i nd : Nat), i < 64 →
      (B.read_bit pin s).1 ≠ (B.read_bit pin (B.read_bit pin s).2).1 →
      rom_bit (search_body B L pin (search_at (i / 8) (i % 8) rom nd s)).rom i =
        (B.read_bit pin s).1 ∧
      ∀ j, j ≠ i →
        rom_bit (search_body B L pin (search_at (i / 8) (i % 8) rom nd s)).rom j =
          rom_bit rom j) ∧
    (∀ (p : List Bool) (j : Nat), j < 64 → (∀ i < j, ¬ pair_11 p i) →
      p.getD (2 * j) true ≠ p.getD (2 * j + 1) true →
      rom_bit (owi_search_rom scriptBus rom L pin { pending := p, log := [] }).2.1 j =
        p.getD (2 * j) true) := by
  refine ⟨fun τ B s i nd hi hne => ?_, fun p j hj hbefore hne => ?_⟩
  · have h12 : ¬ ((B.read_bit pin s).1 = true ∧
        (B.read_bit pin (B.read_bit pin s).2).1 = true) := by
      intro h; rw [h.1, h.2] at hne; exact hne rfl
    obtain ⟨_, _, e3, _, _⟩ := search_body_pass B L pin i rom nd s hrom hi h12
    have hb : ((B.read_bit pin s).1 != (B.read_bit pin (B.read_bit pin s).2).1) = true := by
      simpa using hne
    refine ⟨?_, fun j hji => ?_⟩
    · rw [e3 i, if_pos rfl, choose_bit, if_pos hb]
    · rw [e3 j, if_neg hji]
  · obtain ⟨k, hk, hq, hat⟩ := first_pair p 64
    have hnp : ¬ pair_11 p j := fun h => by rw [h.1, h.2] at hne; exact hne rfl
    have hjk : j < k := reached_lt p j k hbefore hnp hj hat hk
    obtain ⟨_, b2, _, _, _⟩ := search_rom_script rom L pin p [] k hrom hk hq hat
    have hb : (p.getD (2 * j) true != p.getD (2 * j + 1) true) = true := by
      simpa using hne
    rw [b2 j, if_pos hjk, choose_bit, if_pos hb]

/-- Witness of `search_agreed_bits`: a buffer of eight bytes. -/
theorem search_agreed_bits_witness :
    is_rom [0, 0, 0, 0, 0, 0, 0, 0] ∧
    ((∀ (τ : Type) (B : Bus τ) (s : τ) (i nd : Nat), i < 64 →
      (B.read_bit 0 s).1 ≠ (B.read_bit 0 (B.read_bit 0 s).2).1 →
      rom_bit (search_body B 3 0 (search_at (i / 8) (i % 8) [0, 0, 0, 0, 0, 0, 0, 0] nd s)).rom i =
        (B.read_bit 0 s).1 ∧
      ∀ j, j ≠ i →
        rom_bit (search_body B 3 0
          (search_at (i / 8) (i % 8) [0, 0, 0, 0, 0, 0, 0, 0] nd s)).rom j =
          rom_bit [0, 0, 0, 0, 0, 0, 0, 0] j) ∧
    (∀ (p : List Bool) (j : Nat), j < 64 → (∀ i < j, ¬ pair_11 p i) →
      p.getD (2 * j) true ≠ p.getD (2 * j + 1) true →
      rom_bit (owi_search_rom scriptBus [0, 0, 0, 0, 0, 0, 0, 0] 3 0
        { pending := p, log := [] }).2.1 j =
        p.getD (2 * j) true)) :=
  ⟨by decide, search_agreed_bits [0, 0, 0, 0, 0, 0, 0, 0] (by decide) 3 0⟩

/-! ## The search on any bus -/

theorem search_inner_fuel (B : Bus σ) (L pin b e : Nat) (n k : Nat) (hk : k + n = 8)
    (rom : List Nat) (nd : Nat) (s : σ) :
    search_inner B L pin (n + e) (search_at b k rom nd s) =
      search_inner B L pin n (search_at b k rom nd s) := by
  induction n generalizing k rom nd s with
  | zero =>
    have : k = 8 := by omega
    subst this
    cases e with
    | zero => rfl
    | succ e =>
      rw [Nat.zero_add, search_inner, search_inner]
      have : ¬ (search_at b 8 rom nd s).bit_idx < BYTE_TO_BITS := by
        show ¬ 8 < 8; omega
      rw [if_neg this]
  | succ n ih =>
    rw [show n + 1 + e = (n + e) + 1 by omega, search_inner, search_inner]
    have hlt : (search_at b k rom nd s).bit_idx < BYTE_TO_BITS := by
      show k < 8; omega
    rw [if_pos hlt, if_pos hlt]
    split
    · rfl
    · rename_i hc
      simp only [Bool.not_eq_true] at hc
      rw [search_body_ok B L pin b k rom nd s hc, ih (k + 1) (by omega)]

theorem search_outer_fuel (B : Bus σ) (L pin e : Nat) (m b : Nat) (hb : b + m = 8)
    (rom : List Nat) (nd : Nat) (s : σ) :
    search_outer B L pin (m + e) (search_at b 0 rom nd s) =
      search_outer B L pin m (search_at b 0 rom nd s) := by
  induction m generalizing b rom nd s with
  | zero =>
    have : b = 8 := by omega
    subst this
    cases e with
    | zero => rfl
    | succ e =>
      rw [Nat.zero_add, search_outer, search_outer]
      have : ¬ (search_at 8 0 rom nd s).byte_idx < ROM_LEN_BYTES := by
        show ¬ 8 < 8; omega
      rw [if_neg this]
  | succ m ih =>
    have hlt : (search_at b 0 rom nd s).byte_idx < ROM_LEN_BYTES := by
      show b < 8; omega
    rw [show m + 1 + e = (m + e) + 1 by omega, search_outer, search_outer, if_pos hlt, if_pos hlt,
      BYTE_TO_BITS, search_inner_eq B L pin b 8 0 (by omega), Nat.add_zero]
    by_cases hc : (search_steps B L pin 8 (8 * b) rom nd s).err = true
    · simp only [inner_exit, hc, if_true]
    · simp only [Bool.not_eq_true] at hc
      simp only [inner_exit, hc, Bool.false_eq_true, if_false]
      have hcurr : (search_steps B L pin 8 (8 * b) rom nd s).curr_idx = 8 * (b + 1) + 0 + 1 := by
        rw [search_steps_ok B L pin 8 (8 * b) rom nd s hc]
        simp only [search_at]
        omega
      rw [hcurr]
      exact ih (b + 1) (by omega) _ _ _

theorem search_body_range (B : Bus σ) (L pin b k : Nat) (rom : List Nat) (nd : Nat) (s : σ) :
    ((search_body B L pin (search_at b k rom nd s)).err = true ∧
      (search_body B L pin (search_at b k rom nd s)).new_deviation = ROM_SEARCH_FAILED) ∨
    ((search_body B L pin (search_at b k rom nd s)).err = false ∧
      ((search_body B L pin (search_at b k rom nd s)).new_deviation = nd ∨
        (search_body B L pin (search_at b k rom nd s)).new_deviation = 8 * b + k + 1)) := by
  unfold search_body search_decide
  simp only [search_at]
  split_ifs <;> simp

theorem search_steps_range (B : Bus σ) (L pin : Nat) :
    ∀ (n i : Nat) (rom : List Nat) (nd : Nat) (s : σ), nd ≤ i →
      ((search_steps B L pin n i rom nd s).err = true ∧
        (search_steps B L pin n i rom nd s).new_deviation = ROM_SEARCH_FAILED) ∨
      ((search_steps B L pin n i rom nd s).err = false ∧
        (search_steps B L pin n i rom nd s).new_deviation ≤ i + n) := by
  intro n
  induction n with
  | zero => intro i rom nd s h; exact Or.inr ⟨rfl, h⟩
  | succ n ih =>
    intro i rom nd s h
    rw [search_steps]
    rcases search_body_range B L pin (i / 8) (i % 8) rom nd s with ⟨h1, h2⟩ | ⟨h1, h2⟩
    · rw [if_pos h1]; exact Or.inl ⟨h1, h2⟩
    · rw [if_neg (by rw [h1]; decide)]
      have hle : (search_body B L pin (search_at (i / 8) (i % 8) rom nd s)).new_deviation
          ≤ i + 1 := by
        rcases h2 with h2 | h2 <;> rw [h2] <;> omega
      rcases ih (i + 1) _ _ _ hle with h3 | ⟨h3, h4⟩
      · exact Or.inl h3
      · exact Or.inr ⟨h3, by omega⟩

theorem search_rom_range (B : Bus σ) (rom : List Nat) (L pin : Nat) (s : σ) :
    ((owi_search_rom_state B rom L pin s).err = true ∧
      (owi_search_rom B rom L pin s).1 = 0xFF) ∨
    ((owi_search_rom_state B rom L pin s).err = false ∧
      (owi_search_rom B rom L pin s).1 ≤ 64 ∧
      (owi_search_rom_state B rom L pin s).byte_idx = 8 ∧
      (owi_search_rom_state B rom L pin s).bit_idx = 0) := by
  unfold owi_search_rom
  simp only [owi_search_rom_state_eq]
  rcases search_steps_range B L pin 64 0 rom 0 (owi_send_byte B SEARCH_ROM_CMD pin s)
    (Nat.le_refl 0) with h | ⟨h1, h2⟩
  · exact Or.inl h
  · refine Or.inr ⟨h1, by omega, ?_, ?_⟩
    · rw [search_steps_ok B L pin 64 0 rom 0 _ h1]; rfl
    · rw [search_steps_ok B L pin 64 0 rom 0 _ h1]; rfl
theorem search_body_sim (B : Bus σ) (L pin b k : Nat) (rom : List Nat) (nd : Nat) (s : σ)
    (q : List Bool) (lg : List Event) :
    (search_body (logBus B) L pin (search_at b k rom nd (s, lg))).rom =
      (search_body B L pin (search_at b k rom nd s)).rom ∧
    (search_body (logBus B) L pin (search_at b k rom nd (s, lg))).err =
      (search_body B L pin (search_at b k rom nd s)).err ∧
    (search_body (logBus B) L pin (search_at b k rom nd (s, lg))).new_deviation =
      (search_body B L pin (search_at b k rom nd s)).new_deviation ∧
    (search_body (logBus B) L pin (search_at b k rom nd (s, lg))).bus.1 =
      (search_body B L pin (search_at b k rom nd s)).bus ∧
    (search_body scriptBus L pin (search_at b k rom nd
        { pending := (B.read_bit pin s).1 :: (B.read_bit pin (B.read_bit pin s).2).1 :: q,
          log := lg })).rom =
      (search_body B L pin (search_at b k rom nd s)).rom ∧
    (search_body scriptBus L pin (search_at b k rom nd
        { pending := (B.read_bit pin s).1 :: (B.read_bit pin (B.read_bit pin s).2).1 :: q,
          log := lg })).err =
      (search_body B L pin (search_at b k rom nd s)).err ∧
    (search_body scriptBus L pin (search_at b k rom nd
        { pending := (B.read_bit pin s).1 :: (B.read_bit pin (B.read_bit pin s).2).1 :: q,
          log := lg })).new_deviation =
      (search_body B L pin (search_at b k rom nd s)).new_deviation ∧
    (search_body scriptBus L pin (search_at b k rom nd
        { pending := (B.read_bit pin s).1 :: (B.read_bit pin (B.read_bit pin s).2).1 :: q,
          log := lg })).bus =
      { pending := q,
        log := (search_body (logBus B) L pin (search_at b k rom nd (s, lg))).bus.2 } := by
  unfold search_body write_bit
  simp only [search_at, logBus, scriptBus, List.headD_cons, List.tail_cons]
  split_ifs <;> simp

theorem search_steps_sim (B : Bus σ) (L pin : Nat) :
    ∀ (n i : Nat) (rom : List Nat) (nd : Nat) (s : σ), ∃ q : List Bool, ∀ lg : List Event,
      (search_steps (logBus B) L pin n i rom nd (s, lg)).rom =
        (search_steps B L pin n i rom nd s).rom ∧
      (search_steps (logBus B) L pin n i rom nd (s, lg)).err =
        (search_steps B L pin n i rom nd s).err ∧
      (search_steps (logBus B) L pin n i rom nd (s, lg)).new_deviation =
        (search_steps B L pin n i rom nd s).new_deviation ∧
      (search_steps (logBus B) L pin n i rom nd (s, lg)).bus.1 =
        (search_steps B L pin n i rom nd s).bus ∧
      (search_steps scriptBus L pin n i rom nd { pending := q, log := lg }).rom =
        (search_steps B L pin n i rom nd s).rom ∧
      (search_steps scriptBus L pin n i rom nd { pending := q, log := lg }).err =
        (search_steps B L pin n i rom nd s).err ∧
      (search_steps scriptBus L pin n i rom nd { pending := q, log := lg }).new_deviation =
        (search_steps B L pin n i rom nd s).new_deviation ∧
      (search_steps scriptBus L pin n i rom nd { pending := q, log := lg }).bus.log =
        (search_steps (logBus B) L pin n i rom nd (s, lg)).bus.2 := by
  intro n
  induction n with
  | zero =>
    intro i rom nd s
    exact ⟨[], fun lg => ⟨rfl, rfl, rfl, rfl, rfl, rfl, rfl, rfl⟩⟩
  | succ n ih =>
    intro i rom nd s
    obtain ⟨q, hq⟩ := ih (i + 1) (search_body B L pin (search_at (i / 8) (i % 8) rom nd s)).rom
      (search_body B L pin (search_at (i / 8) (i % 8) rom nd s)).new_deviation
      (search_body B L pin (search_at (i / 8) (i % 8) rom nd s)).bus
    refine ⟨(B.read_bit pin s).1 :: (B.read_bit pin (B.read_bit pin s).2).1 :: q, fun lg => ?_⟩
    obtain ⟨b1, b2, b3, b4, b5, b6, b7, b8⟩ :=
      search_body_sim B L pin (i / 8) (i % 8) rom nd s q lg
    simp only [search_steps]
    by_cases he : (search_body B L pin (search_at (i / 8) (i % 8) rom nd s)).err = true
    · rw [if_pos he, if_pos (b2.trans he), if_pos (b6.trans he)]
      exact ⟨b1, b2, b3, b4, b5, b6, b7, by rw [b8]⟩
    · rw [if_neg he, if_neg (fun h => he (b2.symm.trans h)), if_neg (fun h => he (b6.symm.trans h))]
      rw [b1, b3, b5, b7, b8]
      have hb : (search_body (logBus B) L pin (search_at (i / 8) (i % 8) rom nd (s, lg))).bus =
          ((search_body B L pin (search_at (i / 8) (i % 8) rom nd s)).bus,
            (search_body (logBus B) L pin (search_at (i / 8) (i % 8) rom nd (s, lg))).bus.2) := by
        rw [← b4]
      rw [hb]
      exact hq _

theorem log_write_bits (B : Bus σ) (pin : Nat) (l : List Bool) (s : σ) (lg : List Event) :
    write_bits (logBus B) pin l (s, lg) = (write_bits B pin l s, lg ++ l.map Event.wr) := by
  induction l generalizing s lg with
  | nil => simp [write_bits]
  | cons b t ih =>
    rw [write_bits, write_bits]
    cases b
    · show write_bits (logBus B) pin t (B.write_bit0 pin s, lg ++ [Event.wr false]) = _
      rw [ih]; simp
    · show write_bits (logBus B) pin t (B.write_bit1 pin s, lg ++ [Event.wr true]) = _
      rw [ih]; simp

theorem search_rom_sim (B : Bus σ) (rom : List Nat) (L pin : Nat) (s : σ) :
    ∃ q : List Bool, ∀ lg : List Event,
      (owi_search_rom (logBus B) rom L pin (s, lg)).1 = (owi_search_rom B rom L pin s).1 ∧
      (owi_search_rom (logBus B) rom L pin (s, lg)).2.1 = (owi_search_rom B rom L pin s).2.1 ∧
      (owi_search_rom (logBus B) rom L pin (s, lg)).2.2.1 = (owi_search_rom B rom L pin s).2.2 ∧
      (owi_search_rom scriptBus rom L pin { pending := q, log := lg }).1 =
        (owi_search_rom B rom L pin s).1 ∧
      (owi_search_rom scriptBus rom L pin { pending := q, log := lg }).2.1 =
        (owi_search_rom B rom L pin s).2.1 ∧
      (owi_search_rom scriptBus rom L pin { pending := q, log := lg }).2.2.log =
        (owi_search_rom (logBus B) rom L pin (s, lg)).2.2.2 := by
  obtain ⟨q, hq⟩ := search_steps_sim B L pin 64 0 rom 0 (owi_send_byte B SEARCH_ROM_CMD pin s)
  refine ⟨q, fun lg => ?_⟩
  obtain ⟨h1, _, h3, h4, h5, _, h7, h8⟩ := hq (lg ++ (byte_bits SEARCH_ROM_CMD).map Event.wr)
  unfold owi_search_rom
  simp only [owi_search_rom_state_eq, send_byte_script]
  rw [send_byte_write_bits (logBus B), log_write_bits, ← send_byte_write_bits]
  exact ⟨h3, h1, h4, h7, h5, h8⟩

theorem reads_append (a b : List Event) : reads (a ++ b) = reads a ++ reads b := by
  induction a with
  | nil => rfl
  | cons e t ih => cases e <;> simp [reads, ih]

theorem reads_map_wr (l : List Bool) : reads (l.map Event.wr) = [] := by
  induction l with
  | nil => rfl
  | cons b t ih => simp [reads, ih]

theorem reads_search_log (r : List Nat) (m : Nat) :
    ∀ (i : Nat) (q : List Bool), reads (search_log r m i q) = sampled (2 * m) q := by
  induction m with
  | zero => intro i q; rfl
  | succ m ih =>
    intro i q
    rw [show 2 * (m + 1) = 2 * m + 1 + 1 by omega]
    simp only [search_log, reads, sampled, ih (i + 1) q.tail.tail]

theorem sampled_getD (n : Nat) : ∀ (q : List Bool) (i : Nat) (d : Bool), i < n →
    (sampled n q).getD i d = q.getD i true := by
  induction n with
  | zero => intro q i d h; omega
  | succ n ih =>
    intro q i d h
    cases i with
    | zero => rw [sampled, List.getD_cons_zero, headD_eq_getD]
    | succ i =>
      rw [sampled, List.getD_cons_succ, ih q.tail i d (by omega)]
      cases q <;> simp

theorem search_rom_log (B : Bus σ) (rom : List Nat) (L pin : Nat) (s : σ) (hrom : is_rom rom) :
    ∃ (q : List Bool) (k : Nat), k ≤ 64 ∧ (∀ j < k, ¬ pair_11 q j) ∧ (k < 64 → pair_11 q k) ∧
      (k < 64 → (owi_search_rom B rom L pin s).1 = 0xFF) ∧
      (k = 64 → (owi_search_rom B rom L pin s).1 ≤ 64) ∧
      ∀ lg : List Event, owi_search_rom (logBus B) rom L pin (s, lg) =
        ((owi_search_rom B rom L pin s).1, (owi_search_rom B rom L pin s).2.1,
          ((owi_search_rom B rom L pin s).2.2,
            lg ++ (byte_bits 0xF0).map Event.wr ++
              search_log (owi_search_rom B rom L pin s).2.1 k 0 q ++
              (if k < 64 then [Event.rd true, Event.rd true] else []))) := by
  obtain ⟨q, hq⟩ := search_rom_sim B rom L pin s
  obtain ⟨k, hk, hb, hat⟩ := first_pair q 64
  refine ⟨q, k, hk, hb, hat, fun h => ?_, fun h => ?_, fun lg => ?_⟩
  · obtain ⟨_, _, _, h4, _, _⟩ := hq []
    obtain ⟨_, _, _, c4, _⟩ := search_rom_script rom L pin q [] k hrom hk hb hat
    rw [← h4]; exact c4 h
  · obtain ⟨_, _, _, h4, _, _⟩ := hq []
    obtain ⟨_, _, _, _, c5⟩ := search_rom_script rom L pin q [] k hrom hk hb hat
    rw [← h4]; exact (c5 h).1
  · obtain ⟨h1, h2, h3, _, h5, h6⟩ := hq lg
    obtain ⟨_, _, c3, _, _⟩ := search_rom_script rom L pin q lg k hrom hk hb hat
    rw [c3, h5] at h6
    apply Prod.ext h1
    apply Prod.ext h2
    apply Prod.ext h3
    exact h6.symm

/-- Claim C25 (the failure value is told apart): on every bus, for every
buffer of eight bytes and every `last_deviation`, `owi_search_rom` returns
0xFF or a value of at most 64, and it returns 0xFF exactly when two
successive read slots of some position both sample 1: among the read slots
recorded on the bus, taken two by two, and, on a bus whose read slots sample a
script `p`, among the first 64 pairs of `p`. -/
theorem search_sentinel (B : Bus σ) (rom : List Nat) (L pin : Nat) (s : σ) (hrom : is_rom rom) :
    ((owi_search_rom B rom L pin s).1 = 0xFF ∨ (owi_search_rom B rom L pin s).1 ≤ 64) ∧
    ((owi_search_rom B rom L pin s).1 = 0xFF ↔
      ∃ j, (reads (owi_search_rom (logBus B) rom L pin (s, [])).2.2.2).getD (2 * j) false = true ∧
        (reads (owi_search_rom (logBus B) rom L pin (s, [])).2.2.2).getD (2 * j + 1) false
          = true) ∧
    (∀ p : List Bool, (owi_search_rom scriptBus rom L pin { pending := p, log := [] }).1 = 0xFF ↔
      ∃ j < 64, pair_11 p j) := by
  refine ⟨?_, ?_, fun p => ?_⟩
  · rcases search_rom_range B rom L pin s with h | h
    · exact Or.inl h.2
    · exact Or.inr h.2.1
  · obtain ⟨q, k, hk, hb, hat, c1, c2, c3⟩ := search_rom_log B rom L pin s hrom
    rw [c3 []]
    simp only [List.nil_append, reads_append, reads_map_wr, reads_search_log]
    by_cases h64 : k < 64
    · simp only [h64, if_true, c1 h64, true_iff]
      refine ⟨k, ?_, ?_⟩
      · rw [List.getD_append_right _ _ _ _ (by rw [sampled_length]), sampled_length,
          Nat.sub_self]
        rfl
      · rw [List.getD_append_right _ _ _ _ (by rw [sampled_length]; omega), sampled_length,
          show 2 * k + 1 - 2 * k = 1 by omega]
        rfl
    · have hk64 : k = 64 := by omega
      have hle := c2 hk64
      simp only [h64, if_false, List.append_nil, reads]
      constructor
      · intro h; omega
      · rintro ⟨j, h1, h2⟩
        exfalso
        have hj : j < 64 := by
          by_contra hc
          rw [List.getD_eq_default _ _ (by rw [sampled_length]; omega)] at h1
          exact Bool.noConfusion h1
        rw [sampled_getD _ _ _ _ (by omega)] at h1 h2
        exact hb j (by omega) ⟨h1, h2⟩
  · obtain ⟨k, hk, hb, hat⟩ := first_pair p 64
    obtain ⟨_, _, _, c4, c5⟩ := search_rom_script rom L pin p [] k hrom hk hb hat
    by_cases h64 : k < 64
    · exact ⟨fun _ => ⟨k, h64, hat h64⟩, fun _ => c4 h64⟩
    · have hk64 : k = 64 := by omega
      have hle := (c5 hk64).1
      constructor
      · intro h; omega
      · rintro ⟨j, hj, hp⟩
        exact absurd hp (hb j (by omega))

/-- Witness of `search_sentinel`: a bus with no device, every read slot
sampling 1. -/
theorem search_sentinel_witness :
    is_rom [0, 0, 0, 0, 0, 0, 0, 0] ∧
    (((owi_search_rom scriptBus [0, 0, 0, 0, 0, 0, 0, 0] 0 0 { pending := [], log := [] }).1
        = 0xFF ∨
      (owi_search_rom scriptBus [0, 0, 0, 0, 0, 0, 0, 0] 0 0 { pending := [], log := [] }).1
        ≤ 64) ∧
    ((owi_search_rom scriptBus [0, 0, 0, 0, 0, 0, 0, 0] 0 0 { pending := [], log := [] }).1
        = 0xFF ↔
      ∃ j, (reads (owi_search_rom (logBus scriptBus) [0, 0, 0, 0, 0, 0, 0, 0] 0 0
          ({ pending := [], log := [] }, [])).2.2.2).getD (2 * j) false = true ∧
        (reads (owi_search_rom (logBus scriptBus) [0, 0, 0, 0, 0, 0, 0, 0] 0 0
          ({ pending := [], log := [] }, [])).2.2.2).getD (2 * j + 1) false = true) ∧
    (∀ p : List Bool,
      (owi_search_rom scriptBus [0, 0, 0, 0, 0, 0, 0, 0] 0 0 { pending := p, log := [] }).1
        = 0xFF ↔
      ∃ j < 64, pair_11 p j)) :=
  ⟨by decide, search_sentinel scriptBus [0, 0, 0, 0, 0, 0, 0, 0] 0 0 { pending := [], log := [] }
    (by decide)⟩

/-! ## The order of a read cycle -/

theorem bytes_bits_length (l : List Nat) : (bytes_bits l).length = 8 * l.length := by
  induction l with
  | nil => rfl
  | cons a t ih => rw [bytes_bits_cons, List.length_append, byte_bits_length, ih, List.length_cons]; omega

theorem drop_bytes_bits (l : List Nat) : ∀ k, (bytes_bits l).drop (8 * k) = bytes_bits (l.drop k) := by
  induction l with
  | nil => intro k; simp [bytes_bits]
  | cons a t ih =>
    intro k
    cases k with
    | zero => rfl
    | succ k =>
      rw [bytes_bits_cons, show 8 * (k + 1) = 8 + 8 * k by omega, ← List.drop_drop,
        drop_byte_bits, ih k, List.drop_succ_cons]

theorem bytes_bits_group (l : List Nat) (i : Nat) (hi : i < l.length) (hlt : ∀ x ∈ l, x < 256) :
    bits_byte (((bytes_bits l).drop (8 * i)).take 8) = l.getD i 0 := by
  rw [drop_bytes_bits, List.drop_eq_getElem_cons hi, bytes_bits_cons,
    List.take_left' (byte_bits_length _), bits_byte_byte_bits _ (hlt _ (List.getElem_mem _)),
    List.getD_eq_getElem _ _ hi]

/-- Claim C26 (order of a read cycle): on a line whose samples are the level
`r0` of the first reset slot, `N` busy samples 0 and one sample 1 in the wait
loop, the level `r1` of the second reset slot, the 72 bits of nine scratchpad
bytes `sp` with a valid CRC, and more, `ds18b20_read_temp` performs, in this
order and nothing else: a reset slot, the write slots of 0x55, of
`rom[7]`, ..., `rom[0]` and of 0x44, the `N + 1` read slots of the wait loop,
a reset slot, the write slots of 0x55, of `rom[7]`, ..., `rom[0]` and of 0xBE,
72 read slots, and a final reset slot. The 72 read slots fill the scratchpad
in index order: byte `i` is assembled from read slots `8 * i` to `8 * i + 7`,
least-significant bit first. So a reset precedes each Match ROM, and the
second one follows the Convert-Temperature transaction. -/
theorem read_cycle_order (dev : ds18b20_dev_t) (sp0 sp : List Nat) (r0 r1 : Bool) (N fuel : Nat)
    (rest : List Bool)
    (h0 : sp0.length = 9) (hsp : sp.length = 9) (hlt : ∀ x ∈ sp, x < 256) (hf : N < fuel)
    (hcrc : crc8_fold 0 (sp.take 8) = sp.getD 8 0) :
    (ds18b20_read_temp scriptLine dev sp0 fuel
        { pending := temp_script r0 N r1 sp rest, log := [] }).map (fun r => r.2.2.log) =
      some ([LineEvent.reset r0] ++
        wr_slots (byte_bits 0x55) ++
        wr_slots (bytes_bits [dev.rom.getD 7 0, dev.rom.getD 6 0, dev.rom.getD 5 0,
          dev.rom.getD 4 0, dev.rom.getD 3 0, dev.rom.getD 2 0, dev.rom.getD 1 0,
          dev.rom.getD 0 0]) ++
        wr_slots (byte_bits 0x44) ++
        rd_slots (List.replicate N false ++ [true]) ++
        [LineEvent.reset r1] ++
        wr_slots (byte_bits 0x55) ++
        wr_slots (bytes_bits [dev.rom.getD 7 0, dev.rom.getD 6 0, dev.rom.getD 5 0,
          dev.rom.getD 4 0, dev.rom.getD 3 0, dev.rom.getD 2 0, dev.rom.getD 1 0,
          dev.rom.getD 0 0]) ++
        wr_slots (byte_bits 0xBE) ++
        rd_slots (bytes_bits sp) ++
        [LineEvent.reset (rest.headD true)]) ∧
    (bytes_bits sp).length = 72 ∧
    (∀ lg : List LineEvent,
      (read_scratchpad scriptLine dev sp0
        { pending := r1 :: (bytes_bits sp ++ rest), log := lg }).2.1 = sp) ∧
    (∀ i < 9, sp.getD i 0 = bits_byte (((bytes_bits sp).drop (8 * i)).take 8)) := by
  refine ⟨?_, ?_, fun lg => ?_, fun i hi => ?_⟩
  · rw [line_read_temp dev sp0 sp r0 r1 N fuel rest [] h0 hsp hlt hf, if_pos hcrc]
    simp only [Option.map_some', temp_log, MATCH_ROM_CMD, CONVERT_TEMP_CMD, READ_SCRATCHPAD_CMD,
      wire_bits, bytes_bits, wr_slots_append, List.append_nil, List.nil_append,
      List.append_assoc, List.cons_append, List.singleton_append]
  · rw [bytes_bits_length, hsp]
  · rw [line_read_scratchpad dev sp0 sp r1 rest lg h0 hsp hlt]
  · rw [bytes_bits_group sp i (by omega) hlt]

/-- Witness of `read_cycle_order` at the scratchpad 91 01 4B 46 7F FF 0F 10 25,
after three busy samples. -/
theorem read_cycle_order_witness :
    [0, 0, 0, 0, 0, 0, 0, 0, 0].length = 9 ∧
    [0x91, 0x01, 0x4B, 0x46, 0x7F, 0xFF, 0x0F, 0x10, 0x25].length = 9 ∧
    (∀ x ∈ [0x91, 0x01, 0x4B, 0x46, 0x7F, 0xFF, 0x0F, 0x10, 0x25], x < 256) ∧
    3 < 4 ∧
    crc8_fold 0 ([0x91, 0x01, 0x4B, 0x46, 0x7F, 0xFF, 0x0F, 0x10, 0x25].take 8) =
      [0x91, 0x01, 0x4B, 0x46, 0x7F, 0xFF, 0x0F, 0x10, 0x25].getD 8 0 ∧
    ((ds18b20_read_temp scriptLine { pin := 2, rom := [0x28, 1, 2, 3, 4, 5, 6, 7], temp := 0 }
        [0, 0, 0, 0, 0, 0, 0, 0, 0] 4
        { pending := temp_script false 3 false
            [0x91, 0x01, 0x4B, 0x46, 0x7F, 0xFF, 0x0F, 0x10, 0x25] [false],
          log := [] }).map (fun r => r.2.2.log) =
      some ([LineEvent.reset false] ++
        wr_slots (byte_bits 0x55) ++
        wr_slots (bytes_bits [
          ({ pin := 2, rom := [0x28, 1, 2, 3, 4, 5, 6, 7], temp := 0 } : ds18b20_dev_t).rom.getD 7 0,
          ({ pin := 2, rom := [0x28, 1, 2, 3, 4, 5, 6, 7], temp := 0 } : ds18b20_dev_t).rom.getD 6 0,
          ({ pin := 2, rom := [0x28, 1, 2, 3, 4, 5, 6, 7], temp := 0 } : ds18b20_dev_t).rom.getD 5 0,
          ({ pin := 2, rom := [0x28, 1, 2, 3, 4, 5, 6, 7], temp := 0 } : ds18b20_dev_t).rom.getD 4 0,
          ({ pin := 2, rom := [0x28, 1, 2, 3, 4, 5, 6, 7], temp := 0 } : ds18b20_dev_t).rom.getD 3 0,
          ({ pin := 2, rom := [0x28, 1, 2, 3, 4, 5, 6, 7], temp := 0 } : ds18b20_dev_t).rom.getD 2 0,
          ({ pin := 2, rom := [0x28, 1, 2, 3, 4, 5, 6, 7], temp := 0 } : ds18b20_dev_t).rom.getD 1 0,
          ({ pin := 2, rom := [0x28, 1, 2, 3, 4, 5, 6, 7], temp := 0 } : ds18b20_dev_t).rom.getD 0 0])
          ++
        wr_slots (byte_bits 0x44) ++
        rd_slots (List.replicate 3 false ++ [true]) ++
        [LineEvent.reset false] ++
        wr_slots (byte_bits 0x55) ++
        wr_slots (bytes_bits [
          ({ pin := 2, rom := [0x28, 1, 2, 3, 4, 5, 6, 7], temp := 0 } : ds18b20_dev_t).rom.getD 7 0,
          ({ pin := 2, rom := [0x28, 1, 2, 3, 4, 5, 6, 7], temp := 0 } : ds18b20_dev_t).rom.getD 6 0,
          ({ pin := 2, rom := [0x28, 1, 2, 3, 4, 5, 6, 7], temp := 0 } : ds18b20_dev_t).rom.getD 5 0,
          ({ pin := 2, rom := [0x28, 1, 2, 3, 4, 5, 6, 7], temp := 0 } : ds18b20_dev_t).rom.getD 4 0,
          ({ pin := 2, rom := [0x28, 1, 2, 3, 4, 5, 6, 7], temp := 0 } : ds18b20_dev_t).rom.getD 3 0,
          ({ pin := 2, rom := [0x28, 1, 2, 3, 4, 5, 6, 7], temp := 0 } : ds18b20_dev_t).rom.getD 2 0,
          ({ pin := 2, rom := [0x28, 1, 2, 3, 4, 5, 6, 7], temp := 0 } : ds18b20_dev_t).rom.getD 1 0,
          ({ pin := 2, rom := [0x28, 1, 2, 3, 4, 5, 6, 7], temp := 0 } : ds18b20_dev_t).rom.getD 0 0])
          ++
        wr_slots (byte_bits 0xBE) ++
        rd_slots (bytes_bits [0x91, 0x01, 0x4B, 0x46, 0x7F, 0xFF, 0x0F, 0x10, 0x25]) ++
        [LineEvent.reset ([false].headD true)]) ∧
    (bytes_bits [0x91, 0x01, 0x4B, 0x46, 0x7F, 0xFF, 0x0F, 0x10, 0x25]).length = 72 ∧
    (∀ lg : List LineEvent,
      (read_scratchpad scriptLine { pin := 2, rom := [0x28, 1, 2, 3, 4, 5, 6, 7], temp := 0 }
        [0, 0, 0, 0, 0, 0, 0, 0, 0]
        { pending := false ::
            (bytes_bits [0x91, 0x01, 0x4B, 0x46, 0x7F, 0xFF, 0x0F, 0x10, 0x25] ++ [false]),
          log := lg }).2.1 = [0x91, 0x01, 0x4B, 0x46, 0x7F, 0xFF, 0x0F, 0x10, 0x25]) ∧
    (∀ i < 9, [0x91, 0x01, 0x4B, 0x46, 0x7F, 0xFF, 0x0F, 0x10, 0x25].getD i 0 =
      bits_byte (((bytes_bits [0x91, 0x01, 0x4B, 0x46, 0x7F, 0xFF, 0x0F, 0x10, 0x25]).drop
        (8 * i)).take 8))) :=
  ⟨by decide, by decide, by decide, by decide, scratchpad_examples.1,
    read_cycle_order { pin := 2, rom := [0x28, 1, 2, 3, 4, 5, 6, 7], temp := 0 }
      [0, 0, 0, 0, 0, 0, 0, 0, 0] [0x91, 0x01, 0x4B, 0x46, 0x7F, 0xFF, 0x0F, 0x10, 0x25]
      false false 3 4 [false] (by decide) (by decide) (by decide) (by decide)
      scratchpad_examples.1⟩

/-- Claim C27 (shape of a pass, termination): on every bus, for every buffer
of eight bytes and every `last_deviation`, the loops of `owi_search_rom` end:
the state they leave has `err` set (left by `break`) or `byte_idx = 8`, and
running either loop with more than 8 iterations allowed changes nothing. The
slots recorded on the bus are the eight write slots of 0xF0 (least-significant
bit first), then for `k` positions in order, `k ≤ 64`, two read slots and one
write slot whose bit is the bit the call leaves in the buffer at that
position, and then, only if `k < 64`, the two read slots that sampled (1,1);
so the call makes `2 * k` (plus 2) reads and `8 + k` writes, at most 64 rounds,
and exactly 64 rounds, 128 reads and 64 writes after the command, when it
returns a value other than 0xFF. -/
theorem search_pass_shape (B : Bus σ) (rom : List Nat) (L pin : Nat) (s : σ)
    (hrom : is_rom rom) :
    ((owi_search_rom_state B rom L pin s).err = true ∨
      ¬ (owi_search_rom_state B rom L pin s).byte_idx < ROM_LEN_BYTES) ∧
    (∀ e, search_outer B L pin (ROM_LEN_BYTES + e)
        (search_init rom (owi_send_byte B SEARCH_ROM_CMD pin s)) =
      owi_search_rom_state B rom L pin s) ∧
    (∀ (e b : Nat) (r : List Nat) (nd : Nat) (t : σ),
      search_inner B L pin (BYTE_TO_BITS + e) (search_at b 0 r nd t) =
        search_inner B L pin BYTE_TO_BITS (search_at b 0 r nd t)) ∧
    ∃ (q : List Bool) (k : Nat), k ≤ 64 ∧ (∀ j < k, ¬ pair_11 q j) ∧ (k < 64 → pair_11 q k) ∧
      (k = 64 ↔ (owi_search_rom B rom L pin s).1 ≠ 0xFF) ∧
      (∀ lg : List Event, owi_search_rom (logBus B) rom L pin (s, lg) =
        ((owi_search_rom B rom L pin s).1, (owi_search_rom B rom L pin s).2.1,
          ((owi_search_rom B rom L pin s).2.2,
            lg ++ (byte_bits 0xF0).map Event.wr ++
              search_log (owi_search_rom B rom L pin s).2.1 k 0 q ++
              (if k < 64 then [Event.rd true, Event.rd true] else [])))) ∧
      (reads (owi_search_rom (logBus B) rom L pin (s, [])).2.2.2).length =
        2 * k + (if k < 64 then 2 else 0) ∧
      written (owi_search_rom (logBus B) rom L pin (s, [])).2.2.2 =
        byte_bits 0xF0 ++
          (List.range k).map (fun j => rom_bit (owi_search_rom B rom L pin s).2.1 j) := by
  refine ⟨?_, fun e => ?_, fun e b r nd t => ?_, ?_⟩
  · rcases search_rom_range B rom L pin s with h | h
    · exact Or.inl h.1
    · refine Or.inr ?_
      rw [h.2.2.1]
      decide
  · exact search_outer_fuel B L pin e 8 0 rfl rom 0 _
  · rw [BYTE_TO_BITS]
    exact search_inner_fuel B L pin b e 8 0 rfl r nd t
  · obtain ⟨q, k, hk, hb, hat, c1, c2, c3⟩ := search_rom_log B rom L pin s hrom
    refine ⟨q, k, hk, hb, hat, ⟨fun h => ?_, fun h => ?_⟩, c3, ?_, ?_⟩
    · have := c2 h
      omega
    · by_contra hne
      exact h (c1 (by omega))
    · rw [c3 []]
      simp only [List.nil_append, reads_append, reads_map_wr, reads_search_log,
        List.length_append, sampled_length]
      by_cases h64 : k < 64
      · simp [h64, reads]
      · simp [h64, reads]
    · rw [c3 []]
      simp only [List.nil_append, written_append, written_map_wr, written_search_log,
        Nat.zero_add]
      by_cases h64 : k < 64
      · simp [h64, written]
      · simp [h64, written]

/-- Witness of `search_pass_shape`: the wired-AND bus with one device. -/
theorem search_pass_shape_witness :
    is_rom [0, 0, 0, 0, 0, 0, 0, 0] ∧
    (((owi_search_rom_state wiredBus [0, 0, 0, 0, 0, 0, 0, 0] 0 0
        (wired_start [[1, 2, 3, 4, 5, 6, 7, 8]])).err = true ∨
      ¬ (owi_search_rom_state wiredBus [0, 0, 0, 0, 0, 0, 0, 0] 0 0
        (wired_start [[1, 2, 3, 4, 5, 6, 7, 8]])).byte_idx < ROM_LEN_BYTES) ∧
    (∀ e, search_outer wiredBus 0 0 (ROM_LEN_BYTES + e)
        (search_init [0, 0, 0, 0, 0, 0, 0, 0] (owi_send_byte wiredBus SEARCH_ROM_CMD 0
          (wired_start [[1, 2, 3, 4, 5, 6, 7, 8]]))) =
      owi_search_rom_state wiredBus [0, 0, 0, 0, 0, 0, 0, 0] 0 0
        (wired_start [[1, 2, 3, 4, 5, 6, 7, 8]])) ∧
    (∀ (e b : Nat) (r : List Nat) (nd : Nat) (t : Wired),
      search_inner wiredBus 0 0 (BYTE_TO_BITS + e) (search_at b 0 r nd t) =
        search_inner wiredBus 0 0 BYTE_TO_BITS (search_at b 0 r nd t)) ∧
    ∃ (q : List Bool) (k : Nat), k ≤ 64 ∧ (∀ j < k, ¬ pair_11 q j) ∧ (k < 64 → pair_11 q k) ∧
      (k = 64 ↔ (owi_search_rom wiredBus [0, 0, 0, 0, 0, 0, 0, 0] 0 0
        (wired_start [[1, 2, 3, 4, 5, 6, 7, 8]])).1 ≠ 0xFF) ∧
      (∀ lg : List Event, owi_search_rom (logBus wiredBus) [0, 0, 0, 0, 0, 0, 0, 0] 0 0
          (wired_start [[1, 2, 3, 4, 5, 6, 7, 8]], lg) =
        ((owi_search_rom wiredBus [0, 0, 0, 0, 0, 0, 0, 0] 0 0
            (wired_start [[1, 2, 3, 4, 5, 6, 7, 8]])).1,
          (owi_search_rom wiredBus [0, 0, 0, 0, 0, 0, 0, 0] 0 0
            (wired_start [[1, 2, 3, 4, 5, 6, 7, 8]])).2.1,
          ((owi_search_rom wiredBus [0, 0, 0, 0, 0, 0, 0, 0] 0 0
            (wired_start [[1, 2, 3, 4, 5, 6, 7, 8]])).2.2,
            lg ++ (byte_bits 0xF0).map Event.wr ++
              search_log (owi_search_rom wiredBus [0, 0, 0, 0, 0, 0, 0, 0] 0 0
                (wired_start [[1, 2, 3, 4, 5, 6, 7, 8]])).2.1 k 0 q ++
              (if k < 64 then [Event.rd true, Event.rd true] else [])))) ∧
      (reads (owi_search_rom (logBus wiredBus) [0, 0, 0, 0, 0, 0, 0, 0] 0 0
          (wired_start [[1, 2, 3, 4, 5, 6, 7, 8]], [])).2.2.2).length =
        2 * k + (if k < 64 then 2 else 0) ∧
      written (owi_search_rom (logBus wiredBus) [0, 0, 0, 0, 0, 0, 0, 0] 0 0
          (wired_start [[1, 2, 3, 4, 5, 6, 7, 8]], [])).2.2.2 =
        byte_bits 0xF0 ++
          (List.range k).map (fun j => rom_bit (owi_search_rom wiredBus [0, 0, 0, 0, 0, 0, 0, 0] 0 0
            (wired_start [[1, 2, 3, 4, 5, 6, 7, 8]])).2.1 j)) :=
  ⟨by decide, search_pass_shape wiredBus [0, 0, 0, 0, 0, 0, 0, 0] 0 0
    (wired_start [[1, 2, 3, 4, 5, 6, 7, 8]]) (by decide)⟩

/-- Claim C28 (search soundness): on the wired-AND bus with a non-empty list
`D` of devices, each an 8-byte ROM, for every `last_deviation` and every
8-byte buffer passed in, `owi_search_rom` does not return 0xFF (it returns a
value of at most 64) and the buffer it leaves is the ROM of a device of `D`. -/
theorem search_sound (D : List (List Nat)) (b : List Nat) (L pin : Nat)
    (hD : ∀ d ∈ D, is_rom d) (hb : is_rom b) (hne : D ≠ []) :
    (owi_search_rom wiredBus b L pin (wired_start D)).1 ≠ 0xFF ∧
    (owi_search_rom wiredBus b L pin (wired_start D)).1 ≤ 64 ∧
    (owi_search_rom wiredBus b L pin (wired_start D)).2.1 ∈ D := by
  obtain ⟨h1, h2, _, _⟩ := search_wired_good D b L pin hD hb hne
  exact ⟨by omega, h2, h1⟩

/-- Witness of `search_sound`: two devices, a buffer of eight bytes FF and
`last_deviation = 200`. -/
theorem search_sound_witness :
    (∀ d ∈ [[1, 2, 3, 4, 5, 6, 7, 8], [1, 2, 3, 4, 5, 6, 7, 9]], is_rom d) ∧
    is_rom [255, 255, 255, 255, 255, 255, 255, 255] ∧
    [[1, 2, 3, 4, 5, 6, 7, 8], [1, 2, 3, 4, 5, 6, 7, 9]] ≠ [] ∧
    ((owi_search_rom wiredBus [255, 255, 255, 255, 255, 255, 255, 255] 200 0
        (wired_start [[1, 2, 3, 4, 5, 6, 7, 8], [1, 2, 3, 4, 5, 6, 7, 9]])).1 ≠ 0xFF ∧
    (owi_search_rom wiredBus [255, 255, 255, 255, 255, 255, 255, 255] 200 0
        (wired_start [[1, 2, 3, 4, 5, 6, 7, 8], [1, 2, 3, 4, 5, 6, 7, 9]])).1 ≤ 64 ∧
    (owi_search_rom wiredBus [255, 255, 255, 255, 255, 255, 255, 255] 200 0
        (wired_start [[1, 2, 3, 4, 5, 6, 7, 8], [1, 2, 3, 4, 5, 6, 7, 9]])).2.1 ∈
      [[1, 2, 3, 4, 5, 6, 7, 8], [1, 2, 3, 4, 5, 6, 7, 9]]) :=
  ⟨by decide, by decide, by decide,
    search_sound [[1, 2, 3, 4, 5, 6, 7, 8], [1, 2, 3, 4, 5, 6, 7, 9]]
      [255, 255, 255, 255, 255, 255, 255, 255] 200 0 (by decide) (by decide) (by decide)⟩

/-! ## The two search implementations -/

set_option maxRecDepth 1000000 in
theorem drivers_script_short :
    owi_search_rom scriptBus [1, 0, 0, 0, 0, 0, 0, 0] 2 0
        { pending := [false, false, true, false], log := [] } =
      (0xFF, [3, 0, 0, 0, 0, 0, 0, 0],
        { pending := [],
          log := (byte_bits 0xF0).map Event.wr ++
            [Event.rd false, Event.rd false, Event.wr true,
             Event.rd true, Event.rd false, Event.wr true,
             Event.rd true, Event.rd true] }) ∧
    drivers.owi_search_rom scriptBus [1, 0, 0, 0, 0, 0, 0, 0] 2 0 4
        { pending := [false, false, true, false], log := [] } =
      some (0xFF, [1, 0, 0, 0, 0, 0, 0, 0],
        { pending := [],
          log := (byte_bits 0xF0).map Event.wr ++
            [Event.rd false, Event.rd false,
             Event.rd true, Event.rd false, Event.wr true,
             Event.rd true, Event.rd true] }) := by
  decide

set_option maxRecDepth 1000000 in
theorem drivers_script_long :
    (owi_search_rom scriptBus [1, 0, 0, 0, 0, 0, 0, 0] 2 0
        { pending := [false, false] ++ (List.replicate 63 [true, false]).flatten,
          log := [] }).1 = 0 ∧
    (owi_search_rom scriptBus [1, 0, 0, 0, 0, 0, 0, 0] 2 0
        { pending := [false, false] ++ (List.replicate 63 [true, false]).flatten,
          log := [] }).2.1 = [255, 255, 255, 255, 255, 255, 255, 255] ∧
    (drivers.owi_search_rom scriptBus [1, 0, 0, 0, 0, 0, 0, 0] 2 0 72
        { pending := [false, false] ++ (List.replicate 63 [true, false]).flatten,
          log := [] }).map (fun r => (r.1, r.2.1)) =
      some (0xFF, [255, 255, 255, 255, 255, 255, 255, 127]) := by
  decide

set_option maxRecDepth 1000000 in
theorem drivers_wired_third :
    search_all [[0, 0, 0, 0, 0, 0, 0, 0], [1, 0, 0, 0, 0, 0, 0, 0], [3, 0, 0, 0, 0, 0, 0, 0]] 0 2
        [0, 0, 0, 0, 0, 0, 0, 0] 0 =
      [(1, [0, 0, 0, 0, 0, 0, 0, 0]), (2, [1, 0, 0, 0, 0, 0, 0, 0])] ∧
    owi_search_rom wiredBus [1, 0, 0, 0, 0, 0, 0, 0] 2 0
        (wired_start [[0, 0, 0, 0, 0, 0, 0, 0], [1, 0, 0, 0, 0, 0, 0, 0],
          [3, 0, 0, 0, 0, 0, 0, 0]]) =
      (0, [3, 0, 0, 0, 0, 0, 0, 0],
        { sel := [[3, 0, 0, 0, 0, 0, 0, 0]], pos := 64, phase := 0 }) ∧
    drivers.owi_search_rom wiredBus [1, 0, 0, 0, 0, 0, 0, 0] 2 0 2
        (wired_start [[0, 0, 0, 0, 0, 0, 0, 0], [1, 0, 0, 0, 0, 0, 0, 0],
          [3, 0, 0, 0, 0, 0, 0, 0]]) =
      some (0xFF, [1, 0, 0, 0, 0, 0, 0, 0],
        { sel := [[0, 0, 0, 0, 0, 0, 0, 0], [1, 0, 0, 0, 0, 0, 0, 0],
            [3, 0, 0, 0, 0, 0, 0, 0]], pos := 0, phase := 2 }) := by
  decide

set_option maxRecDepth 1000000 in
theorem search_rom_low :
    owi_search_rom lowBus [1, 0, 0, 0, 0, 0, 0, 0] 2 0 () = (64, [3, 0, 0, 0, 0, 0, 0, 0], ()) := by
  decide

theorem drivers_low_hangs (fuel : Nat) :
    drivers.owi_search_rom lowBus [1, 0, 0, 0, 0, 0, 0, 0] 2 0 fuel () = none := by
  unfold drivers.owi_search_rom
  have hs : drivers.owi_send lowBus SEARCH_ROM_CMD 0 () = () := rfl
  rw [hs]
  induction fuel with
  | zero => rfl
  | succ n ih =>
    rw [drivers.search_loop]
    exact ih

theorem drivers_send_eq (B : Bus σ) (pin n data : Nat) (s : σ) :
    drivers.owi_send_loop B pin n data s = owi_send_byte_loop B pin n data s := by
  induction n generalizing data s with
  | zero => rfl
  | succ n ih => rw [drivers.owi_send_loop, owi_send_byte_loop, ih]

theorem drivers_fuel_mono (B : Bus σ) (L pin : Nat) :
    ∀ (fuel k : Nat) (st : drivers.SearchLocals σ) (r : Nat × List Nat × σ),
      drivers.search_loop B L pin fuel st = some r →
      drivers.search_loop B L pin (fuel + k) st = some r := by
  intro fuel
  induction fuel with
  | zero => intro k st r h; exact absurd h (by simp [drivers.search_loop])
  | succ n ih =>
    intro k st r h
    rw [show n + 1 + k = (n + k) + 1 by omega, drivers.search_loop]
    rw [drivers.search_loop] at h
    by_cases h1 : st.byte_index < 8
    · rw [if_pos h1] at h ⊢
      by_cases h2 : st.bit_index < 8
      · rw [if_pos h2] at h ⊢
        cases hb : drivers.search_body B L pin st with
        | ret v p s => rw [hb] at h; exact h
        | next st1 => rw [hb] at h; exact ih k st1 r h
      · rw [if_neg h2] at h ⊢
        exact ih k _ r h
    · rw [if_neg h1] at h ⊢
      exact h

theorem drivers_body_eq (B : Bus σ) (L pin b k : Nat) (rom : List Nat) (nd : Nat) (s : σ)
    (hL : L ≤ 8 * b + k + 1) :
    drivers.search_body B L pin
        { bit_pattern := rom, bit_index := k, byte_index := b, current_index := 8 * b + k + 1,
          new_deviation := nd, bus := s } =
      if (search_body B L pin (search_at b k rom nd s)).err then
        drivers.Step.ret (search_body B L pin (search_at b k rom nd s)).new_deviation
          (search_body B L pin (search_at b k rom nd s)).rom
          (search_body B L pin (search_at b k rom nd s)).bus
      else
        drivers.Step.next
          { bit_pattern := (search_body B L pin (search_at b k rom nd s)).rom,
            bit_index := k + 1, byte_index := b, current_index := 8 * b + (k + 1) + 1,
            new_deviation := (search_body B L pin (search_at b k rom nd s)).new_deviation,
            bus := (search_body B L pin (search_at b k rom nd s)).bus } := by
  unfold drivers.search_body search_body search_decide drivers.write_advance
  simp only [search_at]
  split_ifs <;> first | rfl | omega | simp_all

theorem drivers_loop_eq (B : Bus σ) (L pin : Nat) :
    ∀ (n i : Nat) (rom : List Nat) (nd : Nat) (s : σ) (fuel : Nat),
      i + n = 64 → L ≤ i + 1 → n + (8 - i / 8) + 1 ≤ fuel →
      drivers.search_loop B L pin fuel
          { bit_pattern := rom, bit_index := i % 8, byte_index := i / 8, current_index := i + 1,
            new_deviation := nd, bus := s } =
        some ((search_steps B L pin n i rom nd s).new_deviation,
          (search_steps B L pin n i rom nd s).rom, (search_steps B L pin n i rom nd s).bus) := by
  intro n
  induction n with
  | zero =>
    intro i rom nd s fuel hi _ hf
    obtain ⟨f, rfl⟩ : ∃ f, fuel = f + 1 := ⟨fuel - 1, by omega⟩
    have h8 : i / 8 = 8 := by omega
    rw [drivers.search_loop]
    simp only [h8, Nat.lt_irrefl, if_false]
    rfl
  | succ n ih =>
    intro i rom nd s fuel hi hL hf
    obtain ⟨f, rfl⟩ : ∃ f, fuel = f + 1 := ⟨fuel - 1, by omega⟩
    have hb : i / 8 < 8 := by omega
    have hk : i % 8 < 8 := Nat.mod_lt _ (by decide)
    have hc : i + 1 = 8 * (i / 8) + i % 8 + 1 := by omega
    rw [drivers.search_loop]
    simp only [hb, hk, if_true]
    rw [hc, drivers_body_eq B L pin (i / 8) (i % 8) rom nd s (by omega), search_steps]
    by_cases he : (search_body B L pin (search_at (i / 8) (i % 8) rom nd s)).err = true
    · simp only [he, if_true]
    · simp only [he, Bool.false_eq_true, if_false]
      by_cases hk7 : i % 8 + 1 < 8
      · have e1 : (i + 1) / 8 = i / 8 := by omega
        have e2 : (i + 1) % 8 = i % 8 + 1 := by omega
        have := ih (i + 1) (search_body B L pin (search_at (i / 8) (i % 8) rom nd s)).rom
          (search_body B L pin (search_at (i / 8) (i % 8) rom nd s)).new_deviation
          (search_body B L pin (search_at (i / 8) (i % 8) rom nd s)).bus f (by omega) (by omega)
          (by omega)
        rw [e1, e2, show i + 1 + 1 = 8 * (i / 8) + (i % 8 + 1) + 1 by omega] at this
        exact this
      · have e1 : (i + 1) / 8 = i / 8 + 1 := by omega
        have e2 : (i + 1) % 8 = 0 := by omega
        have e3 : i % 8 + 1 = 8 := by omega
        obtain ⟨g, rfl⟩ : ∃ g, f = g + 1 := ⟨f - 1, by omega⟩
        rw [drivers.search_loop]
        simp only [hb, e3, Nat.lt_irrefl, if_true, if_false]
        have := ih (i + 1) (search_body B L pin (search_at (i / 8) (i % 8) rom nd s)).rom
          (search_body B L pin (search_at (i / 8) (i % 8) rom nd s)).new_deviation
          (search_body B L pin (search_at (i / 8) (i % 8) rom nd s)).bus g (by omega) (by omega)
          (by omega)
        rw [e1, e2, show i + 1 + 1 = 8 * (i / 8) + 8 + 1 by omega] at this
        exact this

theorem drivers_search_agree (B : Bus σ) (rom : List Nat) (L pin fuel : Nat) (s : σ)
    (hL : L ≤ 1) (hf : 73 ≤ fuel) :
    drivers.owi_search_rom B rom L pin fuel s = some (owi_search_rom B rom L pin s) := by
  unfold drivers.owi_search_rom owi_search_rom
  simp only [owi_search_rom_state_eq]
  have hs : drivers.owi_send B SEARCH_ROM_CMD pin s = owi_send_byte B SEARCH_ROM_CMD pin s :=
    drivers_send_eq B pin 8 _ s
  rw [hs]
  exact drivers_loop_eq B L pin 64 0 rom 0 _ fuel rfl (by omega) (by omega)

theorem drivers_rom_fuel_mono (B : Bus σ) (rom : List Nat) (L pin fuel k : Nat) (s : σ)
    (r : Nat × List Nat × σ) (h : drivers.owi_search_rom B rom L pin fuel s = some r) :
    drivers.owi_search_rom B rom L pin (fuel + k) s = some r :=
  drivers_fuel_mono B L pin fuel k _ r h

/-- Claim C29 fails on the code: `owi_search_rom` of `src/drivers/owi/owi.c`
ends its discrepancy branch with `else continue;`, so at a position before
`last_deviation` where both reads are 0 and the buffer holds 1 it writes
nothing and advances no counter, and reads the next two slots for the same
position; `owi_search_rom` of `src/owi.c` keeps the bit and writes it. With
the buffer 01 00 00 00 00 00 00 00 and `last_deviation = 2`: on the script
(0,0), (1,0) the slots after the command byte are read, read, write 1, read,
read, write 1, read, read for `src/owi.c` and read, read, read, read, write 1,
read, read for the older driver, and the buffers left are 03 .. and 01 ..; on
the script (0,0) followed by 63 pairs (1,0), `src/owi.c` returns 0 with the
buffer FF .. FF and the older driver returns 0xFF with FF .. FF 7F; on a line
held low `src/owi.c` returns 64 and the older driver never returns; on the
wired-AND bus with the devices 00 .., 01 .., 03 .., whose first two calls
leave the buffer 01 .. and the value 2, the third call of `src/owi.c` returns
0 with the third device and the older driver returns 0xFF. The results of the
older driver hold for every larger bound on its loop tests. The two do agree,
on every bus and for every buffer, when `last_deviation` is 0 or 1, where the
`continue` cannot be reached. -/
theorem search_implementations_differ :
    (owi_search_rom scriptBus [1, 0, 0, 0, 0, 0, 0, 0] 2 0
        { pending := [false, false, true, false], log := [] } =
      (0xFF, [3, 0, 0, 0, 0, 0, 0, 0],
        { pending := [],
          log := (byte_bits 0xF0).map Event.wr ++
            [Event.rd false, Event.rd false, Event.wr true,
             Event.rd true, Event.rd false, Event.wr true,
             Event.rd true, Event.rd true] }) ∧
    ∀ k : Nat, drivers.owi_search_rom scriptBus [1, 0, 0, 0, 0, 0, 0, 0] 2 0 (4 + k)
        { pending := [false, false, true, false], log := [] } =
      some (0xFF, [1, 0, 0, 0, 0, 0, 0, 0],
        { pending := [],
          log := (byte_bits 0xF0).map Event.wr ++
            [Event.rd false, Event.rd false,
             Event.rd true, Event.rd false, Event.wr true,
             Event.rd true, Event.rd true] })) ∧
    ((owi_search_rom scriptBus [1, 0, 0, 0, 0, 0, 0, 0] 2 0
        { pending := [false, false] ++ (List.replicate 63 [true, false]).flatten,
          log := [] }).1 = 0 ∧
    (owi_search_rom scriptBus [1, 0, 0, 0, 0, 0, 0, 0] 2 0
        { pending := [false, false] ++ (List.replicate 63 [true, false]).flatten,
          log := [] }).2.1 = [255, 255, 255, 255, 255, 255, 255, 255] ∧
    ∀ k : Nat, (drivers.owi_search_rom scriptBus [1, 0, 0, 0, 0, 0, 0, 0] 2 0 (72 + k)
        { pending := [false, false] ++ (List.replicate 63 [true, false]).flatten,
          log := [] }).map (fun r => (r.1, r.2.1)) =
      some (0xFF, [255, 255, 255, 255, 255, 255, 255, 127])) ∧
    (owi_search_rom lowBus [1, 0, 0, 0, 0, 0, 0, 0] 2 0 () =
        (64, [3, 0, 0, 0, 0, 0, 0, 0], ()) ∧
      ∀ fuel : Nat,
        drivers.owi_search_rom lowBus [1, 0, 0, 0, 0, 0, 0, 0] 2 0 fuel () = none) ∧
    (search_all [[0, 0, 0, 0, 0, 0, 0, 0], [1, 0, 0, 0, 0, 0, 0, 0], [3, 0, 0, 0, 0, 0, 0, 0]] 0 2
        [0, 0, 0, 0, 0, 0, 0, 0] 0 =
      [(1, [0, 0, 0, 0, 0, 0, 0, 0]), (2, [1, 0, 0, 0, 0, 0, 0, 0])] ∧
    owi_search_rom wiredBus [1, 0, 0, 0, 0, 0, 0, 0] 2 0
        (wired_start [[0, 0, 0, 0, 0, 0, 0, 0], [1, 0, 0, 0, 0, 0, 0, 0],
          [3, 0, 0, 0, 0, 0, 0, 0]]) =
      (0, [3, 0, 0, 0, 0, 0, 0, 0],
        { sel := [[3, 0, 0, 0, 0, 0, 0, 0]], pos := 64, phase := 0 }) ∧
    ∀ k : Nat, drivers.owi_search_rom wiredBus [1, 0, 0, 0, 0, 0, 0, 0] 2 0 (2 + k)
        (wired_start [[0, 0, 0, 0, 0, 0, 0, 0], [1, 0, 0, 0, 0, 0, 0, 0],
          [3, 0, 0, 0, 0, 0, 0, 0]]) =
      some (0xFF, [1, 0, 0, 0, 0, 0, 0, 0],
        { sel := [[0, 0, 0, 0, 0, 0, 0, 0], [1, 0, 0, 0, 0, 0, 0, 0],
            [3, 0, 0, 0, 0, 0, 0, 0]], pos := 0, phase := 2 })) ∧
    (∀ (τ : Type) (B : Bus τ) (rom : List Nat) (L pin fuel : Nat) (s : τ), L ≤ 1 → 73 ≤ fuel →
      drivers.owi_search_rom B rom L pin fuel s = some (owi_search_rom B rom L pin s)) := by
  refine ⟨⟨drivers_script_short.1, fun k => ?_⟩,
    ⟨drivers_script_long.1, drivers_script_long.2.1, fun k => ?_⟩,
    ⟨search_rom_low, drivers_low_hangs⟩,
    ⟨drivers_wired_third.1, drivers_wired_third.2.1, fun k => ?_⟩,
    fun τ B rom L pin fuel s hL hf => drivers_search_agree B rom L pin fuel s hL hf⟩
  · exact drivers_rom_fuel_mono _ _ _ _ _ k _ _ drivers_script_short.2
  · have h := drivers_script_long.2.2
    cases hx : drivers.owi_search_rom scriptBus [1, 0, 0, 0, 0, 0, 0, 0] 2 0 72
        { pending := [false, false] ++ (List.replicate 63 [true, false]).flatten, log := [] } with
    | none => rw [hx] at h; exact absurd h (by simp)
    | some x =>
      rw [hx] at h
      rw [drivers_rom_fuel_mono _ _ _ _ _ k _ _ hx]
      exact h
  · exact drivers_rom_fuel_mono _ _ _ _ _ k _ _ drivers_wired_third.2.2

/-! ## The line with no device: every sample reads 1 -/

theorem idle_headD (p : List Bool) (h : ∀ b ∈ p, b = true) : p.headD true = true := by
  cases p with
  | nil => rfl
  | cons a t => exact h a (List.mem_cons_self _ _)

theorem idle_tail (p : List Bool) (h : ∀ b ∈ p, b = true) : ∀ b ∈ p.tail, b = true :=
  fun b hb => h b (List.mem_of_mem_tail hb)

theorem idle_drop (p : List Bool) (n : Nat) (h : ∀ b ∈ p, b = true) :
    ∀ b ∈ p.drop n, b = true :=
  fun b hb => h b (List.mem_of_mem_drop hb)

theorem idle_sampled (n : Nat) : ∀ (p : List Bool), (∀ b ∈ p, b = true) →
    sampled n p = List.replicate n true := by
  induction n with
  | zero => intro p _; rfl
  | succ n ih =>
    intro p h
    rw [sampled, idle_headD p h, ih p.tail (idle_tail p h), List.replicate_succ]

theorem idle_scratch_loop (pin : Nat) :
    ∀ (n idx : Nat) (scr : List Nat) (p : List Bool) (lg : List LineEvent),
      (∀ b ∈ p, b = true) → scr.length = idx + n →
      read_scratchpad_loop scriptLine pin n idx scr { pending := p, log := lg } =
        (scr.take idx ++ List.replicate n 0xFF,
          { pending := p.drop (8 * n),
            log := lg ++ rd_slots (List.replicate (8 * n) true) }) := by
  intro n
  induction n with
  | zero =>
    intro idx scr p lg _ hlen
    simp only [Nat.add_zero] at hlen
    simp [read_scratchpad_loop, rd_slots, ← hlen]
  | succ n ih =>
    intro idx scr p lg hp hlen
    rw [read_scratchpad_loop, line_recv_byte]
    simp only [idle_sampled 8 p hp]
    rw [ih (idx + 1) _ _ _ (idle_drop p 8 hp) (by rw [List.length_set]; omega),
      take_set_succ _ _ _ (by omega)]
    have hb : bits_byte (List.replicate 8 true) = 0xFF := by decide
    have e1 : List.replicate (n + 1) 0xFF = 0xFF :: List.replicate n 0xFF := rfl
    have e2 : List.replicate (8 * (n + 1)) true =
        List.replicate 8 true ++ List.replicate (8 * n) true := by
      rw [← List.replicate_add, show 8 * (n + 1) = 8 + 8 * n by omega]
    have e3 : (p.drop 8).drop (8 * n) = p.drop (8 * (n + 1)) := by
      rw [List.drop_drop, show 8 * (n + 1) = 8 + 8 * n by omega]
    rw [hb, e1, e2, e3, rd_slots_append]
    simp only [List.append_assoc, List.singleton_append]

set_option maxRecDepth 100000 in
theorem idle_scratchpad_crc : scratchpad_crc (List.replicate 9 0xFF) = true := by decide

theorem idle_wait (pin fuel : Nat) (p : List Bool) (lg : List LineEvent)
    (h : p.headD true = true) :
    wait_conversion scriptLine pin (fuel + 1) { pending := p, log := lg } =
      some { pending := p.tail, log := lg ++ [LineEvent.slot (Event.rd true)] } := by
  rw [wait_conversion]
  simp only [line_is_busy, h, Bool.not_true, Bool.false_eq_true, if_false]

set_option maxRecDepth 10000 in
theorem idle_read_temp (dev : ds18b20_dev_t) (sp0 : List Nat) (fuel : Nat) (p : List Bool)
    (lg : List LineEvent) (h0 : sp0.length = 9) (hp : ∀ b ∈ p, b = true) :
    ds18b20_read_temp scriptLine dev sp0 (fuel + 1) { pending := p, log := lg } =
      some (true, dev,
        { pending := p.drop 75,
          log := lg ++ (LineEvent.reset true ::
            (wr_slots (byte_bits MATCH_ROM_CMD ++ wire_bits dev.rom ++ byte_bits CONVERT_TEMP_CMD) ++
              (LineEvent.slot (Event.rd true) ::
                (LineEvent.reset true ::
                  (wr_slots (byte_bits MATCH_ROM_CMD ++ wire_bits dev.rom ++
                      byte_bits READ_SCRATCHPAD_CMD) ++
                    rd_slots (List.replicate 72 true)))))) }) := by
  have h1 := idle_headD p hp
  have h2 := idle_headD p.tail (idle_tail p hp)
  have h3 := idle_headD p.tail.tail (idle_tail _ (idle_tail p hp))
  have hd : (p.tail.tail.tail).drop (8 * 9) = p.drop 75 := by
    rw [← List.drop_one, ← List.drop_one, ← List.drop_one, List.drop_drop, List.drop_drop,
      List.drop_drop]
  unfold ds18b20_read_temp
  simp only [line_detect, line_match_rom, line_send_byte, h1]
  rw [idle_wait dev.pin fuel p.tail _ h2]
  unfold read_temp_finish read_scratchpad
  simp only [line_detect, line_match_rom, line_send_byte, h3, SCRATCHPAD_LEN_BYTES]
  rw [idle_scratch_loop dev.pin 9 0 sp0 _ _ (idle_tail _ (idle_tail _ (idle_tail p hp)))
    (by omega)]
  simp only [List.take_zero, List.nil_append, idle_scratchpad_crc, Bool.not_true,
    Bool.false_eq_true, if_false, hd]
  simp only [wr_slots_append, List.append_assoc, List.cons_append, List.nil_append,
    List.singleton_append]

/-- Claim C30 (no device, idle line): on a line where every sample reads 1
(the script `p` holds only 1s, and a used-up script reads 1), for every device
record, every content of its `rom` and of the local scratchpad array,
`ds18b20_read_temp` ends as soon as the wait loop may run once, returns the
error status and leaves the record, its `temp` included, as it was: the
presence results are not looked at, the first poll slot reads 1 (not busy),
and the nine bytes 0xFF received fail the CRC check. It takes 75 samples,
three of them in reset and poll slots and 72 for the scratchpad, and performs
no final reset. -/
theorem read_temp_idle (dev : ds18b20_dev_t) (sp0 : List Nat) (fuel : Nat) (p : List Bool)
    (h0 : sp0.length = 9) (hp : ∀ b ∈ p, b = true) (hf : 0 < fuel) :
    (ds18b20_read_temp scriptLine dev sp0 fuel { pending := p, log := [] }).isSome = true ∧
    (ds18b20_read_temp scriptLine dev sp0 fuel { pending := p, log := [] }).map (fun r => r.1)
      = some true ∧
    (ds18b20_read_temp scriptLine dev sp0 fuel { pending := p, log := [] }).map (fun r => r.2.1)
      = some dev ∧
    (ds18b20_read_temp scriptLine dev sp0 fuel { pending := p, log := [] }).map
      (fun r => r.2.1.temp) = some dev.temp ∧
    (ds18b20_read_temp scriptLine dev sp0 fuel { pending := p, log := [] }).map (fun r => r.2.2)
      = some
        { pending := p.drop 75,
          log := LineEvent.reset true ::
            (wr_slots (byte_bits 0x55 ++ wire_bits dev.rom ++ byte_bits 0x44) ++
              (LineEvent.slot (Event.rd true) ::
                (LineEvent.reset true ::
                  (wr_slots (byte_bits 0x55 ++ wire_bits dev.rom ++ byte_bits 0xBE) ++
                    rd_slots (List.replicate 72 true))))) } ∧
    scratchpad_crc (List.replicate 9 0xFF) = true := by
  obtain ⟨n, rfl⟩ : ∃ n, fuel = n + 1 := ⟨fuel - 1, by omega⟩
  rw [idle_read_temp dev sp0 n p [] h0 hp]
  exact ⟨rfl, rfl, rfl, rfl, rfl, idle_scratchpad_crc⟩

/-- Witness of `read_temp_idle`: the used-up script, a record with a ROM and
a stored temperature. -/
theorem read_temp_idle_witness :
    [0, 0, 0, 0, 0, 0, 0, 0, 0].length = 9 ∧ (∀ b ∈ ([] : List Bool), b = true) ∧ 0 < 1 ∧
    ((ds18b20_read_temp scriptLine { pin := 2, rom := [0x28, 1, 2, 3, 4, 5, 6, 7], temp := 21 }
        [0, 0, 0, 0, 0, 0, 0, 0, 0] 1 { pending := [], log := [] }).isSome = true ∧
    (ds18b20_read_temp scriptLine { pin := 2, rom := [0x28, 1, 2, 3, 4, 5, 6, 7], temp := 21 }
        [0, 0, 0, 0, 0, 0, 0, 0, 0] 1 { pending := [], log := [] }).map (fun r => r.1)
      = some true ∧
    (ds18b20_read_temp scriptLine { pin := 2, rom := [0x28, 1, 2, 3, 4, 5, 6, 7], temp := 21 }
        [0, 0, 0, 0, 0, 0, 0, 0, 0] 1 { pending := [], log := [] }).map (fun r => r.2.1)
      = some { pin := 2, rom := [0x28, 1, 2, 3, 4, 5, 6, 7], temp := 21 } ∧
    (ds18b20_read_temp scriptLine { pin := 2, rom := [0x28, 1, 2, 3, 4, 5, 6, 7], temp := 21 }
        [0, 0, 0, 0, 0, 0, 0, 0, 0] 1 { pending := [], log := [] }).map
      (fun r => r.2.1.temp) =
        some (({ pin := 2, rom := [0x28, 1, 2, 3, 4, 5, 6, 7], temp := 21 } : ds18b20_dev_t).temp) ∧
    (ds18b20_read_temp scriptLine { pin := 2, rom := [0x28, 1, 2, 3, 4, 5, 6, 7], temp := 21 }
        [0, 0, 0, 0, 0, 0, 0, 0, 0] 1 { pending := [], log := [] }).map (fun r => r.2.2)
      = some
        { pending := ([] : List Bool).drop 75,
          log := LineEvent.reset true ::
            (wr_slots (byte_bits 0x55 ++
                wire_bits ({ pin := 2, rom := [0x28, 1, 2, 3, 4, 5, 6, 7], temp := 21 } :
                  ds18b20_dev_t).rom ++ byte_bits 0x44) ++
              (LineEvent.slot (Event.rd true) ::
                (LineEvent.reset true ::
                  (wr_slots (byte_bits 0x55 ++
                      wire_bits ({ pin := 2, rom := [0x28, 1, 2, 3, 4, 5, 6, 7], temp := 21 } :
                        ds18b20_dev_t).rom ++ byte_bits 0xBE) ++
                    rd_slots (List.replicate 72 true))))) } ∧
    scratchpad_crc (List.replicate 9 0xFF) = true) :=
  ⟨by decide, by simp, by decide,
    read_temp_idle { pin := 2, rom := [0x28, 1, 2, 3, 4, 5, 6, 7], temp := 21 }
      [0, 0, 0, 0, 0, 0, 0, 0, 0] 1 [] (by decide) (by simp) (by decide)⟩

/-! ## The slots on the traced microcontroller -/

theorem trace_write_bit1 (pin : Nat) (lv : List Bool) (ev : List HwEvent) :
    write_bit1 traceHw pin { levels := lv, events := ev } =
      { levels := lv,
        events := ev ++ [HwEvent.cli, HwEvent.low pin, HwEvent.wait 6, HwEvent.release pin,
          HwEvent.wait 64, HwEvent.sei] } := by
  simp [write_bit1, traceHw, OWI_DELAY_US_A, OWI_DELAY_US_B]

theorem trace_write_bit0 (pin : Nat) (lv : List Bool) (ev : List HwEvent) :
    write_bit0 traceHw pin { levels := lv, events := ev } =
      { levels := lv,
        events := ev ++ [HwEvent.cli, HwEvent.low pin, HwEvent.wait 60, HwEvent.release pin,
          HwEvent.wait 10, HwEvent.sei] } := by
  simp [write_bit0, traceHw, OWI_DELAY_US_C, OWI_DELAY_US_D]

theorem trace_read_bit (pin : Nat) (lv : List Bool) (ev : List HwEvent) :
    read_bit traceHw pin { levels := lv, events := ev } =
      (lv.headD true,
        { levels := lv.tail,
          events := ev ++ [HwEvent.cli, HwEvent.low pin, HwEvent.wait 6, HwEvent.release pin,
            HwEvent.wait 9, HwEvent.sample pin (lv.headD true), HwEvent.wait 55,
            HwEvent.sei] }) := by
  simp [read_bit, traceHw, OWI_DELAY_US_A, OWI_DELAY_US_E, OWI_DELAY_US_F]

theorem trace_presence (pin : Nat) (lv : List Bool) (ev : List HwEvent) :
    owi_detect_presence (hwLine traceHw) pin { levels := lv, events := ev } =
      (!lv.headD true,
        { levels := lv.tail,
          events := ev ++ [HwEvent.cli, HwEvent.low pin, HwEvent.wait 480, HwEvent.release pin,
            HwEvent.wait 70, HwEvent.sample pin (lv.headD true), HwEvent.wait 410,
            HwEvent.sei] }) := by
  simp [owi_detect_presence, hwLine, presence_slot, traceHw, OWI_DELAY_US_H, OWI_DELAY_US_I,
    OWI_DELAY_US_J]

theorem masked_append (a b : List HwEvent) :
    ∀ en : Bool, masked en (a ++ b) = (masked en a && masked (irq_after en a) b) := by
  induction a with
  | nil => intro en; simp [masked, irq_after]
  | cons e t ih =>
    intro en
    cases e <;> simp [masked, irq_after, ih, Bool.and_assoc]

theorem irq_after_append (a b : List HwEvent) :
    ∀ en : Bool, irq_after en (a ++ b) = irq_after (irq_after en a) b := by
  induction a with
  | nil => intro en; rfl
  | cons e t ih =>
    intro en
    cases e <;> simp [irq_after, ih]

/-- The bus of `src/owi.c` on the traced microcontroller keeps a trace
masked, whatever the flag was at its start: every slot begins with `cli()`
and ends with `sei()`. -/
theorem trace_slots_masked (en : Bool) (pin : Nat) (t : HwTrace) (h : masked en t.events = true) :
    masked en ((hwLine traceHw).write_bit1 pin t).events = true ∧
    masked en ((hwLine traceHw).write_bit0 pin t).events = true ∧
    masked en ((hwLine traceHw).read_bit pin t).2.events = true := by
  obtain ⟨lv, ev⟩ := t
  simp only at h
  refine ⟨?_, ?_, ?_⟩
  · show masked en (write_bit1 traceHw pin _).events = true
    rw [trace_write_bit1, masked_append, h]; rfl
  · show masked en (write_bit0 traceHw pin _).events = true
    rw [trace_write_bit0, masked_append, h]; rfl
  · show masked en (read_bit traceHw pin _).2.events = true
    rw [trace_read_bit, masked_append, h]; rfl

/-! ## What every slot keeps, the bytes, the ROM commands and the search keep -/

theorem write_bits_keeps (B : Bus σ) (P : σ → Prop)
    (h1 : ∀ pin s, P s → P (B.write_bit1 pin s)) (h0 : ∀ pin s, P s → P (B.write_bit0 pin s))
    (pin : Nat) (l : List Bool) : ∀ s, P s → P (write_bits B pin l s) := by
  induction l with
  | nil => intro s h; exact h
  | cons b t ih =>
    intro s h
    rw [write_bits]
    apply ih
    cases b
    · exact h0 pin s h
    · exact h1 pin s h

theorem read_slots_keeps (B : Bus σ) (P : σ → Prop)
    (hr : ∀ pin s, P s → P (B.read_bit pin s).2) (pin n : Nat) :
    ∀ s, P s → P (read_slots B pin n s).2 := by
  induction n with
  | zero => intro s h; exact h
  | succ n ih =>
    intro s h
    rw [read_slots]
    exact ih _ (hr pin s h)

theorem send_byte_keeps (B : Bus σ) (P : σ → Prop)
    (h1 : ∀ pin s, P s → P (B.write_bit1 pin s)) (h0 : ∀ pin s, P s → P (B.write_bit0 pin s))
    (d pin : Nat) (s : σ) (h : P s) : P (owi_send_byte B d pin s) := by
  rw [send_byte_write_bits]
  exact write_bits_keeps B P h1 h0 pin _ s h

theorem recv_byte_keeps (B : Bus σ) (P : σ → Prop)
    (hr : ∀ pin s, P s → P (B.read_bit pin s).2) (pin : Nat) (s : σ) (h : P s) :
    P (owi_recv_byte B pin s).2 := by
  rw [recv_byte_read_slots]
  exact read_slots_keeps B P hr pin 8 s h

theorem read_rom_keeps (B : Bus σ) (P : σ → Prop)
    (h1 : ∀ pin s, P s → P (B.write_bit1 pin s)) (h0 : ∀ pin s, P s → P (B.write_bit0 pin s))
    (hr : ∀ pin s, P s → P (B.read_bit pin s).2) (rom : List Nat) (pin : Nat) (s : σ)
    (h : P s) : P (owi_read_rom B rom pin s).2 := by
  have hl : ∀ (n : Nat) (r : List Nat) (t : σ), P t → P (owi_read_rom_loop B pin n r t).2 := by
    intro n
    induction n with
    | zero => intro r t ht; exact ht
    | succ n ih =>
      intro r t ht
      rw [owi_read_rom_loop]
      exact ih _ _ (recv_byte_keeps B P hr pin t ht)
  exact hl _ _ _ (send_byte_keeps B P h1 h0 _ pin s h)

theorem match_rom_keeps (B : Bus σ) (P : σ → Prop)
    (h1 : ∀ pin s, P s → P (B.write_bit1 pin s)) (h0 : ∀ pin s, P s → P (B.write_bit0 pin s))
    (rom : List Nat) (pin : Nat) (s : σ) (h : P s) : P (owi_match_rom B rom pin s).2 := by
  have hl : ∀ (n : Nat) (t : σ), P t → P (owi_match_rom_loop B rom pin n t) := by
    intro n
    induction n with
    | zero => intro t ht; exact ht
    | succ n ih =>
      intro t ht
      rw [owi_match_rom_loop]
      exact ih _ (send_byte_keeps B P h1 h0 _ pin t ht)
  exact hl _ _ (send_byte_keeps B P h1 h0 _ pin s h)

theorem search_body_keeps (B : Bus σ) (P : σ → Prop)
    (h1 : ∀ pin s, P s → P (B.write_bit1 pin s)) (h0 : ∀ pin s, P s → P (B.write_bit0 pin s))
    (hr : ∀ pin s, P s → P (B.read_bit pin s).2) (L pin : Nat) (st : SearchState σ)
    (h : P st.bus) : P (search_body B L pin st).bus := by
  have h2 : P (B.read_bit pin (B.read_bit pin st.bus).2).2 := hr pin _ (hr pin _ h)
  unfold search_body
  dsimp only
  split
  · exact h2
  · show P (write_bit B _ _ pin _)
    unfold write_bit
    split
    · exact h1 pin _ h2
    · exact h0 pin _ h2

theorem search_steps_keeps (B : Bus σ) (P : σ → Prop)
    (h1 : ∀ pin s, P s → P (B.write_bit1 pin s)) (h0 : ∀ pin s, P s → P (B.write_bit0 pin s))
    (hr : ∀ pin s, P s → P (B.read_bit pin s).2) (L pin : Nat) :
    ∀ (n i : Nat) (rom : List Nat) (nd : Nat) (s : σ), P s →
      P (search_steps B L pin n i rom nd s).bus := by
  intro n
  induction n with
  | zero => intro i rom nd s h; exact h
  | succ n ih =>
    intro i rom nd s h
    have hb := search_body_keeps B P h1 h0 hr L pin (search_at (i / 8) (i % 8) rom nd s) h
    rw [search_steps]
    split
    · exact hb
    · exact ih _ _ _ _ hb

theorem search_rom_keeps (B : Bus σ) (P : σ → Prop)
    (h1 : ∀ pin s, P s → P (B.write_bit1 pin s)) (h0 : ∀ pin s, P s → P (B.write_bit0 pin s))
    (hr : ∀ pin s, P s → P (B.read_bit pin s).2) (rom : List Nat) (L pin : Nat) (s : σ)
    (h : P s) : P (owi_search_rom B rom L pin s).2.2 := by
  unfold owi_search_rom
  simp only [owi_search_rom_state_eq]
  exact search_steps_keeps B P h1 h0 hr L pin 64 0 rom 0 _ (send_byte_keeps B P h1 h0 _ pin s h)

/-- Claim C31 (critical sections): on the traced microcontroller, the steps
of `write_bit0`, `write_bit1`, `read_bit` and `owi_detect_presence` begin
with `cli()` and end with `sei()`, and no step between the two is a `cli()`
or a `sei()`: the drive-low, release, delay and sample steps all lie between
them. Hence in the steps of `owi_send_byte`, `owi_recv_byte`, `owi_read_rom`,
`owi_match_rom` and `owi_search_rom`, whatever the levels sampled, the
arguments and the interrupt flag `en` on entry, no drive-low and no sample
step happens while interrupts are enabled; a drive-low or a sample step taken
with interrupts enabled would not pass this test. -/
theorem critical_sections (pin : Nat) (lv : List Bool) :
    ((write_bit0 traceHw pin { levels := lv, events := [] }).events.head? = some HwEvent.cli ∧
      (write_bit0 traceHw pin { levels := lv, events := [] }).events.getLast? =
        some HwEvent.sei ∧
      ∀ e ∈ (write_bit0 traceHw pin { levels := lv, events := [] }).events.tail.dropLast,
        is_irq e = false) ∧
    ((write_bit1 traceHw pin { levels := lv, events := [] }).events.head? = some HwEvent.cli ∧
      (write_bit1 traceHw pin { levels := lv, events := [] }).events.getLast? =
        some HwEvent.sei ∧
      ∀ e ∈ (write_bit1 traceHw pin { levels := lv, events := [] }).events.tail.dropLast,
        is_irq e = false) ∧
    ((read_bit traceHw pin { levels := lv, events := [] }).2.events.head? = some HwEvent.cli ∧
      (read_bit traceHw pin { levels := lv, events := [] }).2.events.getLast? =
        some HwEvent.sei ∧
      ∀ e ∈ (read_bit traceHw pin { levels := lv, events := [] }).2.events.tail.dropLast,
        is_irq e = false) ∧
    ((owi_detect_presence (hwLine traceHw) pin { levels := lv, events := [] }).2.events.head? =
        some HwEvent.cli ∧
      (owi_detect_presence (hwLine traceHw) pin { levels := lv, events := [] }).2.events.getLast? =
        some HwEvent.sei ∧
      ∀ e ∈ (owi_detect_presence (hwLine traceHw) pin
          { levels := lv, events := [] }).2.events.tail.dropLast,
        is_irq e = false) ∧
    (∀ (en : Bool) (data : Nat),
      masked en (owi_send_byte (hwLine traceHw).toBus data pin
        { levels := lv, events := [] }).events = true) ∧
    (∀ en : Bool,
      masked en (owi_recv_byte (hwLine traceHw).toBus pin
        { levels := lv, events := [] }).2.events = true) ∧
    (∀ (en : Bool) (rom : List Nat),
      masked en (owi_read_rom (hwLine traceHw).toBus rom pin
        { levels := lv, events := [] }).2.events = true) ∧
    (∀ (en : Bool) (rom : List Nat),
      masked en (owi_match_rom (hwLine traceHw).toBus rom pin
        { levels := lv, events := [] }).2.events = true) ∧
    (∀ (en : Bool) (rom : List Nat) (last_deviation : Nat),
      masked en (owi_search_rom (hwLine traceHw).toBus rom last_deviation pin
        { levels := lv, events := [] }).2.2.events = true) ∧
    (masked true [HwEvent.low pin] = false ∧
      masked true [HwEvent.sample pin (lv.headD true)] = false) := by
  have k1 : ∀ (en : Bool) (p : Nat) (t : HwTrace), masked en t.events = true →
      masked en ((hwLine traceHw).toBus.write_bit1 p t).events = true :=
    fun en p t h => (trace_slots_masked en p t h).1
  have k0 : ∀ (en : Bool) (p : Nat) (t : HwTrace), masked en t.events = true →
      masked en ((hwLine traceHw).toBus.write_bit0 p t).events = true :=
    fun en p t h => (trace_slots_masked en p t h).2.1
  have kr : ∀ (en : Bool) (p : Nat) (t : HwTrace), masked en t.events = true →
      masked en ((hwLine traceHw).toBus.read_bit p t).2.events = true :=
    fun en p t h => (trace_slots_masked en p t h).2.2
  refine ⟨?_, ?_, ?_, ?_, fun en data => ?_, fun en => ?_, fun en rom => ?_, fun en rom => ?_,
    fun en rom L => ?_, ⟨rfl, rfl⟩⟩
  · rw [trace_write_bit0]
    refine ⟨rfl, rfl, ?_⟩
    intro e he
    simp at he
    rcases he with rfl | rfl | rfl | rfl <;> rfl
  · rw [trace_write_bit1]
    refine ⟨rfl, rfl, ?_⟩
    intro e he
    simp at he
    rcases he with rfl | rfl | rfl | rfl <;> rfl
  · rw [trace_read_bit]
    refine ⟨rfl, rfl, ?_⟩
    intro e he
    simp at he
    rcases he with rfl | rfl | rfl | rfl | rfl | rfl <;> rfl
  · rw [trace_presence]
    refine ⟨rfl, rfl, ?_⟩
    intro e he
    simp at he
    rcases he with rfl | rfl | rfl | rfl | rfl | rfl <;> rfl
  · exact send_byte_keeps (hwLine traceHw).toBus (fun t : HwTrace => masked en t.events = true)
      (k1 en) (k0 en) data pin { levels := lv, events := [] } rfl
  · exact recv_byte_keeps (hwLine traceHw).toBus (fun t : HwTrace => masked en t.events = true)
      (kr en) pin { levels := lv, events := [] } rfl
  · exact read_rom_keeps (hwLine traceHw).toBus (fun t : HwTrace => masked en t.events = true)
      (k1 en) (k0 en) (kr en) rom pin { levels := lv, events := [] } rfl
  · exact match_rom_keeps (hwLine traceHw).toBus (fun t : HwTrace => masked en t.events = true)
      (k1 en) (k0 en) rom pin { levels := lv, events := [] } rfl
  · exact search_rom_keeps (hwLine traceHw).toBus (fun t : HwTrace => masked en t.events = true)
      (k1 en) (k0 en) (kr en) rom L pin { levels := lv, events := [] } rfl

/-! ## The interrupt flag across a slot -/

/-- Claim C32 fails on the code as stated: with the global interrupt-enable
flag cleared before the call, each of `write_bit0`, `write_bit1`, `read_bit`
and `owi_detect_presence` leaves it set, because each ends with `sei()`. -/
theorem irq_restored_counterexample :
    (write_bit0 (flagHw traceHw) 2 (false, { levels := [], events := [] })).1 = true ∧
    (write_bit1 (flagHw traceHw) 2 (false, { levels := [], events := [] })).1 = true ∧
    (read_bit (flagHw traceHw) 2 (false, { levels := [], events := [] })).2.1 = true ∧
    (owi_detect_presence (hwLine (flagHw traceHw)) 2
      (false, { levels := [], events := [] })).2.1 = true ∧
    (write_bit0 (flagHw traceHw) 2 (false, { levels := [], events := [] })).1 ≠ false := by
  decide

/-- Claim C32 as the code has it: on every microcontroller and for both
values `f` of the global interrupt-enable flag before the call, the flag is
set after `write_bit0`, `write_bit1`, `read_bit` and `owi_detect_presence`
(each ends with an unconditional `sei()`), so the flag after the call equals
the flag before it exactly when interrupts were enabled on entry. Keeping
track of the flag changes nothing else: the microcontroller is left as by the
same call without the flag, and the bit read and the presence reported are
the same. On the traced microcontroller the flag computed from the steps of
each call is set as well. -/
theorem irq_enabled_after (H : Hw σ) (pin : Nat) (f : Bool) (s : σ) (lv : List Bool) :
    ((write_bit0 (flagHw H) pin (f, s)).1 = true ∧
      (write_bit1 (flagHw H) pin (f, s)).1 = true ∧
      (read_bit (flagHw H) pin (f, s)).2.1 = true ∧
      (owi_detect_presence (hwLine (flagHw H)) pin (f, s)).2.1 = true) ∧
    (((write_bit0 (flagHw H) pin (f, s)).1 = f ↔ f = true) ∧
      ((write_bit1 (flagHw H) pin (f, s)).1 = f ↔ f = true) ∧
      ((read_bit (flagHw H) pin (f, s)).2.1 = f ↔ f = true) ∧
      ((owi_detect_presence (hwLine (flagHw H)) pin (f, s)).2.1 = f ↔ f = true)) ∧
    ((write_bit0 (flagHw H) pin (f, s)).2 = write_bit0 H pin s ∧
      (write_bit1 (flagHw H) pin (f, s)).2 = write_bit1 H pin s ∧
      ((read_bit (flagHw H) pin (f, s)).1 = (read_bit H pin s).1 ∧
        (read_bit (flagHw H) pin (f, s)).2.2 = (read_bit H pin s).2) ∧
      ((owi_detect_presence (hwLine (flagHw H)) pin (f, s)).1 =
          (owi_detect_presence (hwLine H) pin s).1 ∧
        (owi_detect_presence (hwLine (flagHw H)) pin (f, s)).2.2 =
          (owi_detect_presence (hwLine H) pin s).2)) ∧
    (irq_after f (write_bit0 traceHw pin { levels := lv, events := [] }).events = true ∧
      irq_after f (write_bit1 traceHw pin { levels := lv, events := [] }).events = true ∧
      irq_after f (read_bit traceHw pin { levels := lv, events := [] }).2.events = true ∧
      irq_after f (owi_detect_presence (hwLine traceHw) pin
        { levels := lv, events := [] }).2.events = true) := by
  refine ⟨⟨rfl, rfl, rfl, rfl⟩, ⟨?_, ?_, ?_, ?_⟩, ⟨rfl, rfl, ⟨rfl, rfl⟩, ⟨rfl, rfl⟩⟩, ?_⟩
  · show true = f ↔ f = true
    exact eq_comm
  · show true = f ↔ f = true
    exact eq_comm
  · show true = f ↔ f = true
    exact eq_comm
  · show true = f ↔ f = true
    exact eq_comm
  · rw [trace_write_bit0, trace_write_bit1, trace_read_bit, trace_presence]
    exact ⟨rfl, rfl, rfl, rfl⟩

/-! ## The timing of the slots -/

/-- Claim C33 (slot timing table): on every microcontroller each slot is the
fixed sequence of the source, and on the traced microcontroller its steps
are, between `cli()` and `sei()`: for `write_bit1` low, wait 6, release,
wait 64; for `write_bit0` low, wait 60, release, wait 10; for `read_bit` low,
wait 6, release, wait 9, sample, wait 55; for `owi_detect_presence` low,
wait 480, release, wait 70, sample, wait 410. So each bit slot programs 70
microseconds of delay and a reset slot 960. -/
theorem slot_timing (H : Hw σ) (s : σ) (pin : Nat) (lv : List Bool) :
    (write_bit1 H pin s =
        H.sei (H.delay_us 64 (H.release_bus pin (H.delay_us 6 (H.drive_bus_low pin (H.cli s))))) ∧
      write_bit0 H pin s =
        H.sei (H.delay_us 10 (H.release_bus pin (H.delay_us 60 (H.drive_bus_low pin (H.cli s))))) ∧
      read_bit H pin s =
        ((H.read_bus_value pin (H.delay_us 9 (H.release_bus pin
            (H.delay_us 6 (H.drive_bus_low pin (H.cli s)))))).1,
          H.sei (H.delay_us 55 (H.read_bus_value pin (H.delay_us 9 (H.release_bus pin
            (H.delay_us 6 (H.drive_bus_low pin (H.cli s)))))).2))) ∧
    ((write_bit1 traceHw pin { levels := lv, events := [] }).events =
        [HwEvent.cli, HwEvent.low pin, HwEvent.wait 6, HwEvent.release pin, HwEvent.wait 64,
          HwEvent.sei] ∧
      (write_bit0 traceHw pin { levels := lv, events := [] }).events =
        [HwEvent.cli, HwEvent.low pin, HwEvent.wait 60, HwEvent.release pin, HwEvent.wait 10,
          HwEvent.sei] ∧
      (read_bit traceHw pin { levels := lv, events := [] }).2.events =
        [HwEvent.cli, HwEvent.low pin, HwEvent.wait 6, HwEvent.release pin, HwEvent.wait 9,
          HwEvent.sample pin (lv.headD true), HwEvent.wait 55, HwEvent.sei] ∧
      (owi_detect_presence (hwLine traceHw) pin { levels := lv, events := [] }).2.events =
        [HwEvent.cli, HwEvent.low pin, HwEvent.wait 480, HwEvent.release pin, HwEvent.wait 70,
          HwEvent.sample pin (lv.headD true), HwEvent.wait 410, HwEvent.sei]) ∧
    ((write_bit1 traceHw pin { levels := lv, events := [] }).events.filter
          (fun e => !is_irq e) =
        [HwEvent.low pin, HwEvent.wait 6, HwEvent.release pin, HwEvent.wait 64] ∧
      (write_bit0 traceHw pin { levels := lv, events := [] }).events.filter
          (fun e => !is_irq e) =
        [HwEvent.low pin, HwEvent.wait 60, HwEvent.release pin, HwEvent.wait 10] ∧
      (read_bit traceHw pin { levels := lv, events := [] }).2.events.filter
          (fun e => !is_irq e) =
        [HwEvent.low pin, HwEvent.wait 6, HwEvent.release pin, HwEvent.wait 9,
          HwEvent.sample pin (lv.headD true), HwEvent.wait 55] ∧
      (owi_detect_presence (hwLine traceHw) pin
          { levels := lv, events := [] }).2.events.filter (fun e => !is_irq e) =
        [HwEvent.low pin, HwEvent.wait 480, HwEvent.release pin, HwEvent.wait 70,
          HwEvent.sample pin (lv.headD true), HwEvent.wait 410]) ∧
    (delay_total (write_bit1 traceHw pin { levels := lv, events := [] }).events = 70 ∧
      delay_total (write_bit0 traceHw pin { levels := lv, events := [] }).events = 70 ∧
      delay_total (read_bit traceHw pin { levels := lv, events := [] }).2.events = 70 ∧
      delay_total (owi_detect_presence (hwLine traceHw) pin
        { levels := lv, events := [] }).2.events = 960) := by
  rw [trace_write_bit0, trace_write_bit1, trace_read_bit, trace_presence]
  exact ⟨⟨rfl, rfl, rfl⟩, ⟨rfl, rfl, rfl, rfl⟩, ⟨rfl, rfl, rfl, rfl⟩, ⟨rfl, rfl, rfl, rfl⟩⟩

end OWI
